import Mathlib

/-!
Shallow embedding of the storage core of the Cydiater/bustub repository:
the B+ tree node pages (`b_plus_tree_leaf_page.cpp`, `b_plus_tree_internal_page.cpp`),
the B+ tree itself (`proj.2.2/src/storage/index/b_plus_tree.cpp`), the buffer pool
manager (the proj.2.2 copy of `buffer_pool_manager.cpp`), and the LRU replacer
(`proj.1/src/buffer/lru_replacer.cpp`).

Conventions of the embedding:
* Keys and values are `Int` (the C++ code is generic over `GenericKey`/`RID` with a
  three-valued comparator; `cmpI` is that comparator for integer keys).
* Page ids are `Int`; `INVALID_PAGE_ID = -1` as in bustub's `config.h`.
* A page's entry array is a `List (Int × Int)`; the entry count (`GetSize()`) is the
  list length.  Reads past the current size (stale array slots in C++) are modelled
  with `List.getD` and a junk default.
* Stateful code is modelled by explicit state passing.  Fallible paths (assertion
  failures, null page fetches, fuel exhaustion of loops) return `none` via `Option`.
* Latching, pinning inside the tree code and the header-page registry do not change
  node contents and are omitted from the tree model; the buffer pool model keeps
  pin counts because its claims are about them.
-/

namespace BusTub

/-- Sentinel page id, `INVALID_PAGE_ID` in bustub's `config.h`. -/
def INVALID_PAGE_ID : Int := -1

/-- Three-valued key comparator: `GenericComparator` returns -1, 0 or 1. -/
def cmpI (a b : Int) : Int :=
  if a < b then -1 else if a = b then 0 else 1

/-- Leaf node page: header fields plus the ordered entry array and the
`next_page_id_` link. -/
structure LeafNode where
  entries : List (Int × Int)
  nextPageId : Int
  parentPageId : Int
  pageId : Int
  maxSize : Nat
deriving DecidableEq, Repr

/-- Entry read `array[i]`; out-of-range reads model stale array slots. -/
def LeafNode.entryAt (l : LeafNode) (i : Nat) : Int × Int :=
  l.entries.getD i (0, 0)

/-- KeyAt for leaves. -/
def LeafNode.keyAt (l : LeafNode) (i : Nat) : Int :=
  (l.entryAt i).1

/-- Size of a leaf (`GetSize()`). -/
def LeafNode.size (l : LeafNode) : Nat :=
  l.entries.length

/-- Binary-search loop of `BPlusTreeLeafPage::KeyIndex`: while `left + 1 < right`,
`mid = (left + right) / 2`; if `comparator(array[mid].first, key) >= 0` then
`left = mid` else `right = mid`.  The loop is embedded with explicit fuel; any
fuel at least `right - left` runs it to completion. -/
def keyIndexLoop : Nat → LeafNode → Int → Nat → Nat → Nat × Nat
  | 0, _, _, left, right => (left, right)
  | fuel + 1, l, key, left, right =>
    if left + 1 < right then
      let mid := (left + right) / 2
      if cmpI (l.keyAt mid) key ≥ 0 then keyIndexLoop fuel l key mid right
      else keyIndexLoop fuel l key left mid
    else (left, right)

/-- Model of `BPlusTreeLeafPage::KeyIndex(key)`: `left = 1`, `right = GetSize()-1`,
run the loop, then `if comparator(array[left].first, key) < 0 then left = right`;
return `left`. -/
def LeafNode.keyIndex (l : LeafNode) (key : Int) : Nat :=
  let left := 1
  let right := l.size - 1
  let p := keyIndexLoop l.size l key left right
  if cmpI (l.keyAt p.1) key < 0 then p.2 else p.1

/-- Binary-search loop of `BPlusTreeLeafPage::Lookup`: while `left + 1 < right`,
if `comparator(key, array[mid].first) >= 0` then `left = mid` else `right = mid`. -/
def leafLookupLoop : Nat → LeafNode → Int → Nat → Nat → Nat × Nat
  | 0, _, _, left, right => (left, right)
  | fuel + 1, l, key, left, right =>
    if left + 1 < right then
      let mid := (left + right) / 2
      if cmpI key (l.keyAt mid) ≥ 0 then leafLookupLoop fuel l key mid right
      else leafLookupLoop fuel l key left mid
    else (left, right)

/-- Model of `BPlusTreeLeafPage::Lookup(key)`: binary search from
`left = 0`, `right = GetSize()-1`, then check both final indices for equality. -/
def LeafNode.lookup (l : LeafNode) (key : Int) : Option Int :=
  let p := leafLookupLoop l.size l key 0 (l.size - 1)
  if cmpI key (l.keyAt p.1) = 0 then some (l.entryAt p.1).2
  else if cmpI key (l.keyAt p.2) = 0 then some (l.entryAt p.2).2
  else none

/-- First scan of `BPlusTreeLeafPage::Insert`: walk the entries in order;
at the first entry with `comparator(key, array[i].first) == -1` stop with
insertion slot `i`; if an entry compares equal, report a duplicate.
Returns `none` for a duplicate, `some (some i)` for slot `i`, and
`some none` when the scan fell off the end without deciding. -/
def leafFindSlot (key : Int) : List (Int × Int) → Nat → Option (Option Nat)
  | [], _ => some none
  | e :: rest, i =>
    if cmpI key e.1 = -1 then some (some i)
    else if cmpI key e.1 = 0 then none
    else leafFindSlot key rest (i + 1)

/-- Model of `BPlusTreeLeafPage::Insert(key, value)`.  The C++ asserts
`GetSize() < GetMaxSize()` on entry (modelled as `none`), inserts into the empty
page directly, otherwise scans for the slot, returning the unchanged page on a
duplicate; when `key` is greater than the last entry the slot is `GetSize()`.
The C++ shifting loop is the `take ++ [e] ++ drop` splice. -/
def LeafNode.insert (l : LeafNode) (key value : Int) : Option LeafNode :=
  if l.size ≥ l.maxSize then none
  else if l.size = 0 then some { l with entries := [(key, value)] }
  else
    match leafFindSlot key l.entries 0 with
    | none => some l
    | some slot =>
      let idx : Option Nat :=
        match slot with
        | some i => some i
        | none => if cmpI key (l.keyAt (l.size - 1)) = 1 then some l.size else none
      match idx with
      | none => some l
      | some i =>
        some { l with entries := l.entries.take i ++ [(key, value)] ++ l.entries.drop i }

/-- Model of `BPlusTreeLeafPage::CopyNFrom(items, size)`: append the given
entries at the end of the page. -/
def LeafNode.copyNFrom (l : LeafNode) (items : List (Int × Int)) : LeafNode :=
  { l with entries := l.entries ++ items }

/-- Model of `BPlusTreeLeafPage::MoveHalfTo(recipient)`: `start = GetSize() / 2`,
the entries from `start` to the end are appended to the recipient and dropped
from the donor. -/
def leafMoveHalfTo (l recipient : LeafNode) : LeafNode × LeafNode :=
  let start := l.size / 2
  (⟨l.entries.take start, l.nextPageId, l.parentPageId, l.pageId, l.maxSize⟩,
   recipient.copyNFrom (l.entries.drop start))

/-- Model of `BPlusTreeLeafPage::RemoveAndDeleteRecord(key)`: remove the first
entry comparing equal to `key`, shifting the rest down; no effect when absent. -/
def leafRemoveAux (key : Int) : List (Int × Int) → List (Int × Int)
  | [] => []
  | e :: rest => if cmpI key e.1 = 0 then rest else e :: leafRemoveAux key rest

/-- RemoveAndDeleteRecord at the node level. -/
def LeafNode.removeAndDelete (l : LeafNode) (key : Int) : LeafNode :=
  { l with entries := leafRemoveAux key l.entries }

/-- Model of `BPlusTreeLeafPage::MoveAllTo(recipient)`: all entries are appended
to the recipient, the recipient inherits `next_page_id`, the donor's size drops
to zero (the donor page itself is deleted later by the caller). -/
def leafMoveAllTo (l recipient : LeafNode) : LeafNode × LeafNode :=
  (⟨[], l.nextPageId, l.parentPageId, l.pageId, l.maxSize⟩,
   { recipient.copyNFrom l.entries with nextPageId := l.nextPageId })

/-- Model of `BPlusTreeLeafPage::MoveFirstToEndOf(recipient)`: the donor's first
entry is appended to the recipient (`CopyLastFrom`) and shifted out of the donor. -/
def leafMoveFirstToEndOf (l recipient : LeafNode) : LeafNode × LeafNode :=
  ({ l with entries := l.entries.drop 1 },
   { recipient with entries := recipient.entries ++ l.entries.take 1 })

/-- Model of `BPlusTreeLeafPage::MoveLastToFrontOf(recipient)`: the donor's last
entry is prepended to the recipient (`CopyFirstFrom`). -/
def leafMoveLastToFrontOf (l recipient : LeafNode) : LeafNode × LeafNode :=
  ({ l with entries := l.entries.take (l.size - 1) },
   { recipient with entries := l.entries.drop (l.size - 1) ++ recipient.entries })

/-- Internal node page: ordered `(key, child_page_id)` entries; the key at
index 0 is a sentinel and is never compared. -/
structure InternalNode where
  entries : List (Int × Int)
  parentPageId : Int
  pageId : Int
  maxSize : Nat
deriving DecidableEq, Repr

/-- Entry read `array[i]` on an internal page. -/
def InternalNode.entryAt (nd : InternalNode) (i : Nat) : Int × Int :=
  nd.entries.getD i (0, INVALID_PAGE_ID)

/-- KeyAt for internal pages. -/
def InternalNode.keyAt (nd : InternalNode) (i : Nat) : Int :=
  (nd.entryAt i).1

/-- ValueAt, the child page id at index `i`. -/
def InternalNode.valueAt (nd : InternalNode) (i : Nat) : Int :=
  (nd.entryAt i).2

/-- Size of an internal page. -/
def InternalNode.size (nd : InternalNode) : Nat :=
  nd.entries.length

/-- Model of `BPlusTreeInternalPage::SetKeyAt(index, key)`. -/
def InternalNode.setKeyAt (nd : InternalNode) (i : Nat) (key : Int) : InternalNode :=
  { nd with entries := nd.entries.set i (key, nd.valueAt i) }

/-- Model of `BPlusTreeInternalPage::ValueIndex(value)`: the first index whose
child page id equals `value`, as a C++ int with `-1` for absent. -/
def valueIndexAux (v : Int) : List (Int × Int) → Int → Int
  | [], _ => -1
  | e :: rest, i => if v = e.2 then i else valueIndexAux v rest (i + 1)

/-- ValueIndex at the node level. -/
def InternalNode.valueIndex (nd : InternalNode) (v : Int) : Int :=
  valueIndexAux v nd.entries 0

/-- Binary-search loop of `BPlusTreeInternalPage::Lookup`: while `left + 1 < right`,
if `comparator(key, array[mid].first) == -1` then `right = mid` else `left = mid`. -/
def internalLookupLoop : Nat → InternalNode → Int → Nat → Nat → Nat × Nat
  | 0, _, _, left, right => (left, right)
  | fuel + 1, nd, key, left, right =>
    if left + 1 < right then
      let mid := (left + right) / 2
      if cmpI key (nd.keyAt mid) = -1 then internalLookupLoop fuel nd key left mid
      else internalLookupLoop fuel nd key mid right
    else (left, right)

/-- Final fix-up of `BPlusTreeInternalPage::Lookup`: the source runs
`if (comparator(key, array[left].first) == -1) right = left` after the loop,
so the answer index is `left` when the key is below `array[left]` and `right`
otherwise. -/
def internalLookupRight (nd : InternalNode) (key : Int) (p : Nat × Nat) : Nat :=
  if cmpI key (nd.keyAt p.1) = -1 then p.1 else p.2

/-- Model of `BPlusTreeInternalPage::Lookup(key)`: asserts a nonempty page,
returns the only child when `GetSize() == 1`, otherwise binary-searches from
index 1 and resolves the answer with the two final comparisons of the source:
`array[right].second` when `comparator(key, array[right].first) >= 0`, else
`array[right - 1].second`. -/
def InternalNode.lookup (nd : InternalNode) (key : Int) : Option Int :=
  if nd.size = 0 then none
  else if nd.size = 1 then some (nd.valueAt 0)
  else
    if cmpI key (nd.keyAt
        (internalLookupRight nd key (internalLookupLoop nd.size nd key 1 (nd.size - 1)))) ≥ 0 then
      some (nd.valueAt
        (internalLookupRight nd key (internalLookupLoop nd.size nd key 1 (nd.size - 1))))
    else
      some (nd.valueAt
        (internalLookupRight nd key (internalLookupLoop nd.size nd key 1 (nd.size - 1)) - 1))

/-- Model of `BPlusTreeInternalPage::PopulateNewRoot(old_value, new_key, new_value)`:
the fresh root holds the old child at index 0 (its key slot is never written and
is modelled as the junk value 0) and the separator plus new child at index 1. -/
def InternalNode.populateNewRoot (nd : InternalNode) (oldV newK newV : Int) : InternalNode :=
  { nd with entries := [(0, oldV), (newK, newV)] }

/-- Model of `BPlusTreeInternalPage::InsertNodeAfter(old_value, new_key, new_value)`:
insert the new pair right after the entry whose child id equals `old_value`;
when `old_value` is absent the page is unchanged (the source then fails its
`new_size == old_size + 1` assertion at the call sites). -/
def insertNodeAfterAux (oldV newK newV : Int) : List (Int × Int) → Option (List (Int × Int))
  | [] => none
  | e :: rest =>
    if e.2 = oldV then some (e :: (newK, newV) :: rest)
    else (insertNodeAfterAux oldV newK newV rest).map (e :: ·)

/-- InsertNodeAfter at the node level; `none` when `old_value` is not present. -/
def InternalNode.insertNodeAfter (nd : InternalNode) (oldV newK newV : Int) :
    Option InternalNode :=
  (insertNodeAfterAux oldV newK newV nd.entries).map
    (fun es => { nd with entries := es })

/-- Model of `BPlusTreeInternalPage::Remove(index)`: shift the entries above
`index` down by one. -/
def InternalNode.removeAt (nd : InternalNode) (i : Nat) : InternalNode :=
  { nd with entries := nd.entries.take i ++ nd.entries.drop (i + 1) }

/-- A B+ tree page is either a leaf or an internal node (`IsLeafPage` dispatch). -/
inductive Node where
  | leaf : LeafNode → Node
  | internal : InternalNode → Node
deriving DecidableEq, Repr

/-- Size of either node kind. -/
def Node.size : Node → Nat
  | .leaf l => l.size
  | .internal nd => nd.size

/-- Parent page id of either node kind. -/
def Node.parent : Node → Int
  | .leaf l => l.parentPageId
  | .internal nd => nd.parentPageId

/-- Max size of either node kind. -/
def Node.maxSize : Node → Nat
  | .leaf l => l.maxSize
  | .internal nd => nd.maxSize

/-- IsLeafPage of the shared header. -/
def Node.isLeaf : Node → Bool
  | .leaf _ => true
  | .internal _ => false

/-- KeyAt index 0 of either node kind. -/
def Node.keyAt0 : Node → Int
  | .leaf l => l.keyAt 0
  | .internal nd => nd.keyAt 0

/-- SetParentPageId of the shared header. -/
def Node.setParent : Node → Int → Node
  | .leaf l, p => .leaf { l with parentPageId := p }
  | .internal nd, p => .internal { nd with parentPageId := p }

/-- Modelled from the spec: `GetMinSize()` is implemented in
`b_plus_tree_page.cpp`, which is listed in the submission script but absent
from the sources; spec §3 and §8 state the minimum occupancy as
`⌈max_size / 2⌉`. -/
def minSize (maxSize : Nat) : Nat := (maxSize + 1) / 2

/-- Modelled from the spec: `IsRootPage()` also lives in the missing
`b_plus_tree_page.cpp`; spec §3 describes the root as the node whose parent
page id is `INVALID`.  The model tests `Node.parent = INVALID_PAGE_ID`. -/
def Node.isRoot (n : Node) : Bool := n.parent = INVALID_PAGE_ID

/-- Tree-global state: the page map standing for the buffer pool, the root
page id, the cached entry count `size_`, and the two max sizes. -/
structure TreeState where
  pages : List (Int × Node)
  rootPageId : Int
  treeSize : Int
  nextAlloc : Int
  leafMaxSize : Nat
  internalMaxSize : Nat
deriving DecidableEq, Repr

/-- FetchPage of the tree model: look the page id up in the page map. -/
def getPage (s : TreeState) (pid : Int) : Option Node :=
  s.pages.lookup pid

/-- Write back a page in place (the C++ code mutates pinned pages directly). -/
def updatePage (s : TreeState) (pid : Int) (n : Node) : TreeState :=
  { s with pages := s.pages.map (fun e => if e.1 = pid then (pid, n) else e) }

/-- Record a freshly allocated page (`NewPage`). -/
def addPage (s : TreeState) (pid : Int) (n : Node) : TreeState :=
  { s with pages := (pid, n) :: s.pages }

/-- DeletePage of the tree model: drop the page from the page map. -/
def delPage (s : TreeState) (pid : Int) : TreeState :=
  { s with pages := s.pages.filter (fun e => e.1 ≠ pid) }

/-- Fetch a page that the C++ code reinterprets as a leaf; a wrong kind is
undefined behaviour in the source and `none` here. -/
def getLeaf (s : TreeState) (pid : Int) : Option LeafNode :=
  match getPage s pid with
  | some (.leaf l) => some l
  | _ => none

/-- Fetch a page that the C++ code reinterprets as an internal node. -/
def getInternal (s : TreeState) (pid : Int) : Option InternalNode :=
  match getPage s pid with
  | some (.internal nd) => some nd
  | _ => none

/-- SetParentPageId on the page living at `pid` (a fetch + header write +
unpin-dirty in the source). -/
def setParentOf (s : TreeState) (pid par : Int) : Option TreeState := do
  let n ← getPage s pid
  some (updatePage s pid (n.setParent par))

/-- Parent-pointer adoption loop of `BPlusTreeInternalPage::CopyNFrom`: every
moved entry's child page gets its parent page id overwritten. -/
def adoptAll (s : TreeState) (items : List (Int × Int)) (par : Int) : Option TreeState :=
  match items with
  | [] => some s
  | e :: rest => do
    let s' ← setParentOf s e.2 par
    adoptAll s' rest par

/-- State-level `BPlusTreeInternalPage::MoveHalfTo(recipient, bpm)`: asserts
`GetSize() == GetMaxSize()` in the source; moves the upper
`GetSize() - (GetSize()+1)/2` entries into the recipient and adopts their
children. -/
def internalMoveHalfToState (s : TreeState) (donorPid recipPid : Int) : Option TreeState := do
  let d ← getInternal s donorPid
  let r ← getInternal s recipPid
  let start := (d.size + 1) / 2
  let moved := d.entries.drop start
  let d' : InternalNode := { d with entries := d.entries.take start }
  let r' : InternalNode := { r with entries := r.entries ++ moved }
  let s := updatePage (updatePage s donorPid (.internal d')) recipPid (.internal r')
  adoptAll s moved recipPid

/-- State-level `MoveFirstToEndOf(recipient, middle_key, bpm)` generic over the
node kind, as instantiated by `Redistribute` and `InsertIntoParent`.  The leaf
overload ignores the middle key; the internal one replaces the moved pair's key
by it (`pair.first = middle_key`) and adopts the moved child. -/
def moveFirstToEndOfState (s : TreeState) (donorPid recipPid middleKey : Int) :
    Option TreeState := do
  let dn ← getPage s donorPid
  let rn ← getPage s recipPid
  match dn, rn with
  | .leaf d, .leaf r =>
    let p := leafMoveFirstToEndOf d r
    some (updatePage (updatePage s donorPid (.leaf p.1)) recipPid (.leaf p.2))
  | .internal d, .internal r =>
    let pr := (middleKey, d.valueAt 0)
    let d' : InternalNode := { d with entries := d.entries.drop 1 }
    let r' : InternalNode := { r with entries := r.entries ++ [pr] }
    let s := updatePage (updatePage s donorPid (.internal d')) recipPid (.internal r')
    setParentOf s pr.2 recipPid
  | _, _ => none

/-- State-level `MoveLastToFrontOf(recipient, middle_key, bpm)` generic over
the node kind.  The leaf overload ignores the middle key.  In the internal
overload the source line `recipient->KeyAt(1) = middle_key` assigns to a
by-value temporary returned by `KeyAt` and therefore never modifies the page;
the model reproduces that: the middle key is dropped. -/
def moveLastToFrontOfState (s : TreeState) (donorPid recipPid _middleKey : Int) :
    Option TreeState := do
  let dn ← getPage s donorPid
  let rn ← getPage s recipPid
  match dn, rn with
  | .leaf d, .leaf r =>
    let p := leafMoveLastToFrontOf d r
    some (updatePage (updatePage s donorPid (.leaf p.1)) recipPid (.leaf p.2))
  | .internal d, .internal r =>
    let pr := d.entryAt (d.size - 1)
    let d' : InternalNode := { d with entries := d.entries.take (d.size - 1) }
    let r' : InternalNode := { r with entries := pr :: r.entries }
    let s := updatePage (updatePage s donorPid (.internal d')) recipPid (.internal r')
    setParentOf s pr.2 recipPid
  | _, _ => none

/-- State-level `MoveAllTo(recipient, middle_key, bpm)` generic over the node
kind.  Leaves append all entries and forward `next_page_id`; internal nodes
first overwrite `array[0].first` with the separator pulled from the parent,
then append everything and adopt the moved children. -/
def moveAllToState (s : TreeState) (donorPid recipPid middleKey : Int) :
    Option TreeState := do
  let dn ← getPage s donorPid
  let rn ← getPage s recipPid
  match dn, rn with
  | .leaf d, .leaf r =>
    let p := leafMoveAllTo d r
    some (updatePage (updatePage s donorPid (.leaf p.1)) recipPid (.leaf p.2))
  | .internal d, .internal r =>
    let moved :=
      match d.entries with
      | [] => []
      | e :: rest => (middleKey, e.2) :: rest
    let d' : InternalNode := { d with entries := [] }
    let r' : InternalNode := { r with entries := r.entries ++ moved }
    let s := updatePage (updatePage s donorPid (.internal d')) recipPid (.internal r')
    adoptAll s moved recipPid
  | _, _ => none

/-- Descent loop shared by `InsertIntoLeaf`, `Remove`, `GetValue` and
`FindLeafPage`: from `pid`, repeatedly `Lookup` the child until a leaf page is
reached.  Latch crabbing along the way releases pages but never changes which
leaf is reached, so the model keeps only the pure descent. -/
def descendFrom : Nat → TreeState → Int → Int → Option Int
  | 0, _, _, _ => none
  | fuel + 1, s, pid, key =>
    match getPage s pid with
    | some (.leaf _) => some pid
    | some (.internal nd) => do
      let child ← nd.lookup key
      descendFrom fuel s child key
    | none => none

/-- Model of `InsertIntoParent` (`b_plus_tree.cpp` lines 333-415), with fuel
for the recursion up the tree.  It first pre-balances the freshly split pair
when one half is below minimum fill, then either grows a new root
(`PopulateNewRoot`), inserts into a parent with room (`InsertNodeAfter`), or
splits the parent and recurses. -/
def insertIntoParent : Nat → TreeState → Int → Int → Int → Option TreeState
  | 0, _, _, _, _ => none
  | fuel + 1, s, oldPid, mkey, newPid => do
    let oldN ← getPage s oldPid
    let newN ← getPage s newPid
    let pre : Option (TreeState × Int) :=
      if newN.size < minSize newN.maxSize then do
        let s ← moveLastToFrontOfState s oldPid newPid mkey
        let newN2 ← getPage s newPid
        some (s, newN2.keyAt0)
      else if oldN.size < minSize oldN.maxSize then do
        let s ← moveFirstToEndOfState s newPid oldPid mkey
        let newN2 ← getPage s newPid
        some (s, newN2.keyAt0)
      else some (s, mkey)
    let (s, key) ← pre
    let oldN2 ← getPage s oldPid
    if oldN2.isRoot then
      let rpid := s.nextAlloc
      let s := { s with nextAlloc := s.nextAlloc + 1 }
      let root0 : InternalNode := ⟨[], INVALID_PAGE_ID, rpid, s.internalMaxSize⟩
      let s := addPage s rpid (.internal (root0.populateNewRoot oldPid key newPid))
      let s ← setParentOf s oldPid rpid
      let s ← setParentOf s newPid rpid
      some { s with rootPageId := rpid }
    else
      let ppid := oldN2.parent
      let parent ← getInternal s ppid
      if parent.size < parent.maxSize then do
        let parent2 ← parent.insertNodeAfter oldPid key newPid
        let s := updatePage s ppid (.internal parent2)
        setParentOf s newPid ppid
      else do
        let npid := s.nextAlloc
        let s := { s with nextAlloc := s.nextAlloc + 1 }
        let s := addPage s npid (.internal ⟨[], INVALID_PAGE_ID, npid, s.internalMaxSize⟩)
        let s ← internalMoveHalfToState s ppid npid
        let oldN3 ← getPage s oldPid
        let targetPid ←
          if ppid = oldN3.parent then some ppid
          else if npid = oldN3.parent then some npid
          else none
        let target ← getInternal s targetPid
        let target2 ← target.insertNodeAfter oldPid key newPid
        let s := updatePage s targetPid (.internal target2)
        let s ← setParentOf s newPid targetPid
        let np ← getInternal s npid
        insertIntoParent fuel s ppid (np.keyAt 0) npid

/-- Model of `InsertIntoLeaf` (`b_plus_tree.cpp` lines 195-307): descend with
crabbing to the target leaf; if the leaf sits at `GetMaxSize()`, split it first
(`Split` + `MoveHalfTo`), insert the entry into the half chosen by comparing
against the new sibling's first key, splice the leaf chain, and overflow into
the parent; otherwise insert in place.  `size_` is incremented exactly when the
leaf-level insert grew a page by one. -/
def insertIntoLeaf (fuel : Nat) (s : TreeState) (key value : Int) :
    Option (Bool × TreeState) := do
  let lp ← descendFrom fuel s s.rootPageId key
  let dest ← getLeaf s lp
  if dest.size = dest.maxSize then do
    let npid := s.nextAlloc
    let s := { s with nextAlloc := s.nextAlloc + 1 }
    let fresh : LeafNode := ⟨[], INVALID_PAGE_ID, INVALID_PAGE_ID, npid, s.leafMaxSize⟩
    let p := leafMoveHalfTo dest fresh
    let (ret, dest2, new2) ←
      if cmpI key (p.2.keyAt 0) ≥ 0 then do
        let n2 ← p.2.insert key value
        some (n2.size == p.2.size + 1, p.1, n2)
      else do
        let d2 ← p.1.insert key value
        some (d2.size == p.1.size + 1, d2, p.2)
    let mkey := new2.keyAt 0
    let new3 : LeafNode := { new2 with nextPageId := dest2.nextPageId }
    let dest3 : LeafNode := { dest2 with nextPageId := npid }
    let s := updatePage s lp (.leaf dest3)
    let s := addPage s npid (.leaf new3)
    let s ← insertIntoParent fuel s lp mkey npid
    let s := if ret then { s with treeSize := s.treeSize + 1 } else s
    some (ret, s)
  else do
    let d2 ← dest.insert key value
    let ret := d2.size == dest.size + 1
    let s := updatePage s lp (.leaf d2)
    let s := if ret then { s with treeSize := s.treeSize + 1 } else s
    some (ret, s)

/-- Model of `StartNewTree`: allocate a root leaf, insert the first entry,
record the root page id and the entry count (asserted to be 1 in the source). -/
def startNewTree (s : TreeState) (key value : Int) : Option TreeState := do
  let pid := s.nextAlloc
  let s := { s with nextAlloc := s.nextAlloc + 1 }
  let l0 : LeafNode := ⟨[], INVALID_PAGE_ID, INVALID_PAGE_ID, pid, s.leafMaxSize⟩
  let l1 ← l0.insert key value
  some { addPage s pid (.leaf l1) with rootPageId := pid, treeSize := 1 }

/-- Model of the public `Insert`: an empty tree (cached size zero) starts a new
tree and returns true, otherwise `InsertIntoLeaf` decides. -/
def insertOp (fuel : Nat) (s : TreeState) (key value : Int) :
    Option (Bool × TreeState) :=
  if s.treeSize = 0 then (startNewTree s key value).map (fun s' => (true, s'))
  else insertIntoLeaf fuel s key value

/-- Model of `AdjustRoot` (lines 628-655): an empty root empties the tree; an
internal root with a single child promotes that child (clearing its parent) or
empties the tree when the only child slot is invalid.  Returns the state and
whether the old root page should be deleted. -/
def adjustRoot (s : TreeState) (pid : Int) : Option (TreeState × Bool) := do
  let n ← getPage s pid
  if n.size = 0 then
    some ({ s with rootPageId := INVALID_PAGE_ID }, true)
  else
    match n with
    | .internal nd =>
      if nd.size = 1 then
        let child := nd.valueAt 0
        if child ≠ INVALID_PAGE_ID then do
          let s := { s with rootPageId := child }
          let s ← setParentOf s child INVALID_PAGE_ID
          some (s, true)
        else
          some ({ s with rootPageId := INVALID_PAGE_ID }, true)
      else some (s, false)
    | .leaf _ => some (s, false)

/-- Model of `Redistribute` (lines 599-616): the source asserts that the rich
side is strictly larger; when the right sibling is rich its first entry moves
to the left's end, otherwise the left's last entry moves to the right's front;
finally the parent separator at the right sibling's index is rewritten with the
right sibling's new first key. -/
def redistribute (s : TreeState) (ppid leftPid rightPid : Int) (richPos : Nat) :
    Option TreeState := do
  let ln ← getPage s leftPid
  let rn ← getPage s rightPid
  let richSize := if richPos = 1 then rn.size else ln.size
  let poorSize := if richPos = 1 then ln.size else rn.size
  if richSize ≤ poorSize then none
  else do
    let pnode ← getInternal s ppid
    let idxI := pnode.valueIndex rightPid
    if idxI = -1 then none
    else do
      let idx := idxI.toNat
      let key := pnode.keyAt idx
      let s ←
        if richPos = 1 then moveFirstToEndOfState s rightPid leftPid key
        else moveLastToFrontOfState s leftPid rightPid key
      let rn2 ← getPage s rightPid
      let pnode2 ← getInternal s ppid
      some (updatePage s ppid (.internal (pnode2.setKeyAt idx rn2.keyAt0)))

mutual

/-- Model of `CoalesceOrRedistribute` (lines 516-572): a root is handed to
`AdjustRoot`; otherwise the left sibling is preferred (falling back to the
right), and the pair is coalesced when the joint size fits into
`siblings[0].GetMaxSize()`, else redistributed.  The accumulated deleted-page
set is threaded through as in the transaction. -/
def corD : Nat → TreeState → Int → List Int → Option (TreeState × List Int)
  | 0, _, _, _ => none
  | fuel + 1, s, np, dels => do
    let n ← getPage s np
    if n.isRoot then do
      let (s, del) ← adjustRoot s np
      some (s, if del then dels ++ [np] else dels)
    else do
      let ppid := n.parent
      let pnode ← getInternal s ppid
      let idx := pnode.valueIndex np
      let (leftPid, rightPid, richPos) ←
        if idx - 1 ≥ 0 then
          some (pnode.valueAt (idx - 1).toNat, np, 0)
        else if idx + 1 < (pnode.size : Int) then
          some (np, pnode.valueAt (idx + 1).toNat, 1)
        else none
      let ln ← getPage s leftPid
      let rn ← getPage s rightPid
      if ln.size + rn.size ≤ ln.maxSize then
        coalesceStep fuel s ppid leftPid rightPid dels
      else do
        let s ← redistribute s ppid leftPid rightPid richPos
        some (s, dels)

/-- Model of `Coalesce` (lines 574-588): pull the separator at the right
sibling's parent index, `MoveAllTo` the right into the left, remove the parent
entry, schedule the right page for deletion, and recurse when the parent
underflows. -/
def coalesceStep (fuel : Nat) (s : TreeState) (ppid leftPid rightPid : Int)
    (dels : List Int) : Option (TreeState × List Int) := do
  let pnode ← getInternal s ppid
  let idxI := pnode.valueIndex rightPid
  if idxI = -1 then none
  else do
    let idx := idxI.toNat
    let key := pnode.keyAt idx
    let s ← moveAllToState s rightPid leftPid key
    let pnode2 ← getInternal s ppid
    let s := updatePage s ppid (.internal (pnode2.removeAt idx))
    let dels := dels ++ [rightPid]
    let pnode3 ← getInternal s ppid
    if pnode3.size < minSize pnode3.maxSize then
      corD fuel s ppid dels
    else some (s, dels)

end

/-- Model of the public `Remove` (lines 427-514): descend to the leaf,
`RemoveAndDeleteRecord`, run `CoalesceOrRedistribute` on underflow, delete the
scheduled pages, and decrement `size_` exactly when an entry disappeared. -/
def removeOp (fuel : Nat) (s : TreeState) (key : Int) : Option TreeState :=
  if s.treeSize = 0 then some s
  else do
    let lp ← descendFrom fuel s s.rootPageId key
    let l ← getLeaf s lp
    let oldSize := l.size
    let l2 := l.removeAndDelete key
    let newSize := l2.size
    let s := updatePage s lp (.leaf l2)
    let (s, dels) ←
      if newSize = oldSize then some (s, ([] : List Int))
      else if newSize < minSize l2.maxSize then corD fuel s lp []
      else some (s, ([] : List Int))
    let s := dels.foldl delPage s
    let s :=
      if (newSize : Int) = (oldSize : Int) - 1 then
        { s with treeSize := s.treeSize - 1 }
      else s
    some s

/-- Model of the public `GetValue`: empty tree reports absent, otherwise the
leaf found by the descent answers via its binary-search `Lookup`.  The state is
untouched (all page accesses are reads). -/
def getValueOp (fuel : Nat) (s : TreeState) (key : Int) : Option (Option Int) :=
  if s.treeSize = 0 then some none
  else do
    let lp ← descendFrom fuel s s.rootPageId key
    let l ← getLeaf s lp
    some (l.lookup key)

/-- Model of `Begin(key)` (lines 678-686): `FindLeafPage(key, false)` (null
root gives a null page and a failed assertion), then the iterator starts at
`KeyIndex(key)` in that leaf.  The result is the `(page_id, offset)` pair held
by the iterator. -/
def beginIter (fuel : Nat) (s : TreeState) (key : Int) : Option (Int × Nat) :=
  if s.rootPageId = INVALID_PAGE_ID then none
  else do
    let lp ← descendFrom fuel s s.rootPageId key
    let l ← getLeaf s lp
    some (lp, l.keyIndex key)

/-- Entry list of either node kind. -/
def Node.entriesOf : Node → List (Int × Int)
  | .leaf l => l.entries
  | .internal nd => nd.entries

/-- Shape of a node: its entries, kind and max size — everything except the
header back-pointers, which parent adoption may rewrite. -/
def nodeShape (n : Node) : List (Int × Int) × Bool × Nat :=
  (n.entriesOf, n.isLeaf, n.maxSize)

/-- Leaf page used to exhibit the `KeyIndex` defect: keys 10, 20, 30, 40, 50
with `leaf_max_size = 6` (so that five entries fit without a split). -/
def c2Leaf : LeafNode := ⟨[(10, 10), (20, 20), (30, 30), (40, 40), (50, 50)], -1, -1, 1, 6⟩

/-- Single-leaf tree whose root is `c2Leaf` on page 1. -/
def c2Tree : TreeState := ⟨[(1, .leaf c2Leaf)], 1, 5, 2, 6, 3⟩

/-- Witness data for C10: an internal parent of size 3 = max over three leaf
children, split into the fresh empty internal page 8. -/
def c10Donor : InternalNode := ⟨[(0, 1), (10, 2), (20, 3)], -1, 9, 3⟩

def c10Recipient : InternalNode := ⟨[], -1, 8, 3⟩

def c10State : TreeState :=
  ⟨[(9, .internal c10Donor), (8, .internal c10Recipient),
    (1, .leaf ⟨[(1, 1)], -1, 9, 1, 4⟩),
    (2, .leaf ⟨[(10, 10)], -1, 9, 2, 4⟩),
    (3, .leaf ⟨[(20, 20)], -1, 9, 3, 4⟩)], 9, 3, 10, 4, 3⟩

/-- Result state of the concrete internal split: the donor keeps two entries,
the recipient receives one, and the moved child's parent becomes page 8. -/
def c10Result : TreeState :=
  ⟨[(9, .internal ⟨[(0, 1), (10, 2)], -1, 9, 3⟩),
    (8, .internal ⟨[(20, 3)], -1, 8, 3⟩),
    (1, .leaf ⟨[(1, 1)], -1, 9, 1, 4⟩),
    (2, .leaf ⟨[(10, 10)], -1, 9, 2, 4⟩),
    (3, .leaf ⟨[(20, 20)], -1, 8, 3, 4⟩)], 9, 3, 10, 4, 3⟩

/-- Witness data for C10's leaf half: a full four-entry leaf. -/
def c10LeafDonor : LeafNode := ⟨[(1, 1), (2, 2), (3, 3), (4, 4)], -1, -1, 5, 4⟩

def c10LeafRecipient : LeafNode := ⟨[], -1, -1, 6, 4⟩

/-- Witness data for C8: four children with separators 10, 20, 30. -/
def c8Node : InternalNode := ⟨[(0, 100), (10, 101), (20, 102), (30, 103)], -1, 7, 4⟩

/-! LRU replacer, from `proj.1/src/buffer/lru_replacer.cpp`.  The doubly-linked
list threaded through `ref_table_` plus the per-frame `ok` flags are
represented by the sequence of frame ids from `head` (least recently unpinned)
to `tail`; a frame's `ok` flag is membership in the sequence and `num_size_`
is its length (the source keeps the counter in lockstep with the list). -/

/-- LRU replacer state. -/
structure LRURep where
  lst : List Nat
  numPages : Nat
deriving DecidableEq, Repr

/-- Model of `LRUReplacer::Victim`: pop the head (oldest) frame; false on an
empty list with no state change. -/
def LRURep.victim (r : LRURep) : Option Nat × LRURep :=
  match r.lst with
  | [] => (none, r)
  | f :: rest => (some f, { r with lst := rest })

/-- Model of `LRUReplacer::Pin`: unlink the frame when its `ok` flag is set
(it is in the list), otherwise do nothing.  The source asserts
`frame_id < num_pages_`. -/
def LRURep.pin (r : LRURep) (f : Nat) : LRURep :=
  if f ∈ r.lst then { r with lst := r.lst.erase f } else r

/-- Model of `LRUReplacer::Unpin`: no-op when the frame is already in the
list; no-op when `num_size_ == num_pages_` (unreachable for in-range frames,
see `c9_lru_replacer_refines_spec`); otherwise append at the tail. -/
def LRURep.unpin (r : LRURep) (f : Nat) : LRURep :=
  if f ∈ r.lst then r
  else if r.lst.length = r.numPages then r
  else { r with lst := r.lst ++ [f] }

/-- Model of `LRUReplacer::Size`. -/
def LRURep.size (r : LRURep) : Nat := r.lst.length

/-- One replacer call in a pin/unpin/victim sequence. -/
inductive ROp where
  | pin : Nat → ROp
  | unpin : Nat → ROp
  | victim : ROp
deriving DecidableEq, Repr

/-- Run one replacer call, recording the output of a `victim` call. -/
def lruStep (r : LRURep) : ROp → LRURep × Option (Option Nat)
  | .pin f => (r.pin f, none)
  | .unpin f => (r.unpin f, none)
  | .victim => ((r.victim).2, some (r.victim).1)

/-- Run a sequence of replacer calls, collecting all `victim` outputs. -/
def lruRun : LRURep → List ROp → LRURep × List (Option Nat)
  | r, [] => (r, [])
  | r, op :: rest =>
    let st := lruStep r op
    let rs := lruRun st.1 rest
    (rs.1, (match st.2 with | some v => [v] | none => []) ++ rs.2)

/-- Specification-level evictable sequence, written from the words of the
claim and spec §4.1: `victim` returns and removes the least-recently-unpinned
(oldest) frame or none when empty; `pin` removes the frame if present;
`unpin` inserts at the most-recent end if absent and is a no-op otherwise.
This is the second, claim-worded definition that the replacer model is
proved to refine. -/
def specStep (l : List Nat) : ROp → List Nat × Option (Option Nat)
  | .pin f => (l.erase f, none)
  | .unpin f => (if f ∈ l then l else l ++ [f], none)
  | .victim =>
    match l with
    | [] => ([], some none)
    | f :: rest => (rest, some (some f))

/-- Run of the claim-worded specification. -/
def specRun : List Nat → List ROp → List Nat × List (Option Nat)
  | l, [] => (l, [])
  | l, op :: rest =>
    let st := specStep l op
    let rs := specRun st.1 rest
    (rs.1, (match st.2 with | some v => [v] | none => []) ++ rs.2)

/-- A replacer call only mentions frames below the pool size (the source
asserts `frame_id < num_pages_` in `Pin` and `Unpin`). -/
def opFrameOK (n : Nat) : ROp → Prop
  | .pin f => f < n
  | .unpin f => f < n
  | .victim => True

/-! Buffer pool manager, from the proj.2.2 copy of `buffer_pool_manager.cpp`.
Frames are indexed by position in `frames`; the disk is an association list
written by `WritePage` (later writes shadow earlier ones) and read by
`ReadPage` (unwritten pages read as zeroes); `DeallocatePage` calls are
logged in `dealloc`. -/

/-- One frame: current page id (INVALID when free), pin count, dirty flag and
the page contents abstracted as a single integer. -/
structure Frame where
  pageId : Int
  pinCount : Int
  isDirty : Bool
  data : Int
deriving DecidableEq, Repr

/-- Buffer pool manager state. -/
structure BPState where
  poolSize : Nat
  frames : List Frame
  pageTable : List (Int × Nat)
  freeList : List Nat
  replacer : LRURep
  disk : List (Int × Int)
  dealloc : List Int
deriving DecidableEq, Repr

/-- DiskManager::ReadPage: latest write, zero for never-written pages. -/
def diskRead (d : List (Int × Int)) (pid : Int) : Int :=
  (d.lookup pid).getD 0

/-- Erase a page id from the page table (`page_table_.erase`). -/
def tableErase (t : List (Int × Nat)) (pid : Int) : List (Int × Nat) :=
  t.filter (fun e => e.1 ≠ pid)

/-- Common tail of `FetchPageImpl` once a frame has been chosen: set the
frame's metadata (`page_id_ = pid`, `pin_count_ = 1`, `is_dirty_ = false`),
`ReadPage` into it, and record the residency. -/
def fetchFinish (s : BPState) (fid : Nat) (pid : Int) : Option (BPState × Option Nat) :=
  match s.frames.get? fid with
  | none => none
  | some _ =>
    some ({ s with
      frames := s.frames.set fid ⟨pid, 1, false, diskRead s.disk pid⟩,
      pageTable := (pid, fid) :: tableErase s.pageTable pid }, some fid)

/-- Model of `FetchPageImpl` (proj.2.2 copy, lines 1060-1110): a resident page
is pinned and returned; otherwise the frame comes from the free list first,
else from the replacer victim (writing a dirty victim back and clearing its
dirty flag before erasing its residency); with neither source the call
returns null with no state change. -/
def fetchPage (s : BPState) (pid : Int) : Option (BPState × Option Nat) :=
  match s.pageTable.lookup pid with
  | some fid =>
    match s.frames.get? fid with
    | none => none
    | some fr =>
      some ({ s with
        frames := s.frames.set fid { fr with pinCount := fr.pinCount + 1 },
        replacer := s.replacer.pin fid }, some fid)
  | none =>
    match s.freeList with
    | fid :: rest => fetchFinish { s with freeList := rest } fid pid
    | [] =>
      match s.replacer.victim with
      | (some fid, rep) =>
        match s.frames.get? fid with
        | none => none
        | some fr =>
          if fr.isDirty then
            fetchFinish
              { s with
                replacer := rep,
                disk := (fr.pageId, fr.data) :: s.disk,
                frames := s.frames.set fid { fr with isDirty := false },
                pageTable := tableErase s.pageTable fr.pageId }
              fid pid
          else
            fetchFinish
              { s with
                replacer := rep,
                pageTable := tableErase s.pageTable fr.pageId }
              fid pid
      | (none, _) => some (s, none)

/-- Model of `UnpinPageImpl` (lines 1112-1144): true with no state change for
a non-resident page; false when the frame's pin count is already ≤ 0;
otherwise decrement, OR-merge the dirty hint, notify the replacer exactly
when the pin count reaches zero, and return true. -/
def unpinPage (s : BPState) (pid : Int) (dirty : Bool) : Option (BPState × Bool) :=
  match s.pageTable.lookup pid with
  | none => some (s, true)
  | some fid =>
    match s.frames.get? fid with
    | none => none
    | some fr =>
      if fr.pinCount ≤ 0 then some (s, false)
      else
        some ({ s with
          frames := s.frames.set fid
            { fr with pinCount := fr.pinCount - 1,
                      isDirty := if dirty then dirty else fr.isDirty },
          replacer :=
            if fr.pinCount - 1 = 0 then s.replacer.unpin fid else s.replacer }, true)

/-- Model of `DeletePageImpl` (lines 1206-1237): true for a non-resident
page; false with no state change when the pin count is nonzero; otherwise the
residency entry is erased, the frame's metadata and contents are reset
(`page_id_ = INVALID`, pin 0, clean, zeroed memory), the frame goes to the
back of the free list, the replacer forgets it, and `DeallocatePage(pid)` is
issued. -/
def deletePage (s : BPState) (pid : Int) : Option (BPState × Bool) :=
  match s.pageTable.lookup pid with
  | none => some (s, true)
  | some fid =>
    match s.frames.get? fid with
    | none => none
    | some fr =>
      if fr.pinCount ≠ 0 then some (s, false)
      else
        some ({ s with
          pageTable := tableErase s.pageTable pid,
          frames := s.frames.set fid ⟨INVALID_PAGE_ID, 0, false, 0⟩,
          freeList := s.freeList ++ [fid],
          replacer := s.replacer.pin fid,
          dealloc := s.dealloc ++ [pid] }, true)

/-- Witness pool for C5: page 9 is not resident, the free list is empty, and
the replacer offers frame 0, which holds dirty page 5. -/
def c5Pool : BPState :=
  ⟨2, [⟨5, 0, true, 77⟩, ⟨6, 1, false, 88⟩], [(5, 0), (6, 1)], [], ⟨[0], 2⟩, [], []⟩

/-- Witness pool for C6 and C7: frame 0 holds page 5 with pin count zero,
frame 1 holds page 6 with pin count one. -/
def c6Pool : BPState :=
  ⟨2, [⟨5, 0, true, 77⟩, ⟨6, 1, false, 88⟩], [(5, 0), (6, 1)], [], ⟨[0], 2⟩, [], []⟩

def c3LeafPoor : LeafNode :=
  { entries := [(1, 1)], nextPageId := 2, parentPageId := 10, pageId := 1, maxSize := 4 }

def c3LeafRich : LeafNode :=
  { entries := [(3, 3), (4, 4), (5, 5)], nextPageId := -1, parentPageId := 10, pageId := 2,
    maxSize := 4 }

def c3Parent : InternalNode :=
  { entries := [(0, 1), (3, 2)], parentPageId := -1, pageId := 10, maxSize := 3 }

def c3Tree : TreeState :=
  { pages := [(10, .internal c3Parent), (1, .leaf c3LeafPoor), (2, .leaf c3LeafRich)],
    rootPageId := 10, treeSize := 4, nextAlloc := 11, leafMaxSize := 4, internalMaxSize := 3 }

def c3RootAfter : InternalNode :=
  { entries := [(0, 1)], parentPageId := -1, pageId := 10, maxSize := 3 }

def c3Merged : LeafNode :=
  { entries := [(1, 1), (3, 3), (4, 4), (5, 5)], nextPageId := -1, parentPageId := -1,
    pageId := 1, maxSize := 4 }

def c3Emptied : LeafNode :=
  { entries := [], nextPageId := -1, parentPageId := 10, pageId := 2, maxSize := 4 }

def c3Result : TreeState :=
  { pages := [(10, .internal c3RootAfter), (1, .leaf c3Merged), (2, .leaf c3Emptied)],
    rootPageId := 1, treeSize := 4, nextAlloc := 11, leafMaxSize := 4, internalMaxSize := 3 }

/-- Occupancy upper bound of a single node against the tree's two max sizes:
the size never exceeds the node's own max, and the node's max is the tree-wide
max of its kind. -/
def nodeOK (lm im : Nat) (n : Node) : Prop :=
  n.size ≤ n.maxSize ∧ n.maxSize = (if n.isLeaf then lm else im)

instance (lm im : Nat) (n : Node) : Decidable (nodeOK lm im n) := by
  unfold nodeOK; infer_instance

/-- Global upper-bound invariant: every page is `nodeOK`, every page id is
below the allocation cursor, and both max sizes respect the contract
`max_size >= 2`. -/
def bnd (s : TreeState) : Prop :=
  (∀ p n, getPage s p = some n →
    nodeOK s.leafMaxSize s.internalMaxSize n ∧ p < s.nextAlloc) ∧
  2 ≤ s.leafMaxSize ∧ 2 ≤ s.internalMaxSize

def c4Empty : TreeState := ⟨[], INVALID_PAGE_ID, 0, 1, 4, 3⟩

def c4RunA : Option TreeState :=
  ([1, 2, 3, 4, 5, 6] : List Int).foldlM
    (fun s k => (insertOp 20 s k k).map Prod.snd) c4Empty

def c4LeafA : LeafNode :=
  ⟨[(3, 3), (4, 4), (5, 5), (6, 6)], -1, 3, 2, 4⟩

def c4StateA : TreeState :=
  ⟨[(3, .internal ⟨[(0, 1), (3, 2)], -1, 3, 3⟩),
    (2, .leaf c4LeafA),
    (1, .leaf ⟨[(1, 1), (2, 2)], 2, 3, 1, 4⟩)], 3, 6, 4, 4, 3⟩

def c4EmptyB : TreeState := ⟨[], INVALID_PAGE_ID, 0, 1, 3, 3⟩

def c4RunB : Option (Bool × TreeState) :=
  (([1, 2, 3] : List Int).foldlM
    (fun s k => (insertOp 20 s k k).map Prod.snd) c4EmptyB).bind
    (fun s => insertOp 20 s 1 1)

def c4LeafB : LeafNode := ⟨[(3, 3)], -1, 3, 2, 3⟩

def c4StateB : TreeState :=
  ⟨[(3, .internal ⟨[(0, 1), (3, 2)], -1, 3, 3⟩),
    (2, .leaf c4LeafB),
    (1, .leaf ⟨[(1, 1), (2, 2)], 2, 3, 1, 3⟩)], 3, 3, 4, 3, 3⟩

def c4S1 : TreeState :=
  ⟨[(1, .leaf ⟨[(1, 1)], INVALID_PAGE_ID, INVALID_PAGE_ID, 1, 4⟩)], 1, 1, 2, 4, 3⟩

def c1Leaf : LeafNode := ⟨[(1, 1), (2, 2), (3, 3)], -1, -1, 1, 3⟩

def c1Before : TreeState := ⟨[(1, .leaf c1Leaf)], 1, 3, 2, 3, 3⟩

def c1After : TreeState :=
  ⟨[(3, .internal ⟨[(0, 1), (3, 2)], -1, 3, 3⟩),
    (2, .leaf ⟨[(3, 3)], -1, 3, 2, 3⟩),
    (1, .leaf ⟨[(1, 1), (2, 2)], 2, 3, 1, 3⟩)], 3, 3, 4, 3, 3⟩

/-!
Theorems: each claim of the specification is settled below, preceded by the
helper lemmas its proofs need.
-/

theorem setParent_entriesOf (n : Node) (p : Int) : (n.setParent p).entriesOf = n.entriesOf := by
  cases n <;> rfl

theorem setParent_isLeaf (n : Node) (p : Int) : (n.setParent p).isLeaf = n.isLeaf := by
  cases n <;> rfl

theorem setParent_maxSize (n : Node) (p : Int) : (n.setParent p).maxSize = n.maxSize := by
  cases n <;> rfl

theorem setParent_size (n : Node) (p : Int) : (n.setParent p).size = n.size := by
  cases n <;> rfl

theorem setParent_shape (n : Node) (p : Int) : nodeShape (n.setParent p) = nodeShape n := by
  cases n <;> rfl

theorem size_eq_length_entriesOf (n : Node) : n.size = n.entriesOf.length := by
  cases n <;> rfl

theorem lookup_cons_self {β : Type} (k : Int) (v : β) (t : List (Int × β)) :
    List.lookup k ((k, v) :: t) = some v := by
  simp [List.lookup]

theorem lookup_cons_of_ne {β : Type} {k q : Int} (v : β) (t : List (Int × β))
    (h : q ≠ k) : List.lookup q ((k, v) :: t) = List.lookup q t := by
  have hb : (q == k) = false := beq_eq_false_iff_ne.mpr h
  simp [List.lookup, hb]

theorem lookup_map_set {β : Type} (l : List (Int × β)) (pid : Int) (n : β) (q : Int) :
    (l.map (fun e => if e.1 = pid then (pid, n) else e)).lookup q =
      if q = pid then (l.lookup pid).map (fun _ => n) else l.lookup q := by
  induction l with
  | nil => by_cases h : q = pid <;> simp [List.lookup, h]
  | cons e t ih =>
    obtain ⟨k, v⟩ := e
    rw [List.map_cons]
    by_cases he : k = pid
    · subst he
      rw [if_pos rfl]
      by_cases hq : q = k
      · subst hq
        rw [lookup_cons_self, lookup_cons_self, if_pos rfl, Option.map_some']
      · rw [lookup_cons_of_ne _ _ hq, ih, if_neg hq, if_neg hq,
          lookup_cons_of_ne _ _ hq]
    · rw [if_neg he]
      by_cases hq : q = pid
      · subst hq
        rw [lookup_cons_of_ne _ _ (fun h => he h.symm),
          lookup_cons_of_ne _ _ (fun h => he h.symm), ih, if_pos rfl]
      · by_cases hqk : q = k
        · subst hqk
          rw [lookup_cons_self, lookup_cons_self, if_neg hq]
        · rw [lookup_cons_of_ne _ _ hqk, ih, if_neg hq, if_neg hq,
            lookup_cons_of_ne _ _ hqk]

theorem lookup_filter_ne {β : Type} (l : List (Int × β)) (pid q : Int) :
    (l.filter (fun e => e.1 ≠ pid)).lookup q =
      if q = pid then none else l.lookup q := by
  induction l with
  | nil => by_cases h : q = pid <;> simp [List.lookup, h]
  | cons e t ih =>
    obtain ⟨k, v⟩ := e
    rw [List.filter_cons]
    by_cases he : k = pid
    · subst he
      rw [if_neg (by simp)]
      by_cases hq : q = k
      · subst hq; rw [ih, if_pos rfl, if_pos rfl]
      · rw [ih, if_neg hq, if_neg hq, lookup_cons_of_ne _ _ hq]
    · rw [if_pos (by simp [he])]
      by_cases hqk : q = k
      · subst hqk
        rw [lookup_cons_self, lookup_cons_self, if_neg (fun h => he h)]
      · rw [lookup_cons_of_ne _ _ hqk, lookup_cons_of_ne _ _ hqk, ih]

theorem getPage_updatePage (s : TreeState) (pid : Int) (n : Node) (q : Int) :
    getPage (updatePage s pid n) q =
      if q = pid then (getPage s pid).map (fun _ => n) else getPage s q := by
  simpa [getPage, updatePage] using lookup_map_set s.pages pid n q

theorem getPage_addPage (s : TreeState) (pid : Int) (n : Node) (q : Int) :
    getPage (addPage s pid n) q = if q = pid then some n else getPage s q := by
  by_cases h : q = pid
  · subst h; simp [getPage, addPage, lookup_cons_self]
  · simp [getPage, addPage, lookup_cons_of_ne _ _ h, h]

theorem getPage_delPage (s : TreeState) (pid q : Int) :
    getPage (delPage s pid) q = if q = pid then none else getPage s q := by
  simpa [getPage, delPage] using lookup_filter_ne s.pages pid q

theorem updatePage_rootPageId (s : TreeState) (pid : Int) (n : Node) :
    (updatePage s pid n).rootPageId = s.rootPageId := rfl

theorem updatePage_treeSize (s : TreeState) (pid : Int) (n : Node) :
    (updatePage s pid n).treeSize = s.treeSize := rfl

theorem setParentOf_shape {s : TreeState} {pid par : Int} {s' : TreeState}
    (h : setParentOf s pid par = some s') :
    ∀ q, (getPage s' q).map nodeShape = (getPage s q).map nodeShape := by
  intro q
  unfold setParentOf at h
  cases hg : getPage s pid with
  | none => simp [hg] at h
  | some n =>
    simp only [hg, Option.some_bind] at h
    cases h
    rw [getPage_updatePage]
    by_cases hq : q = pid
    · subst hq; simp [hg, setParent_shape]
    · simp [hq]

theorem setParentOf_meta {s : TreeState} {pid par : Int} {s' : TreeState}
    (h : setParentOf s pid par = some s') :
    s'.rootPageId = s.rootPageId ∧ s'.treeSize = s.treeSize ∧
      s'.nextAlloc = s.nextAlloc ∧ s'.leafMaxSize = s.leafMaxSize ∧
      s'.internalMaxSize = s.internalMaxSize := by
  unfold setParentOf at h
  cases hg : getPage s pid with
  | none => simp [hg] at h
  | some n =>
    simp only [hg, Option.some_bind] at h
    cases h
    exact ⟨rfl, rfl, rfl, rfl, rfl⟩

theorem adoptAll_shape {items : List (Int × Int)} {par : Int} :
    ∀ {s s' : TreeState}, adoptAll s items par = some s' →
      ∀ q, (getPage s' q).map nodeShape = (getPage s q).map nodeShape := by
  induction items with
  | nil => intro s s' h q; cases h; rfl
  | cons e rest ih =>
    intro s s' h q
    unfold adoptAll at h
    cases hb : setParentOf s e.2 par with
    | none => simp [hb] at h
    | some s1 =>
      simp only [hb, Option.some_bind] at h
      rw [ih h q, setParentOf_shape hb q]

theorem adoptAll_meta {items : List (Int × Int)} {par : Int} :
    ∀ {s s' : TreeState}, adoptAll s items par = some s' →
      s'.rootPageId = s.rootPageId ∧ s'.treeSize = s.treeSize ∧
        s'.nextAlloc = s.nextAlloc ∧ s'.leafMaxSize = s.leafMaxSize ∧
        s'.internalMaxSize = s.internalMaxSize := by
  induction items with
  | nil => intro s s' h; cases h; exact ⟨rfl, rfl, rfl, rfl, rfl⟩
  | cons e rest ih =>
    intro s s' h
    unfold adoptAll at h
    cases hb : setParentOf s e.2 par with
    | none => simp [hb] at h
    | some s1 =>
      simp only [hb, Option.some_bind] at h
      obtain ⟨r1, r2, r3, r4, r5⟩ := ih h
      obtain ⟨m1, m2, m3, m4, m5⟩ := setParentOf_meta hb
      exact ⟨r1.trans m1, r2.trans m2, r3.trans m3, r4.trans m4, r5.trans m5⟩

theorem shape_internal_elim {s : TreeState} {q : Int} {nd : InternalNode}
    (h : (getPage s q).map nodeShape = some (nodeShape (.internal nd))) :
    ∃ nd', getPage s q = some (.internal nd') ∧ nd'.entries = nd.entries ∧
      nd'.maxSize = nd.maxSize := by
  cases hg : getPage s q with
  | none => rw [hg] at h; simp at h
  | some n =>
    rw [hg] at h
    simp only [Option.map_some', Option.some_inj] at h
    cases n with
    | leaf l =>
      exfalso
      have : (nodeShape (Node.leaf l)).2.1 = (nodeShape (Node.internal nd)).2.1 := by
        rw [h]
      simp [nodeShape, Node.isLeaf] at this
    | internal nd' =>
      refine ⟨nd', rfl, ?_, ?_⟩
      · have : (nodeShape (Node.internal nd')).1 = (nodeShape (Node.internal nd)).1 := by
          rw [h]
        simpa [nodeShape, Node.entriesOf] using this
      · have : (nodeShape (Node.internal nd')).2.2 = (nodeShape (Node.internal nd)).2.2 := by
          rw [h]
        simpa [nodeShape, Node.maxSize] using this

theorem shape_leaf_elim {s : TreeState} {q : Int} {l : LeafNode}
    (h : (getPage s q).map nodeShape = some (nodeShape (.leaf l))) :
    ∃ l', getPage s q = some (.leaf l') ∧ l'.entries = l.entries ∧
      l'.maxSize = l.maxSize := by
  cases hg : getPage s q with
  | none => rw [hg] at h; simp at h
  | some n =>
    rw [hg] at h
    simp only [Option.map_some', Option.some_inj] at h
    cases n with
    | internal nd =>
      exfalso
      have : (nodeShape (Node.internal nd)).2.1 = (nodeShape (Node.leaf l)).2.1 := by
        rw [h]
      simp [nodeShape, Node.isLeaf] at this
    | leaf l' =>
      refine ⟨l', rfl, ?_, ?_⟩
      · have : (nodeShape (Node.leaf l')).1 = (nodeShape (Node.leaf l)).1 := by
          rw [h]
        simpa [nodeShape, Node.entriesOf] using this
      · have : (nodeShape (Node.leaf l')).2.2 = (nodeShape (Node.leaf l)).2.2 := by
          rw [h]
        simpa [nodeShape, Node.maxSize] using this

/-- Claim C2, code bug: `begin(25)` on the single-leaf tree with keys
10..50 descends to the correct leaf (page 1) but positions the iterator at
offset 3 (the entry 40), although the first entry with key ≥ 25 sits at
index 2 (the entry 30) — which is what both the claim and the source's own
doc comment on `KeyIndex` ("find the first index i so that array[i].first
>= key") require.  The binary search in `KeyIndex` moves the wrong bound:
it sets `left = mid` when `array[mid] ≥ key`, drifting towards the high end. -/
theorem c2_begin_keyIndex_code_bug :
    beginIter 10 c2Tree 25 = some (1, 3) ∧
    c2Leaf.entries.findIdx (fun e => decide ((25 : Int) ≤ e.1)) = 2 := by
  constructor <;> decide

/-- Claim C10, confirmed: splitting a node of size `n = max_size` via
`MoveHalfTo` into a fresh empty sibling moves the upper contiguous run: the
leaf variant keeps the lower `⌊n/2⌋` entries and moves the rest, the internal
variant keeps the lower `⌈n/2⌉ = (n+1)/2` entries and moves the rest, and in
both cases the kept and moved runs concatenate back to the original entry
sequence.  The internal variant is stated on the tree state because its
`CopyNFrom` also rewrites the moved children's parent pointers. -/
theorem c10_moveHalfTo_upper_run :
    (∀ l r : LeafNode, r.entries = [] → l.size = l.maxSize →
      (leafMoveHalfTo l r).1.entries = l.entries.take (l.size / 2) ∧
      (leafMoveHalfTo l r).2.entries = l.entries.drop (l.size / 2) ∧
      (leafMoveHalfTo l r).1.entries ++ (leafMoveHalfTo l r).2.entries = l.entries) ∧
    (∀ (s : TreeState) (dp rp : Int) (d r : InternalNode) (s' : TreeState),
      getPage s dp = some (.internal d) → getPage s rp = some (.internal r) →
      rp ≠ dp → r.entries = [] → d.size = d.maxSize →
      internalMoveHalfToState s dp rp = some s' →
      ∃ d' r', getPage s' dp = some (.internal d') ∧ getPage s' rp = some (.internal r') ∧
        d'.entries = d.entries.take ((d.size + 1) / 2) ∧
        r'.entries = d.entries.drop ((d.size + 1) / 2) ∧
        d'.entries ++ r'.entries = d.entries) := by
  constructor
  · intro l r hr _
    refine ⟨rfl, ?_, ?_⟩
    · simp [leafMoveHalfTo, LeafNode.copyNFrom, hr]
    · simp [leafMoveHalfTo, LeafNode.copyNFrom, hr]
  · intro s dp rp d r s' hd hr hne hrempty _ hrun
    unfold internalMoveHalfToState at hrun
    rw [show getInternal s dp = some d by simp [getInternal, hd]] at hrun
    rw [show getInternal s rp = some r by simp [getInternal, hr]] at hrun
    simp only [Option.some_bind] at hrun
    set start := (d.size + 1) / 2 with hstart
    set d1 : InternalNode := { d with entries := d.entries.take start } with hd1
    set r1 : InternalNode := { r with entries := r.entries ++ d.entries.drop start } with hr1
    set s1 := updatePage (updatePage s dp (.internal d1)) rp (.internal r1) with hs1
    have hdp1 : getPage s1 dp = some (.internal d1) := by
      rw [hs1, getPage_updatePage, if_neg (fun h => hne h.symm), getPage_updatePage,
        if_pos rfl, hd]
      rfl
    have hrp1 : getPage s1 rp = some (.internal r1) := by
      rw [hs1, getPage_updatePage, if_pos rfl, getPage_updatePage,
        if_neg (fun h => hne h), hr]
      rfl
    have hshape := adoptAll_shape hrun
    obtain ⟨d', hd', hde, _⟩ := @shape_internal_elim s' dp d1
      (by rw [hshape dp, hdp1]; rfl)
    obtain ⟨r', hr', hre, _⟩ := @shape_internal_elim s' rp r1
      (by rw [hshape rp, hrp1]; rfl)
    refine ⟨d', r', hd', hr', ?_, ?_, ?_⟩
    · rw [hde]
    · rw [hre, hr1]; simp [hrempty]
    · rw [hde, hre, hr1]
      simp [hrempty, hd1, List.take_append_drop]

/-- Witness for C10 at concrete inputs: a four-entry leaf splits 2 + 2, and
the concrete internal split of size 3 = max keeps `⌈3/2⌉ = 2` entries. -/
theorem c10_moveHalfTo_upper_run_witness :
    ((leafMoveHalfTo c10LeafDonor c10LeafRecipient).1.entries =
        c10LeafDonor.entries.take (c10LeafDonor.size / 2) ∧
      (leafMoveHalfTo c10LeafDonor c10LeafRecipient).2.entries =
        c10LeafDonor.entries.drop (c10LeafDonor.size / 2) ∧
      (leafMoveHalfTo c10LeafDonor c10LeafRecipient).1.entries ++
        (leafMoveHalfTo c10LeafDonor c10LeafRecipient).2.entries =
        c10LeafDonor.entries) ∧
    ∃ d' r', getPage c10Result 9 = some (.internal d') ∧
      getPage c10Result 8 = some (.internal r') ∧
      d'.entries = c10Donor.entries.take ((c10Donor.size + 1) / 2) ∧
      r'.entries = c10Donor.entries.drop ((c10Donor.size + 1) / 2) ∧
      d'.entries ++ r'.entries = c10Donor.entries :=
  ⟨c10_moveHalfTo_upper_run.1 c10LeafDonor c10LeafRecipient rfl (by decide),
   c10_moveHalfTo_upper_run.2 c10State 9 8 c10Donor c10Recipient c10Result
     (by decide) (by decide) (by decide) rfl (by decide) (by decide)⟩

theorem cmpI_eq_neg_one {a b : Int} : cmpI a b = -1 ↔ a < b := by
  unfold cmpI
  split_ifs with h1 h2
  · simp [h1]
  · exact ⟨fun h => absurd h (by decide), fun h => absurd h h1⟩
  · exact ⟨fun h => absurd h (by decide), fun h => absurd h h1⟩

theorem cmpI_eq_zero {a b : Int} : cmpI a b = 0 ↔ a = b := by
  unfold cmpI
  split_ifs with h1 h2
  · exact ⟨fun h => absurd h (by decide), fun h => absurd h1 (by omega)⟩
  · simp [h2]
  · exact ⟨fun h => absurd h (by decide), fun h => absurd h h2⟩

theorem cmpI_eq_one {a b : Int} : cmpI a b = 1 ↔ b < a := by
  unfold cmpI
  split_ifs with h1 h2
  · exact ⟨fun h => absurd h (by decide), fun h => absurd h1 (by omega)⟩
  · exact ⟨fun h => absurd h (by decide), fun h => absurd h2 (by omega)⟩
  · exact ⟨fun _ => by omega, fun _ => rfl⟩

theorem cmpI_ge_zero {a b : Int} : 0 ≤ cmpI a b ↔ b ≤ a := by
  unfold cmpI
  split_ifs with h1 h2
  · exact ⟨fun h => absurd h (by decide), fun h => absurd h1 (by omega)⟩
  · exact ⟨fun _ => by omega, fun _ => by decide⟩
  · exact ⟨fun _ => by omega, fun _ => by decide⟩

theorem cmpI_lt_zero {a b : Int} : cmpI a b < 0 ↔ a < b := by
  unfold cmpI
  split_ifs with h1 h2
  · exact ⟨fun _ => h1, fun _ => by decide⟩
  · exact ⟨fun h => absurd h (by decide), fun h => absurd h h1⟩
  · exact ⟨fun h => absurd h (by decide), fun h => absurd h h1⟩

/-- Invariant of the `Lookup` binary-search loop: the window only narrows,
ends with `right ≤ left + 1`, and whenever an endpoint moved it carries the
comparison fact that moved it (the keys are strictly sorted, so the endpoint
facts pin down the answer). -/
theorem internalLookupLoop_spec (nd : InternalNode) (key : Int) :
    ∀ (fuel l r : Nat), 1 ≤ l → l ≤ r → r - l ≤ fuel →
      1 ≤ (internalLookupLoop fuel nd key l r).1 ∧
      l ≤ (internalLookupLoop fuel nd key l r).1 ∧
      (internalLookupLoop fuel nd key l r).1 ≤ (internalLookupLoop fuel nd key l r).2 ∧
      (internalLookupLoop fuel nd key l r).2 ≤ r ∧
      (internalLookupLoop fuel nd key l r).2 ≤ (internalLookupLoop fuel nd key l r).1 + 1 ∧
      ((internalLookupLoop fuel nd key l r).1 ≠ l →
        ¬ cmpI key (nd.keyAt (internalLookupLoop fuel nd key l r).1) = -1) ∧
      ((internalLookupLoop fuel nd key l r).2 ≠ r →
        cmpI key (nd.keyAt (internalLookupLoop fuel nd key l r).2) = -1) := by
  intro fuel
  induction fuel with
  | zero =>
    intro l r h1 hlr hf
    have : r = l := by omega
    subst this
    simp [internalLookupLoop]
    omega
  | succ fuel ih =>
    intro l r h1 hlr hf
    by_cases hcond : l + 1 < r
    · have hmid : l < (l + r) / 2 ∧ (l + r) / 2 < r := by omega
      by_cases hpred : cmpI key (nd.keyAt ((l + r) / 2)) = -1
      · have hrec := ih l ((l + r) / 2) h1 (by omega) (by omega)
        rw [show internalLookupLoop (fuel + 1) nd key l r =
            internalLookupLoop fuel nd key l ((l + r) / 2) by
          rw [internalLookupLoop]; rw [if_pos hcond, if_pos hpred]]
        refine ⟨hrec.1, hrec.2.1, hrec.2.2.1, by omega, hrec.2.2.2.2.1, hrec.2.2.2.2.2.1, ?_⟩
        intro hne
        by_cases heq : (internalLookupLoop fuel nd key l ((l + r) / 2)).2 = (l + r) / 2
        · rw [heq]; exact hpred
        · exact hrec.2.2.2.2.2.2 heq
      · have hrec := ih ((l + r) / 2) r (by omega) (by omega) (by omega)
        rw [show internalLookupLoop (fuel + 1) nd key l r =
            internalLookupLoop fuel nd key ((l + r) / 2) r by
          rw [internalLookupLoop]; rw [if_pos hcond, if_neg hpred]]
        refine ⟨hrec.1, by omega, hrec.2.2.1, hrec.2.2.2.1, hrec.2.2.2.2.1, ?_, hrec.2.2.2.2.2.2⟩
        intro _
        by_cases heq : (internalLookupLoop fuel nd key ((l + r) / 2) r).1 = (l + r) / 2
        · rw [heq]; exact hpred
        · exact hrec.2.2.2.2.2.1 heq
    · rw [show internalLookupLoop (fuel + 1) nd key l r = (l, r) by
        rw [internalLookupLoop]; rw [if_neg hcond]]
      refine ⟨h1, le_refl l, hlr, le_refl r, by omega, by simp, by simp⟩

/-- Claim C8, confirmed: on an internal node with `n ≥ 1` children and
strictly increasing separator keys `k[1..n-1]`, `Lookup(key)` returns the
child at the unique index `i` with `k[i] ≤ key < k[i+1]`, reading `k[0]` as
`−∞` and `k[n]` as `+∞` (the hypotheses `hlow`/`hhigh` are exactly that
interval condition). -/
theorem c8_internal_lookup_interval (nd : InternalNode) (key : Int) (i : Nat)
    (hn : 1 ≤ nd.size)
    (hsorted : ∀ j k : Nat, 1 ≤ j → j < k → k < nd.size → nd.keyAt j < nd.keyAt k)
    (hi : i < nd.size)
    (hlow : 1 ≤ i → nd.keyAt i ≤ key)
    (hhigh : i + 1 < nd.size → key < nd.keyAt (i + 1)) :
    nd.lookup key = some (nd.valueAt i) := by
  have hpf : ∀ j : Nat, 1 ≤ j → j ≤ i → ¬ cmpI key (nd.keyAt j) = -1 := by
    intro j h1 h2
    rw [cmpI_eq_neg_one]
    have hj : nd.keyAt j ≤ key := by
      rcases Nat.lt_or_ge j i with hji | hji
      · exact le_trans (le_of_lt (hsorted j i h1 hji hi)) (hlow (le_trans h1 h2))
      · have : j = i := by omega
        subst this
        exact hlow h1
    omega
  have hpt : ∀ j : Nat, i + 1 ≤ j → j < nd.size → cmpI key (nd.keyAt j) = -1 := by
    intro j h1 h2
    rw [cmpI_eq_neg_one]
    have hkey : key < nd.keyAt (i + 1) := hhigh (by omega)
    rcases Nat.lt_or_ge (i + 1) j with hji | hji
    · exact lt_trans hkey (hsorted (i + 1) j (by omega) hji h2)
    · have : j = i + 1 := by omega
      subst this
      exact hkey
  unfold InternalNode.lookup
  by_cases h0 : nd.size = 0
  · omega
  · rw [if_neg h0]
    by_cases h1 : nd.size = 1
    · rw [if_pos h1]
      have : i = 0 := by omega
      rw [this]
    · rw [if_neg h1]
      have hsz : 2 ≤ nd.size := by omega
      have hspec := internalLookupLoop_spec nd key nd.size 1 (nd.size - 1)
        (le_refl 1) (by omega) (by omega)
      set p := internalLookupLoop nd.size nd key 1 (nd.size - 1) with hpdef
      obtain ⟨ha1, ha2, ha3, ha4, ha5, ha6, ha7⟩ := hspec
      by_cases hpl : cmpI key (nd.keyAt p.1) = -1
      · -- right = p.1; moreover p.1 = 1 and i = 0
        have hl1 : p.1 = 1 := by
          by_contra hne
          exact ha6 hne hpl
        have hi0 : i = 0 := by
          by_contra hne
          exact hpf 1 (le_refl 1) (by omega) (by rw [← hl1]; exact hpl)
        have hright : internalLookupRight nd key p = p.1 := by
          unfold internalLookupRight
          rw [if_pos hpl]
        rw [hright]
        have hnge : ¬ cmpI key (nd.keyAt p.1) ≥ 0 := by
          rw [hpl]; decide
        rw [if_neg hnge, hl1, hi0]
      · have hright : internalLookupRight nd key p = p.2 := by
          unfold internalLookupRight
          rw [if_neg hpl]
        rw [hright]
        by_cases hpr : cmpI key (nd.keyAt p.2) = -1
        · -- pred holds at p.2: p.2 = p.1 + 1 and p.1 = i
          have hne : p.2 ≠ p.1 := by
            intro h
            rw [h] at hpr
            exact hpl hpr
          have hr2 : p.2 = p.1 + 1 := by omega
          have hle : p.1 ≤ i := by
            by_contra hgt
            exact hpl (hpt p.1 (by omega) (by omega))
          have hge : i ≤ p.1 := by
            by_contra hgt
            exact hpf p.2 (by omega) (by omega) hpr
          have hieq : p.1 = i := by omega
          have hnge : ¬ cmpI key (nd.keyAt p.2) ≥ 0 := by
            rw [hpr]; decide
          rw [if_neg hnge, hr2, hieq]
          simp
        · -- pred fails at p.2: p.2 = size - 1 = i
          have hr2 : p.2 = nd.size - 1 := by
            by_contra hne
            exact hpr (ha7 hne)
          have hle : p.2 ≤ i := by
            by_contra hgt
            exact hpr (hpt p.2 (by omega) (by omega))
          have hieq : p.2 = i := by omega
          have hge : cmpI key (nd.keyAt p.2) ≥ 0 := by
            rcases Int.lt_or_le key (nd.keyAt p.2) with h | h
            · exact absurd (cmpI_eq_neg_one.mpr h) hpr
            · exact cmpI_ge_zero.mpr h
          rw [if_pos hge, hieq]

/-- Witness for C8: key 15 lies in `[10, 20)`, so child index 1 is returned. -/
theorem c8_internal_lookup_interval_witness :
    c8Node.lookup 15 = some (c8Node.valueAt 1) :=
  c8_internal_lookup_interval c8Node 15 1 (by decide)
    (by
      intro j k h1 h2 h3
      have h3' : k < 4 := h3
      interval_cases k <;> interval_cases j <;> decide)
    (by decide) (by decide) (by decide)

/-- Pigeonhole fact: a duplicate-free list of frame ids below `n` that lacks
some frame `f < n` has length below `n`; it shows the `num_size_ == num_pages_`
guard in `Unpin` can never fire for in-range frames. -/
theorem length_lt_of_nodup_bounded {l : List Nat} {n f : Nat}
    (hd : l.Nodup) (hb : ∀ g ∈ l, g < n) (hf : f < n) (hfl : f ∉ l) :
    l.length < n := by
  have hsub : l.toFinset ⊆ (Finset.range n).erase f := by
    intro g hg
    rw [List.mem_toFinset] at hg
    rw [Finset.mem_erase, Finset.mem_range]
    exact ⟨fun h => hfl (h ▸ hg), hb g hg⟩
  have hcard := Finset.card_le_card hsub
  rw [List.toFinset_card_of_nodup hd, Finset.card_erase_of_mem
    (Finset.mem_range.mpr hf), Finset.card_range] at hcard
  omega

/-- Refinement invariant for the replacer: running any in-range call sequence,
the model's list equals the claim-worded specification's sequence, the victim
outputs agree, and the evictable sequence stays duplicate-free and in range. -/
theorem lruRun_spec_aux (n : Nat) : ∀ (ops : List ROp) (l : List Nat),
    l.Nodup → (∀ g ∈ l, g < n) → (∀ op ∈ ops, opFrameOK n op) →
    (lruRun ⟨l, n⟩ ops).1.lst = (specRun l ops).1 ∧
    (lruRun ⟨l, n⟩ ops).2 = (specRun l ops).2 ∧
    (lruRun ⟨l, n⟩ ops).1.numPages = n ∧
    (specRun l ops).1.Nodup ∧ (∀ g ∈ (specRun l ops).1, g < n) := by
  intro ops
  induction ops with
  | nil =>
    intro l hd hb _
    exact ⟨rfl, rfl, rfl, hd, hb⟩
  | cons op rest ih =>
    intro l hd hb hops
    have hop : opFrameOK n op := hops op (List.mem_cons_self op rest)
    have hrest : ∀ o ∈ rest, opFrameOK n o := fun o ho => hops o (List.mem_cons_of_mem op ho)
    cases op with
    | pin f =>
      by_cases hmem : f ∈ l
      · have h1 : lruStep ⟨l, n⟩ (.pin f) = (⟨l.erase f, n⟩, none) := by
          simp [lruStep, LRURep.pin, hmem]
        have h2 : specStep l (.pin f) = (l.erase f, none) := rfl
        have := ih (l.erase f) (hd.erase f) (fun g hg => hb g (List.mem_of_mem_erase hg)) hrest
        simpa [lruRun, specRun, h1, h2] using this
      · have h1 : lruStep ⟨l, n⟩ (.pin f) = (⟨l, n⟩, none) := by
          simp [lruStep, LRURep.pin, hmem]
        have h2 : specStep l (.pin f) = (l.erase f, none) := rfl
        have herase : l.erase f = l := List.erase_of_not_mem hmem
        have := ih l hd hb hrest
        simpa [lruRun, specRun, h1, h2, herase] using this
    | unpin f =>
      by_cases hmem : f ∈ l
      · have h1 : lruStep ⟨l, n⟩ (.unpin f) = (⟨l, n⟩, none) := by
          simp [lruStep, LRURep.unpin, hmem]
        have h2 : specStep l (.unpin f) = (l, none) := by
          simp [specStep, hmem]
        have := ih l hd hb hrest
        simpa [lruRun, specRun, h1, h2] using this
      · have hlen : l.length ≠ n :=
          Nat.ne_of_lt (length_lt_of_nodup_bounded hd hb hop hmem)
        have h1 : lruStep ⟨l, n⟩ (.unpin f) = (⟨l ++ [f], n⟩, none) := by
          simp [lruStep, LRURep.unpin, hmem, hlen]
        have h2 : specStep l (.unpin f) = (l ++ [f], none) := by
          simp [specStep, hmem]
        have hd' : (l ++ [f]).Nodup := by
          rw [List.nodup_append]
          exact ⟨hd, List.nodup_singleton f, fun a ha hafl => hmem (by
            rw [List.mem_singleton] at hafl
            exact hafl ▸ ha)⟩
        have hb' : ∀ g ∈ l ++ [f], g < n := by
          intro g hg
          rcases List.mem_append.mp hg with h | h
          · exact hb g h
          · rw [List.mem_singleton] at h
            exact h ▸ hop
        have := ih (l ++ [f]) hd' hb' hrest
        simpa [lruRun, specRun, h1, h2] using this
    | victim =>
      cases l with
      | nil =>
        have h1 : lruStep ⟨[], n⟩ .victim = (⟨[], n⟩, some none) := rfl
        have h2 : specStep [] .victim = ([], some none) := rfl
        have := ih [] hd hb hrest
        simpa [lruRun, specRun, h1, h2] using this
      | cons f rest2 =>
        have h1 : lruStep ⟨f :: rest2, n⟩ .victim = (⟨rest2, n⟩, some (some f)) := rfl
        have h2 : specStep (f :: rest2) .victim = (rest2, some (some f)) := rfl
        have := ih rest2 (List.Nodup.of_cons hd) (fun g hg => hb g (List.mem_cons_of_mem f hg)) hrest
        simpa [lruRun, specRun, h1, h2] using this

/-- Claim C9, confirmed: for every sequence of in-range replacer calls the
model refines the claim-worded evictable sequence (so `victim` returns and
removes the frame whose most recent unpin is oldest — the head), `victim`
returns none exactly when the evictable set is empty, and at the reached
state `unpin f` is a no-op when `f` is present and appends `f` at the
most-recent end when absent. -/
theorem c9_lru_replacer_refines_spec (n : Nat) (ops : List ROp)
    (hops : ∀ op ∈ ops, opFrameOK n op) :
    (lruRun ⟨[], n⟩ ops).1.lst = (specRun [] ops).1 ∧
    (lruRun ⟨[], n⟩ ops).2 = (specRun [] ops).2 ∧
    ((lruRun ⟨[], n⟩ ops).1.victim.1 = none ↔ (lruRun ⟨[], n⟩ ops).1.lst = []) ∧
    (∀ f rest, (lruRun ⟨[], n⟩ ops).1.lst = f :: rest →
      (lruRun ⟨[], n⟩ ops).1.victim = (some f, ⟨rest, n⟩)) ∧
    (∀ f, f ∈ (lruRun ⟨[], n⟩ ops).1.lst →
      (lruRun ⟨[], n⟩ ops).1.unpin f = (lruRun ⟨[], n⟩ ops).1) ∧
    (∀ f, f < n → f ∉ (lruRun ⟨[], n⟩ ops).1.lst →
      ((lruRun ⟨[], n⟩ ops).1.unpin f).lst = (lruRun ⟨[], n⟩ ops).1.lst ++ [f]) := by
  obtain ⟨h1, h2, h3, h4, h5⟩ :=
    lruRun_spec_aux n ops [] List.nodup_nil (by intro g hg; cases hg) hops
  set m := (lruRun ⟨[], n⟩ ops).1 with hm
  refine ⟨h1, h2, ?_, ?_, ?_, ?_⟩
  · cases hl : m.lst with
    | nil => simp [LRURep.victim, hl]
    | cons f rest => simp [LRURep.victim, hl]
  · intro f rest hl
    have hnum : m.numPages = n := h3
    have hmeq : m = ⟨f :: rest, n⟩ := by
      calc m = ⟨m.lst, m.numPages⟩ := rfl
        _ = ⟨f :: rest, n⟩ := by rw [hl, hnum]
    rw [hmeq]
    rfl
  · intro f hf
    unfold LRURep.unpin
    rw [if_pos hf]
  · intro f hfn hf
    have hnodup : m.lst.Nodup := h1 ▸ h4
    have hbound : ∀ g ∈ m.lst, g < n := by
      intro g hg
      exact h5 g (h1 ▸ hg)
    have hlen : m.lst.length ≠ n := by
      exact Nat.ne_of_lt (length_lt_of_nodup_bounded hnodup hbound hfn hf)
    unfold LRURep.unpin
    rw [if_neg hf]
    have hnum : m.numPages = n := h3
    rw [hnum, if_neg hlen]

/-- Witness for C9: unpin 0, unpin 1, evict (returns 0), then unpin 2 in a
three-frame replacer. -/
theorem c9_lru_replacer_refines_spec_witness :
    (lruRun ⟨[], 3⟩ [.unpin 0, .unpin 1, .victim, .unpin 2]).1.lst =
      (specRun [] [.unpin 0, .unpin 1, .victim, .unpin 2]).1 ∧
    (lruRun ⟨[], 3⟩ [.unpin 0, .unpin 1, .victim, .unpin 2]).2 =
      (specRun [] [.unpin 0, .unpin 1, .victim, .unpin 2]).2 :=
  have h := c9_lru_replacer_refines_spec 3 [.unpin 0, .unpin 1, .victim, .unpin 2]
    (by
      intro op hop
      fin_cases hop <;> first | trivial | exact Nat.lt_of_sub_eq_succ rfl)
  ⟨h.1, h.2.1⟩

/-- Claim C5, confirmed: fetching a non-resident page takes the frame from
the free list when it is non-empty; otherwise from the replacer's victim,
writing a dirty victim's contents to disk before the frame is reused; and
when both sources are empty it returns null with no state change. -/
theorem c5_fetch_miss_frame_source (s : BPState) (pid : Int)
    (hmiss : s.pageTable.lookup pid = none) :
    (s.freeList = [] → s.replacer.lst = [] → fetchPage s pid = some (s, none)) ∧
    (∀ f rest fr, s.freeList = f :: rest → s.frames.get? f = some fr →
      fetchPage s pid = some ({ s with
        freeList := rest,
        frames := s.frames.set f ⟨pid, 1, false, diskRead s.disk pid⟩,
        pageTable := (pid, f) :: tableErase s.pageTable pid }, some f)) ∧
    (∀ f rest fr, s.freeList = [] → s.replacer.lst = f :: rest →
      s.frames.get? f = some fr →
      fetchPage s pid = some ({ s with
        replacer := ⟨rest, s.replacer.numPages⟩,
        disk := if fr.isDirty then (fr.pageId, fr.data) :: s.disk else s.disk,
        frames := s.frames.set f
          ⟨pid, 1, false,
            diskRead (if fr.isDirty then (fr.pageId, fr.data) :: s.disk else s.disk) pid⟩,
        pageTable := (pid, f) ::
          tableErase (tableErase s.pageTable fr.pageId) pid }, some f)) := by
  refine ⟨?_, ?_, ?_⟩
  · intro hfree hrep
    have hv : s.replacer.victim = (none, s.replacer) := by
      unfold LRURep.victim
      rw [hrep]
    simp only [fetchPage, hmiss, hfree, hv]
  · intro f rest fr hfree hfr
    simp only [fetchPage, hmiss, hfree, fetchFinish, hfr]
  · intro f rest fr hfree hrep hfr
    have hv : s.replacer.victim = (some f, ⟨rest, s.replacer.numPages⟩) := by
      unfold LRURep.victim
      rw [hrep]
    by_cases hdirty : fr.isDirty
    · have hset : (s.frames.set f { fr with isDirty := false }).get? f =
          some { fr with isDirty := false } := by
        rw [List.get?_set_eq, hfr]
        rfl
      simp only [fetchPage, hmiss, hfree, hv, hfr, hdirty, if_true, fetchFinish, hset,
        List.set_set]
    · simp only [fetchPage, hmiss, hfree, hv, hfr, hdirty, if_false, fetchFinish,
        Bool.false_eq_true]

/-- Claim C6, confirmed: `unpin` returns true with no state change for a
non-resident page; returns false exactly when the resident frame's pin count
is already zero (pin counts are never negative, hypothesis `0 ≤ pinCount`);
and otherwise decrements the pin count, OR-merges the dirty hint (a false
hint never clears the flag), notifies the replacer exactly when the count
reaches zero, and returns true. -/
theorem c6_unpin_contract (s : BPState) (pid : Int) (dirty : Bool) :
    (s.pageTable.lookup pid = none → unpinPage s pid dirty = some (s, true)) ∧
    (∀ fid fr, s.pageTable.lookup pid = some fid → s.frames.get? fid = some fr →
      0 ≤ fr.pinCount →
      ((fr.pinCount = 0 → unpinPage s pid dirty = some (s, false)) ∧
       (0 < fr.pinCount →
        unpinPage s pid dirty = some ({ s with
          frames := s.frames.set fid
            { fr with pinCount := fr.pinCount - 1,
                      isDirty := fr.isDirty || dirty },
          replacer :=
            if fr.pinCount - 1 = 0 then s.replacer.unpin fid
            else s.replacer }, true)))) := by
  constructor
  · intro hmiss
    simp only [unpinPage, hmiss]
  · intro fid fr hres hfr hpin
    constructor
    · intro hzero
      simp only [unpinPage, hres, hfr, hzero]
      rfl
    · intro hpos
      have hle : ¬ fr.pinCount ≤ 0 := by omega
      have hor : (if dirty then dirty else fr.isDirty) = (fr.isDirty || dirty) := by
        cases dirty <;> simp
      simp only [unpinPage, hres, hfr, if_neg hle, hor]

/-- Claim C7, confirmed: `delete` returns true for a non-resident page;
false with no state change for a resident page with nonzero pin count; and
otherwise removes the residency mapping, resets the frame's metadata and
contents, appends the frame to the free list, logs `DeallocatePage(pid)`,
and returns true (it additionally pins the frame out of the replacer, which
the claim does not mention). -/
theorem c7_delete_contract (s : BPState) (pid : Int) :
    (s.pageTable.lookup pid = none → deletePage s pid = some (s, true)) ∧
    (∀ fid fr, s.pageTable.lookup pid = some fid → s.frames.get? fid = some fr →
      ((fr.pinCount ≠ 0 → deletePage s pid = some (s, false)) ∧
       (fr.pinCount = 0 →
        deletePage s pid = some ({ s with
          pageTable := tableErase s.pageTable pid,
          frames := s.frames.set fid ⟨INVALID_PAGE_ID, 0, false, 0⟩,
          freeList := s.freeList ++ [fid],
          replacer := s.replacer.pin fid,
          dealloc := s.dealloc ++ [pid] }, true)))) := by
  constructor
  · intro hmiss
    simp only [deletePage, hmiss]
  · intro fid fr hres hfr
    constructor
    · intro hnz
      simp only [deletePage, hres, hfr, if_pos hnz]
    · intro hz
      have : ¬ fr.pinCount ≠ 0 := by omega
      simp only [deletePage, hres, hfr, if_neg this]

/-- Witness for C5: the dirty victim's contents (page 5, data 77) are written
to disk before frame 0 is reused for page 9. -/
theorem c5_fetch_miss_frame_source_witness :
    fetchPage c5Pool 9 = some ({ c5Pool with
      replacer := ⟨[], c5Pool.replacer.numPages⟩,
      disk := if (true : Bool) then ((5 : Int), (77 : Int)) :: c5Pool.disk else c5Pool.disk,
      frames := c5Pool.frames.set 0
        ⟨9, 1, false, diskRead (if (true : Bool) then ((5 : Int), (77 : Int)) :: c5Pool.disk else c5Pool.disk) 9⟩,
      pageTable := (9, 0) :: tableErase (tableErase c5Pool.pageTable 5) 9 }, some 0) :=
  (c5_fetch_miss_frame_source c5Pool 9 (by decide)).2.2 0 [] ⟨5, 0, true, 77⟩
    rfl rfl (by decide)

/-- Witness for C6: unpinning resident page 6 (pin count 1) with a true dirty
hint decrements to zero, sets the dirty flag, and notifies the replacer. -/
theorem c6_unpin_contract_witness :
    unpinPage c6Pool 6 true = some ({ c6Pool with
      frames := c6Pool.frames.set 1 ⟨6, 0, false || true, 88⟩,
      replacer := if (1 : Int) - 1 = 0 then c6Pool.replacer.unpin 1 else c6Pool.replacer },
      true) :=
  ((c6_unpin_contract c6Pool 6 true).2 1 ⟨6, 1, false, 88⟩ (by decide) (by decide)
    (by decide)).2 (by decide)

/-- Witness for C7: deleting resident, unpinned page 5 erases its residency,
resets frame 0, appends it to the free list and deallocates page 5. -/
theorem c7_delete_contract_witness :
    deletePage c6Pool 5 = some ({ c6Pool with
      pageTable := tableErase c6Pool.pageTable 5,
      frames := c6Pool.frames.set 0 ⟨INVALID_PAGE_ID, 0, false, 0⟩,
      freeList := c6Pool.freeList ++ [0],
      replacer := c6Pool.replacer.pin 0,
      dealloc := c6Pool.dealloc ++ [5] }, true) :=
  ((c7_delete_contract c6Pool 5).2 0 ⟨5, 0, true, 77⟩ (by decide) (by decide)).2 (by decide)

/-- The deleted-page schedule only grows along `CoalesceOrRedistribute`, and
`Coalesce` always appends the right sibling first. -/
theorem corD_dels_extend : ∀ fuel : Nat,
    (∀ s np dels s' dls, corD fuel s np dels = some (s', dls) →
      ∃ ex, dls = dels ++ ex) ∧
    (∀ s ppid lp rp dels s' dls, coalesceStep fuel s ppid lp rp dels = some (s', dls) →
      ∃ ex, dls = dels ++ [rp] ++ ex) := by
  intro fuel
  induction fuel with
  | zero =>
    constructor
    · intro s np dels s' dls h
      simp [corD] at h
    · intro s ppid lp rp dels s' dls h
      unfold coalesceStep at h
      cases hp : getInternal s ppid with
      | none => rw [hp] at h; simp at h
      | some pnode =>
        rw [hp] at h
        simp only [Option.pure_def, Option.bind_eq_bind, Option.some_bind] at h
        by_cases hidx : pnode.valueIndex rp = -1
        · rw [if_pos hidx] at h; simp at h
        · rw [if_neg hidx] at h
          cases hm : moveAllToState s rp lp (pnode.keyAt (pnode.valueIndex rp).toNat) with
          | none => rw [hm] at h; simp at h
          | some s1 =>
            rw [hm] at h
            simp only [Option.pure_def, Option.bind_eq_bind, Option.some_bind] at h
            cases hp2 : getInternal s1 ppid with
            | none => rw [hp2] at h; simp at h
            | some pnode2 =>
              rw [hp2] at h
              simp only [Option.pure_def, Option.bind_eq_bind, Option.some_bind] at h
              cases hp3 : getInternal (updatePage s1 ppid
                  (.internal (pnode2.removeAt (pnode.valueIndex rp).toNat))) ppid with
              | none => rw [hp3] at h; simp at h
              | some pnode3 =>
                rw [hp3] at h
                simp only [Option.pure_def, Option.bind_eq_bind, Option.some_bind] at h
                by_cases hu : pnode3.size < minSize pnode3.maxSize
                · rw [if_pos hu] at h
                  simp [corD] at h
                · rw [if_neg hu] at h
                  simp only [Option.some_inj] at h
                  injection h with h1 h2
                  exact ⟨[], by rw [← h2]; simp⟩
  | succ n ih =>
    have pn1 : ∀ s np dels s' dls, corD (n + 1) s np dels = some (s', dls) →
        ∃ ex, dls = dels ++ ex := by
      intro s np dels s' dls h
      unfold corD at h
      cases hn : getPage s np with
      | none => rw [hn] at h; simp at h
      | some nd =>
        rw [hn] at h
        simp only [Option.pure_def, Option.bind_eq_bind, Option.some_bind] at h
        by_cases hroot : nd.isRoot
        · rw [if_pos hroot] at h
          cases ha : adjustRoot s np with
          | none => rw [ha] at h; simp at h
          | some pr =>
            rw [ha] at h
            simp only [Option.pure_def, Option.bind_eq_bind, Option.some_bind, Option.some_inj] at h
            injection h with h1 h2
            by_cases hdel : pr.2
            · exact ⟨[np], by rw [← h2]; simp [hdel]⟩
            · exact ⟨[], by rw [← h2]; simp [hdel]⟩
        · rw [if_neg hroot] at h
          cases hp : getInternal s nd.parent with
          | none => rw [hp] at h; simp at h
          | some pnode =>
            rw [hp] at h
            simp only [Option.pure_def, Option.bind_eq_bind, Option.some_bind] at h
            -- sibling selection
            by_cases hsel1 : pnode.valueIndex np - 1 ≥ 0
            · rw [if_pos hsel1] at h
              cases hln : getPage s (pnode.valueAt (pnode.valueIndex np - 1).toNat) with
              | none => rw [hln] at h; simp at h
              | some ln =>
                rw [hln] at h
                simp only [Option.pure_def, Option.bind_eq_bind, Option.some_bind] at h
                cases hrn : getPage s np with
                | none => rw [hrn] at h; simp at h
                | some rn =>
                  rw [hrn] at h
                  simp only [Option.pure_def, Option.bind_eq_bind, Option.some_bind] at h
                  by_cases hcond : ln.size + rn.size ≤ ln.maxSize
                  · rw [if_pos hcond] at h
                    obtain ⟨ex, hex⟩ := ih.2 _ _ _ _ _ _ _ h
                    exact ⟨[np] ++ ex, by rw [hex]; simp⟩
                  · rw [if_neg hcond] at h
                    cases hr : redistribute s nd.parent
                        (pnode.valueAt (pnode.valueIndex np - 1).toNat) np 0 with
                    | none => rw [hr] at h; simp at h
                    | some s1 =>
                      rw [hr] at h
                      simp only [Option.pure_def, Option.bind_eq_bind, Option.some_bind, Option.some_inj] at h
                      injection h with h1 h2
                      exact ⟨[], by rw [← h2]; simp⟩
            · rw [if_neg hsel1] at h
              by_cases hsel2 : pnode.valueIndex np + 1 < (pnode.size : Int)
              · rw [if_pos hsel2] at h
                cases hln : getPage s np with
                | none => rw [hln] at h; simp at h
                | some ln =>
                  rw [hln] at h
                  simp only [Option.pure_def, Option.bind_eq_bind, Option.some_bind] at h
                  cases hrn : getPage s (pnode.valueAt (pnode.valueIndex np + 1).toNat) with
                  | none => rw [hrn] at h; simp at h
                  | some rn =>
                    rw [hrn] at h
                    simp only [Option.pure_def, Option.bind_eq_bind, Option.some_bind] at h
                    by_cases hcond : ln.size + rn.size ≤ ln.maxSize
                    · rw [if_pos hcond] at h
                      obtain ⟨ex, hex⟩ := ih.2 _ _ _ _ _ _ _ h
                      exact ⟨[pnode.valueAt (pnode.valueIndex np + 1).toNat] ++ ex, by rw [hex]; simp⟩
                    · rw [if_neg hcond] at h
                      cases hr : redistribute s nd.parent np
                          (pnode.valueAt (pnode.valueIndex np + 1).toNat) 1 with
                      | none => rw [hr] at h; simp at h
                      | some s1 =>
                        rw [hr] at h
                        simp only [Option.pure_def, Option.bind_eq_bind, Option.some_bind, Option.some_inj] at h
                        injection h with h1 h2
                        exact ⟨[], by rw [← h2]; simp⟩
              · rw [if_neg hsel2] at h
                simp at h
    constructor
    · exact pn1
    · intro s ppid lp rp dels s' dls h
      unfold coalesceStep at h
      cases hp : getInternal s ppid with
      | none => rw [hp] at h; simp at h
      | some pnode =>
        rw [hp] at h
        simp only [Option.pure_def, Option.bind_eq_bind, Option.some_bind] at h
        by_cases hidx : pnode.valueIndex rp = -1
        · rw [if_pos hidx] at h; simp at h
        · rw [if_neg hidx] at h
          cases hm : moveAllToState s rp lp (pnode.keyAt (pnode.valueIndex rp).toNat) with
          | none => rw [hm] at h; simp at h
          | some s1 =>
            rw [hm] at h
            simp only [Option.pure_def, Option.bind_eq_bind, Option.some_bind] at h
            cases hp2 : getInternal s1 ppid with
            | none => rw [hp2] at h; simp at h
            | some pnode2 =>
              rw [hp2] at h
              simp only [Option.pure_def, Option.bind_eq_bind, Option.some_bind] at h
              cases hp3 : getInternal (updatePage s1 ppid
                  (.internal (pnode2.removeAt (pnode.valueIndex rp).toNat))) ppid with
              | none => rw [hp3] at h; simp at h
              | some pnode3 =>
                rw [hp3] at h
                simp only [Option.pure_def, Option.bind_eq_bind, Option.some_bind] at h
                by_cases hu : pnode3.size < minSize pnode3.maxSize
                · rw [if_pos hu] at h
                  obtain ⟨ex, hex⟩ := pn1 _ _ _ _ _ h
                  exact ⟨ex, by rw [hex]⟩
                · rw [if_neg hu] at h
                  simp only [Option.some_inj] at h
                  injection h with h1 h2
                  exact ⟨[], by rw [← h2]; simp⟩

/-- A shape-preserving state change preserves every page's size. -/
theorem shape_size_eq {s s' : TreeState} {q : Int} {n : Node}
    (hsh : ∀ q, (getPage s' q).map nodeShape = (getPage s q).map nodeShape)
    (hq : getPage s q = some n) :
    ∃ n', getPage s' q = some n' ∧ n'.size = n.size := by
  have := hsh q
  rw [hq] at this
  cases hg : getPage s' q with
  | none => rw [hg] at this; simp at this
  | some n' =>
    rw [hg] at this
    simp only [Option.map_some', Option.some_inj] at this
    refine ⟨n', rfl, ?_⟩
    rw [size_eq_length_entriesOf, size_eq_length_entriesOf]
    have h1 : (nodeShape n').1 = (nodeShape n).1 := by rw [this]
    simpa [nodeShape] using congrArg List.length h1

/-- `MoveFirstToEndOf` moves exactly one entry from the donor to the recipient. -/
theorem moveFirstToEndOfState_sizes {s : TreeState} {dp rp mk : Int}
    {dn rn : Node} (hdp : getPage s dp = some dn) (hrp : getPage s rp = some rn)
    (hne : dp ≠ rp) (hpos : 1 ≤ dn.size) :
    ∀ s', moveFirstToEndOfState s dp rp mk = some s' →
      ∃ dn' rn', getPage s' dp = some dn' ∧ getPage s' rp = some rn' ∧
        dn'.size + 1 = dn.size ∧ rn'.size = rn.size + 1 := by
  intro s' hrun
  unfold moveFirstToEndOfState at hrun
  rw [hdp, hrp] at hrun
  simp only [Option.pure_def, Option.bind_eq_bind, Option.some_bind] at hrun
  cases dn with
  | leaf d =>
    cases rn with
    | leaf r =>
      simp only [Option.some_inj] at hrun
      subst hrun
      refine ⟨.leaf (leafMoveFirstToEndOf d r).1, .leaf (leafMoveFirstToEndOf d r).2, ?_, ?_, ?_, ?_⟩
      · rw [getPage_updatePage, if_neg (fun hh => hne hh), getPage_updatePage,
          if_pos rfl, hdp]
        rfl
      · rw [getPage_updatePage, if_pos rfl, getPage_updatePage,
          if_neg (fun hh => hne hh.symm), hrp]
        rfl
      · simp only [leafMoveFirstToEndOf, Node.size, LeafNode.size, List.length_drop]
        have h1 : 1 ≤ d.entries.length := hpos
        omega
      · simp only [leafMoveFirstToEndOf, Node.size, LeafNode.size, List.length_append,
          List.length_take]
        have : 1 ≤ d.entries.length := hpos
        have : min 1 d.entries.length = 1 := by omega
        rw [this]
    | internal r => simp at hrun
  | internal d =>
    cases rn with
    | leaf r => simp at hrun
    | internal r =>
      set s2 := updatePage (updatePage s dp
        (.internal { d with entries := d.entries.drop 1 })) rp
        (.internal { r with entries := r.entries ++ [(mk, d.valueAt 0)] }) with hs2
      have hd2 : getPage s2 dp = some (.internal { d with entries := d.entries.drop 1 }) := by
        rw [hs2, getPage_updatePage, if_neg (fun hh => hne hh), getPage_updatePage,
          if_pos rfl, hdp]
        rfl
      have hr2 : getPage s2 rp = some (.internal { r with entries := r.entries ++ [(mk, d.valueAt 0)] }) := by
        rw [hs2, getPage_updatePage, if_pos rfl, getPage_updatePage,
          if_neg (fun hh => hne hh.symm), hrp]
        rfl
      replace hrun : setParentOf s2 (d.valueAt 0) rp = some s' := hrun
      cases hsp : setParentOf s2 (d.valueAt 0) rp with
      | none => rw [hsp] at hrun; simp at hrun
      | some s3 =>
        rw [hsp] at hrun
        simp only [Option.some_inj] at hrun
        subst hrun
        obtain ⟨dn', hdn', hds⟩ := shape_size_eq (setParentOf_shape hsp) hd2
        obtain ⟨rn', hrn', hrs⟩ := shape_size_eq (setParentOf_shape hsp) hr2
        refine ⟨dn', rn', hdn', hrn', ?_, ?_⟩
        · rw [hds]
          simp only [Node.size, InternalNode.size, List.length_drop]
          have : 1 ≤ d.entries.length := hpos
          omega
        · rw [hrs]
          simp [Node.size, InternalNode.size]

/-- `MoveLastToFrontOf` moves exactly one entry from the donor to the recipient. -/
theorem moveLastToFrontOfState_sizes {s : TreeState} {dp rp mk : Int}
    {dn rn : Node} (hdp : getPage s dp = some dn) (hrp : getPage s rp = some rn)
    (hne : dp ≠ rp) (hpos : 1 ≤ dn.size) :
    ∀ s', moveLastToFrontOfState s dp rp mk = some s' →
      ∃ dn' rn', getPage s' dp = some dn' ∧ getPage s' rp = some rn' ∧
        dn'.size + 1 = dn.size ∧ rn'.size = rn.size + 1 := by
  intro s' hrun
  unfold moveLastToFrontOfState at hrun
  rw [hdp, hrp] at hrun
  simp only [Option.pure_def, Option.bind_eq_bind, Option.some_bind] at hrun
  cases dn with
  | leaf d =>
    cases rn with
    | leaf r =>
      simp only [Option.some_inj] at hrun
      subst hrun
      refine ⟨.leaf (leafMoveLastToFrontOf d r).1, .leaf (leafMoveLastToFrontOf d r).2, ?_, ?_, ?_, ?_⟩
      · rw [getPage_updatePage, if_neg (fun hh => hne hh), getPage_updatePage,
          if_pos rfl, hdp]
        rfl
      · rw [getPage_updatePage, if_pos rfl, getPage_updatePage,
          if_neg (fun hh => hne hh.symm), hrp]
        rfl
      · simp only [leafMoveLastToFrontOf, Node.size, LeafNode.size, List.length_take]
        have h1 : 1 ≤ d.entries.length := hpos
        omega
      · simp only [leafMoveLastToFrontOf, Node.size, LeafNode.size, List.length_append,
          List.length_drop]
        have h1 : 1 ≤ d.entries.length := hpos
        omega
    | internal r => simp at hrun
  | internal d =>
    cases rn with
    | leaf r => simp at hrun
    | internal r =>
      set pr := d.entryAt (d.size - 1) with hpr
      set s2 := updatePage (updatePage s dp
        (.internal { d with entries := d.entries.take (d.size - 1) })) rp
        (.internal { r with entries := pr :: r.entries }) with hs2
      have hd2 : getPage s2 dp = some (.internal { d with entries := d.entries.take (d.size - 1) }) := by
        rw [hs2, getPage_updatePage, if_neg (fun hh => hne hh), getPage_updatePage,
          if_pos rfl, hdp]
        rfl
      have hr2 : getPage s2 rp = some (.internal { r with entries := pr :: r.entries }) := by
        rw [hs2, getPage_updatePage, if_pos rfl, getPage_updatePage,
          if_neg (fun hh => hne hh.symm), hrp]
        rfl
      replace hrun : setParentOf s2 pr.2 rp = some s' := hrun
      cases hsp : setParentOf s2 pr.2 rp with
      | none => rw [hsp] at hrun; simp at hrun
      | some s3 =>
        rw [hsp] at hrun
        simp only [Option.some_inj] at hrun
        subst hrun
        obtain ⟨dn', hdn', hds⟩ := shape_size_eq (setParentOf_shape hsp) hd2
        obtain ⟨rn', hrn', hrs⟩ := shape_size_eq (setParentOf_shape hsp) hr2
        refine ⟨dn', rn', hdn', hrn', ?_, ?_⟩
        · rw [hds]
          simp only [Node.size, InternalNode.size, List.length_take]
          have h1 : 1 ≤ d.entries.length := hpos
          omega
        · rw [hrs]
          simp [Node.size, InternalNode.size]

/-- `Redistribute` deletes nothing and moves exactly one entry from the richer
sibling to the poorer one, whichever side is richer. -/
theorem redistribute_sizes {s : TreeState} {ppid lp rp : Int} {richPos : Nat}
    {ln rn : Node} (hlp : getPage s lp = some ln) (hrp : getPage s rp = some rn)
    (hne1 : ppid ≠ lp) (hne2 : ppid ≠ rp) (hne3 : lp ≠ rp) :
    ∀ s', redistribute s ppid lp rp richPos = some s' →
      ∃ ln' rn', getPage s' lp = some ln' ∧ getPage s' rp = some rn' ∧
        (richPos = 1 → ln'.size = ln.size + 1 ∧ rn'.size + 1 = rn.size) ∧
        (richPos ≠ 1 → ln'.size + 1 = ln.size ∧ rn'.size = rn.size + 1) := by
  intro s' hrun
  unfold redistribute at hrun
  rw [hlp, hrp] at hrun
  simp only [Option.pure_def, Option.bind_eq_bind, Option.some_bind] at hrun
  by_cases hrich : richPos = 1
  · rw [if_pos hrich, if_pos hrich] at hrun
    by_cases hle : rn.size ≤ ln.size
    · rw [if_pos hle] at hrun
      simp at hrun
    · rw [if_neg hle] at hrun
      cases hpn : getInternal s ppid with
      | none => rw [hpn] at hrun; simp at hrun
      | some pnode =>
        rw [hpn] at hrun
        simp only [Option.some_bind] at hrun
        by_cases hidx : pnode.valueIndex rp = -1
        · rw [if_pos hidx] at hrun
          simp at hrun
        · rw [if_neg hidx, if_pos hrich] at hrun
          cases hmv : moveFirstToEndOfState s rp lp (pnode.keyAt (pnode.valueIndex rp).toNat) with
          | none => rw [hmv] at hrun; simp at hrun
          | some s2 =>
            rw [hmv] at hrun
            simp only [Option.some_bind] at hrun
            obtain ⟨dn', rn', hdn', hrn', hds, hrs⟩ :=
              moveFirstToEndOfState_sizes hrp hlp (fun h => hne3 h.symm)
                (by omega) s2 hmv
            cases hr2 : getPage s2 rp with
            | none => rw [hr2] at hrun; simp at hrun
            | some rn2 =>
              rw [hr2] at hrun
              simp only [Option.some_bind] at hrun
              cases hp2 : getInternal s2 ppid with
              | none => rw [hp2] at hrun; simp at hrun
              | some pnode2 =>
                rw [hp2] at hrun
                simp only [Option.some_bind, Option.some_inj] at hrun
                subst hrun
                refine ⟨rn', dn', ?_, ?_, ?_, ?_⟩
                · rw [getPage_updatePage, if_neg (fun h => hne1 h.symm)]
                  exact hrn'
                · rw [getPage_updatePage, if_neg (fun h => hne2 h.symm)]
                  exact hdn'
                · exact fun _ => ⟨hrs, hds⟩
                · exact fun h => absurd hrich h
  · rw [if_neg hrich, if_neg hrich] at hrun
    by_cases hle : ln.size ≤ rn.size
    · rw [if_pos hle] at hrun
      simp at hrun
    · rw [if_neg hle] at hrun
      cases hpn : getInternal s ppid with
      | none => rw [hpn] at hrun; simp at hrun
      | some pnode =>
        rw [hpn] at hrun
        simp only [Option.some_bind] at hrun
        by_cases hidx : pnode.valueIndex rp = -1
        · rw [if_pos hidx] at hrun
          simp at hrun
        · rw [if_neg hidx, if_neg hrich] at hrun
          cases hmv : moveLastToFrontOfState s lp rp (pnode.keyAt (pnode.valueIndex rp).toNat) with
          | none => rw [hmv] at hrun; simp at hrun
          | some s2 =>
            rw [hmv] at hrun
            simp only [Option.some_bind] at hrun
            obtain ⟨dn', rn', hdn', hrn', hds, hrs⟩ :=
              moveLastToFrontOfState_sizes hlp hrp hne3 (by omega) s2 hmv
            cases hr2 : getPage s2 rp with
            | none => rw [hr2] at hrun; simp at hrun
            | some rn2 =>
              rw [hr2] at hrun
              simp only [Option.some_bind] at hrun
              cases hp2 : getInternal s2 ppid with
              | none => rw [hp2] at hrun; simp at hrun
              | some pnode2 =>
                rw [hp2] at hrun
                simp only [Option.some_bind, Option.some_inj] at hrun
                subst hrun
                refine ⟨dn', rn', ?_, ?_, ?_, ?_⟩
                · rw [getPage_updatePage, if_neg (fun h => hne1 h.symm)]
                  exact hdn'
                · rw [getPage_updatePage, if_neg (fun h => hne2 h.symm)]
                  exact hrn'
                · exact fun h => absurd h hrich
                · exact fun _ => ⟨hds, hrs⟩

/-- C3: counterexample to the claimed strict bound for leaves.  In `c3Tree`
the underflowed leaf (page 1, one entry) and its right sibling (page 2, three
entries) satisfy `left.size + right.size = max_size = 4`, so the claim demands
redistribution; the code's condition is `<=` for every node kind, so
`CoalesceOrRedistribute` merges: the right leaf's entries all move into the
left leaf, page 2 is scheduled for deletion, and the emptied root follows. -/
theorem c3_leaf_pair_at_max_is_merged :
    c3LeafPoor.size + c3LeafRich.size = c3LeafPoor.maxSize ∧
    corD 2 c3Tree 1 [] = some (c3Result, [2, 10]) ∧
    getPage c3Result 1 = some (.leaf c3Merged) := by
  refine ⟨by decide, ?_, by decide⟩
  unfold corD coalesceStep
  unfold corD coalesceStep
  unfold corD
  decide

/-- C3 (amended): one non-root step of `CoalesceOrRedistribute` with the
sibling pair it selected: the two nodes are merged — the right page joins the
deletion schedule — iff `left.size + right.size <= left.max_size`, for leaf
and internal nodes alike (the leaf case also uses `<=`, not `<`); otherwise
nothing is deleted and exactly one entry moves from the richer sibling to the
poorer one. -/
theorem c3_merge_iff_joint_fits (fuel : Nat) (s : TreeState) (np : Int)
    (dels : List Int) (nd : Node) (pnode : InternalNode)
    (leftPid rightPid : Int) (richPos : Nat) (ln rn : Node) (s' : TreeState)
    (dls : List Int)
    (hn : getPage s np = some nd) (hroot : nd.isRoot = false)
    (hpn : getInternal s nd.parent = some pnode)
    (hsel : (if pnode.valueIndex np - 1 ≥ 0 then
          some (pnode.valueAt (pnode.valueIndex np - 1).toNat, np, 0)
        else if pnode.valueIndex np + 1 < (pnode.size : Int) then
          some (np, pnode.valueAt (pnode.valueIndex np + 1).toNat, 1)
        else none) = some (leftPid, rightPid, richPos))
    (hln : getPage s leftPid = some ln) (hrn : getPage s rightPid = some rn)
    (hne1 : nd.parent ≠ leftPid) (hne2 : nd.parent ≠ rightPid)
    (hne3 : leftPid ≠ rightPid)
    (hrun : corD (fuel + 1) s np dels = some (s', dls)) :
    (ln.size + rn.size ≤ ln.maxSize → ∃ ex, dls = dels ++ [rightPid] ++ ex) ∧
    (¬ (ln.size + rn.size ≤ ln.maxSize) →
      dls = dels ∧ ∃ ln' rn', getPage s' leftPid = some ln' ∧
        getPage s' rightPid = some rn' ∧
        (richPos = 1 → ln'.size = ln.size + 1 ∧ rn'.size + 1 = rn.size) ∧
        (richPos ≠ 1 → ln'.size + 1 = ln.size ∧ rn'.size = rn.size + 1)) := by
  unfold corD at hrun
  rw [hn] at hrun
  simp only [Option.pure_def, Option.bind_eq_bind, Option.some_bind] at hrun
  rw [if_neg (by simp [hroot])] at hrun
  rw [hpn] at hrun
  simp only [Option.pure_def, Option.bind_eq_bind, Option.some_bind] at hrun
  by_cases hsel1 : pnode.valueIndex np - 1 ≥ 0
  · rw [if_pos hsel1] at hrun hsel
    injection hsel with hsel
    injection hsel with hL hsel
    injection hsel with hR hP
    subst hL
    subst hR
    subst hP
    rw [hln] at hrun
    simp only [Option.some_bind] at hrun
    rw [hrn] at hrun
    simp only [Option.some_bind] at hrun
    constructor
    · intro hc
      rw [if_pos hc] at hrun
      exact (corD_dels_extend fuel).2 _ _ _ _ _ _ _ hrun
    · intro hc
      rw [if_neg hc] at hrun
      cases hred : redistribute s nd.parent
          (pnode.valueAt (pnode.valueIndex np - 1).toNat) np 0 with
      | none => rw [hred] at hrun; simp at hrun
      | some s2 =>
        rw [hred] at hrun
        simp only [Option.some_bind, Option.some_inj] at hrun
        injection hrun with h1 h2
        obtain ⟨ln', rn', hl', hr', h3', h4'⟩ :=
          redistribute_sizes hln hrn hne1 hne2 hne3 s2 hred
        subst h1
        exact ⟨h2.symm, ln', rn', hl', hr', h3', h4'⟩
  · rw [if_neg hsel1] at hrun hsel
    by_cases hsel2 : pnode.valueIndex np + 1 < (pnode.size : Int)
    · rw [if_pos hsel2] at hrun hsel
      injection hsel with hsel
      injection hsel with hL hsel
      injection hsel with hR hP
      subst hL
      subst hR
      subst hP
      rw [hln] at hrun
      simp only [Option.some_bind] at hrun
      rw [hrn] at hrun
      simp only [Option.some_bind] at hrun
      constructor
      · intro hc
        rw [if_pos hc] at hrun
        exact (corD_dels_extend fuel).2 _ _ _ _ _ _ _ hrun
      · intro hc
        rw [if_neg hc] at hrun
        cases hred : redistribute s nd.parent np
            (pnode.valueAt (pnode.valueIndex np + 1).toNat) 1 with
        | none => rw [hred] at hrun; simp at hrun
        | some s2 =>
          rw [hred] at hrun
          simp only [Option.some_bind, Option.some_inj] at hrun
          injection hrun with h1 h2
          obtain ⟨ln', rn', hl', hr', h3', h4'⟩ :=
            redistribute_sizes hln hrn hne1 hne2 hne3 s2 hred
          subst h1
          exact ⟨h2.symm, ln', rn', hl', hr', h3', h4'⟩
    · rw [if_neg hsel2] at hsel
      exact absurd hsel (by simp)

theorem c3_merge_iff_joint_fits_witness :
    corD 2 c3Tree 1 [] = some (c3Result, [2, 10]) ∧
    ∃ ex, ([2, 10] : List Int) = [] ++ [2] ++ ex := by
  have hrun : corD 2 c3Tree 1 [] = some (c3Result, [2, 10]) := by
    unfold corD coalesceStep
    unfold corD coalesceStep
    unfold corD
    decide
  refine ⟨hrun, ?_⟩
  exact (c3_merge_iff_joint_fits 1 c3Tree 1 [] (.leaf c3LeafPoor) c3Parent 1 2 1
    (.leaf c3LeafPoor) (.leaf c3LeafRich) c3Result [2, 10]
    (by decide) (by decide) (by decide) (by decide) (by decide) (by decide)
    (by decide) (by decide) (by decide) hrun).1 (by decide)

theorem bnd_updatePage {s : TreeState} (pid : Int) {n : Node} (hs : bnd s)
    (hn : nodeOK s.leafMaxSize s.internalMaxSize n) : bnd (updatePage s pid n) := by
  refine ⟨?_, hs.2.1, hs.2.2⟩
  intro p m h
  rw [getPage_updatePage] at h
  by_cases hp : p = pid
  · rw [if_pos hp] at h
    cases hg : getPage s pid with
    | none => rw [hg] at h; simp at h
    | some old =>
      rw [hg] at h
      simp only [Option.map_some', Option.some_inj] at h
      subst h
      exact ⟨hn, hp ▸ (hs.1 pid old hg).2⟩
  · rw [if_neg hp] at h
    exact hs.1 p m h

theorem bnd_addPage {s : TreeState} {pid : Int} {n : Node} (hs : bnd s)
    (hn : nodeOK s.leafMaxSize s.internalMaxSize n) (hfresh : pid < s.nextAlloc) :
    bnd (addPage s pid n) := by
  refine ⟨?_, hs.2.1, hs.2.2⟩
  intro p m h
  rw [getPage_addPage] at h
  by_cases hp : p = pid
  · rw [if_pos hp] at h
    injection h with h
    subst h
    exact ⟨hn, hp ▸ hfresh⟩
  · rw [if_neg hp] at h
    exact hs.1 p m h

theorem bnd_delPage {s : TreeState} (pid : Int) (hs : bnd s) : bnd (delPage s pid) := by
  refine ⟨?_, hs.2.1, hs.2.2⟩
  intro p m h
  rw [getPage_delPage] at h
  by_cases hp : p = pid
  · rw [if_pos hp] at h; simp at h
  · rw [if_neg hp] at h
    exact hs.1 p m h

theorem bnd_bumpAlloc {s : TreeState} (hs : bnd s) :
    bnd { s with nextAlloc := s.nextAlloc + 1 } := by
  refine ⟨?_, hs.2.1, hs.2.2⟩
  intro p m h
  obtain ⟨h1, h2⟩ := hs.1 p m h
  refine ⟨h1, ?_⟩
  show p < s.nextAlloc + 1
  omega

theorem bnd_setParentOf {s s' : TreeState} {pid par : Int} (hs : bnd s)
    (h : setParentOf s pid par = some s') : bnd s' := by
  unfold setParentOf at h
  cases hg : getPage s pid with
  | none => rw [hg] at h; simp at h
  | some n =>
    rw [hg] at h
    simp only [Option.pure_def, Option.bind_eq_bind, Option.some_bind,
      Option.some_inj] at h
    subst h
    obtain ⟨⟨h1, h2⟩, _⟩ := hs.1 pid n hg
    exact bnd_updatePage pid hs ⟨by rw [setParent_size, setParent_maxSize]; exact h1,
      by rw [setParent_maxSize, setParent_isLeaf]; exact h2⟩

theorem bnd_adoptAll {items : List (Int × Int)} {par : Int} :
    ∀ {s s' : TreeState}, bnd s → adoptAll s items par = some s' → bnd s' := by
  induction items with
  | nil => intro s s' hs h; cases h; exact hs
  | cons e rest ih =>
    intro s s' hs h
    unfold adoptAll at h
    cases hb : setParentOf s e.2 par with
    | none => simp [hb] at h
    | some s1 =>
      simp only [hb, Option.some_bind] at h
      exact ih (bnd_setParentOf hs hb) h

theorem leafInsert_le {l l2 : LeafNode} {key value : Int}
    (h : l.insert key value = some l2) :
    l2.size ≤ l.maxSize ∧ l2.maxSize = l.maxSize ∧ l.size < l.maxSize := by
  unfold LeafNode.insert at h
  by_cases hful : l.size ≥ l.maxSize
  · rw [if_pos hful] at h; simp at h
  · rw [if_neg hful] at h
    have hlt : l.size < l.maxSize := by omega
    by_cases hz : l.size = 0
    · rw [if_pos hz] at h
      injection h with h
      subst h
      refine ⟨?_, rfl, hlt⟩
      have h1 : ({ l with entries := [(key, value)] } : LeafNode).size = 1 := rfl
      omega
    · rw [if_neg hz] at h
      cases hslot : leafFindSlot key l.entries 0 with
      | none => rw [hslot] at h; injection h with h; subst h; exact ⟨by omega, rfl, hlt⟩
      | some slot =>
        rw [hslot] at h
        cases slot with
        | some i =>
          simp only [Option.some_inj] at h
          subst h
          refine ⟨?_, rfl, hlt⟩
          simp only [LeafNode.size, List.length_append, List.length_take,
            List.length_drop, List.length_cons, List.length_nil]
          have : l.entries.length = l.size := rfl
          omega
        | none =>
          by_cases hc : cmpI key (l.keyAt (l.size - 1)) = 1
          · rw [if_pos hc] at h
            simp only [Option.some_inj] at h
            subst h
            refine ⟨?_, rfl, hlt⟩
            simp only [LeafNode.size, List.length_append, List.length_take,
              List.length_drop, List.length_cons, List.length_nil]
            have : l.entries.length = l.size := rfl
            omega
          · rw [if_neg hc] at h
            injection h with h
            subst h
            exact ⟨by omega, rfl, hlt⟩

theorem insertNodeAfterAux_length {oldV newK newV : Int} :
    ∀ {es es' : List (Int × Int)}, insertNodeAfterAux oldV newK newV es = some es' →
      es'.length = es.length + 1 := by
  intro es
  induction es with
  | nil => intro es' h; simp [insertNodeAfterAux] at h
  | cons e rest ih =>
    intro es' h
    unfold insertNodeAfterAux at h
    by_cases he : e.2 = oldV
    · rw [if_pos he] at h
      injection h with h
      subst h
      simp
    · rw [if_neg he] at h
      cases hr : insertNodeAfterAux oldV newK newV rest with
      | none => rw [hr] at h; simp at h
      | some rest' =>
        rw [hr] at h
        simp only [Option.map_some', Option.some_inj] at h
        subst h
        simp [ih hr]

theorem insertNodeAfter_size {nd nd2 : InternalNode} {oldV newK newV : Int}
    (h : nd.insertNodeAfter oldV newK newV = some nd2) :
    nd2.size = nd.size + 1 ∧ nd2.maxSize = nd.maxSize := by
  unfold InternalNode.insertNodeAfter at h
  cases hr : insertNodeAfterAux oldV newK newV nd.entries with
  | none => rw [hr] at h; simp at h
  | some es =>
    rw [hr] at h
    simp only [Option.map_some', Option.some_inj] at h
    subst h
    exact ⟨insertNodeAfterAux_length hr, rfl⟩

theorem leafRemoveAux_length (key : Int) :
    ∀ es : List (Int × Int), (leafRemoveAux key es).length ≤ es.length := by
  intro es
  induction es with
  | nil => simp [leafRemoveAux]
  | cons e rest ih =>
    unfold leafRemoveAux
    by_cases hc : cmpI key e.1 = 0
    · rw [if_pos hc]; simp
    · rw [if_neg hc]; simpa using ih

theorem getInternal_some {s : TreeState} {pid : Int} {nd : InternalNode} :
    getInternal s pid = some nd ↔ getPage s pid = some (.internal nd) := by
  unfold getInternal
  cases h : getPage s pid with
  | none => simp
  | some n => cases n <;> simp

theorem getLeaf_some {s : TreeState} {pid : Int} {l : LeafNode} :
    getLeaf s pid = some l ↔ getPage s pid = some (.leaf l) := by
  unfold getLeaf
  cases h : getPage s pid with
  | none => simp
  | some n => cases n <;> simp

theorem setKeyAt_size (nd : InternalNode) (i : Nat) (k : Int) :
    (nd.setKeyAt i k).size = nd.size ∧ (nd.setKeyAt i k).maxSize = nd.maxSize := by
  unfold InternalNode.setKeyAt
  exact ⟨by simp [InternalNode.size], rfl⟩

theorem bnd_moveFirstToEndOfState {s s' : TreeState} {dp rp mk : Int}
    {dn rn : Node} (hs : bnd s)
    (hdp : getPage s dp = some dn) (hrp : getPage s rp = some rn)
    (hroom : dn.isLeaf = rn.isLeaf → rn.size < rn.maxSize)
    (h : moveFirstToEndOfState s dp rp mk = some s') : bnd s' := by
  obtain ⟨⟨hd1, hd2⟩, _⟩ := hs.1 dp dn hdp
  obtain ⟨⟨hr1, hr2⟩, _⟩ := hs.1 rp rn hrp
  unfold moveFirstToEndOfState at h
  rw [hdp, hrp] at h
  simp only [Option.pure_def, Option.bind_eq_bind, Option.some_bind] at h
  cases dn with
  | leaf d =>
    cases rn with
    | leaf r =>
      simp only [Option.some_inj] at h
      subst h
      have hroom' : r.size < r.maxSize := hroom rfl
      refine bnd_updatePage rp (bnd_updatePage dp hs ?_) ?_
      · refine ⟨?_, hd2⟩
        simp only [Node.size, Node.maxSize, LeafNode.size, leafMoveFirstToEndOf,
          List.length_drop] at hd1 ⊢
        omega
      · refine ⟨?_, hr2⟩
        simp only [Node.size, Node.maxSize, LeafNode.size, leafMoveFirstToEndOf,
          List.length_append, List.length_take] at hr1 hroom' ⊢
        omega
    | internal r => simp at h
  | internal d =>
    cases rn with
    | leaf r => simp at h
    | internal r =>
      have hroom' : r.size < r.maxSize := hroom rfl
      refine bnd_setParentOf (bnd_updatePage rp (bnd_updatePage dp hs ?_) ?_) h
      · refine ⟨?_, hd2⟩
        simp only [Node.size, Node.maxSize, InternalNode.size, List.length_drop] at hd1 ⊢
        omega
      · refine ⟨?_, hr2⟩
        simp only [Node.size, Node.maxSize, InternalNode.size, List.length_append,
          List.length_cons, List.length_nil] at hr1 hroom' ⊢
        omega

theorem bnd_moveLastToFrontOfState {s s' : TreeState} {dp rp mk : Int}
    {dn rn : Node} (hs : bnd s)
    (hdp : getPage s dp = some dn) (hrp : getPage s rp = some rn)
    (hroom : dn.isLeaf = rn.isLeaf → rn.size < rn.maxSize)
    (h : moveLastToFrontOfState s dp rp mk = some s') : bnd s' := by
  obtain ⟨⟨hd1, hd2⟩, _⟩ := hs.1 dp dn hdp
  obtain ⟨⟨hr1, hr2⟩, _⟩ := hs.1 rp rn hrp
  unfold moveLastToFrontOfState at h
  rw [hdp, hrp] at h
  simp only [Option.pure_def, Option.bind_eq_bind, Option.some_bind] at h
  cases dn with
  | leaf d =>
    cases rn with
    | leaf r =>
      simp only [Option.some_inj] at h
      subst h
      have hroom' : r.size < r.maxSize := hroom rfl
      refine bnd_updatePage rp (bnd_updatePage dp hs ?_) ?_
      · refine ⟨?_, hd2⟩
        simp only [Node.size, Node.maxSize, LeafNode.size, leafMoveLastToFrontOf,
          List.length_take] at hd1 ⊢
        omega
      · refine ⟨?_, hr2⟩
        simp only [Node.size, Node.maxSize, LeafNode.size, leafMoveLastToFrontOf,
          List.length_append, List.length_drop] at hr1 hroom' ⊢
        omega
    | internal r => simp at h
  | internal d =>
    cases rn with
    | leaf r => simp at h
    | internal r =>
      replace h : setParentOf (updatePage (updatePage s dp
          (.internal { d with entries := d.entries.take (d.size - 1) })) rp
          (.internal { r with entries := d.entryAt (d.size - 1) :: r.entries }))
          (d.entryAt (d.size - 1)).2 rp = some s' := h
      have hroom' : r.size < r.maxSize := hroom rfl
      refine bnd_setParentOf (bnd_updatePage rp (bnd_updatePage dp hs ?_) ?_) h
      · refine ⟨?_, hd2⟩
        simp only [Node.size, Node.maxSize, InternalNode.size, List.length_take] at hd1 ⊢
        omega
      · refine ⟨?_, hr2⟩
        simp only [Node.size, Node.maxSize, InternalNode.size, List.length_cons] at hr1 hroom' ⊢
        omega

theorem bnd_moveAllToState {s s' : TreeState} {dp rp mk : Int}
    {dn rn : Node} (hs : bnd s)
    (hdp : getPage s dp = some dn) (hrp : getPage s rp = some rn)
    (hle : rn.size + dn.size ≤ rn.maxSize)
    (h : moveAllToState s dp rp mk = some s') : bnd s' := by
  obtain ⟨⟨hd1, hd2⟩, _⟩ := hs.1 dp dn hdp
  obtain ⟨⟨hr1, hr2⟩, _⟩ := hs.1 rp rn hrp
  unfold moveAllToState at h
  rw [hdp, hrp] at h
  simp only [Option.pure_def, Option.bind_eq_bind, Option.some_bind] at h
  cases dn with
  | leaf d =>
    cases rn with
    | leaf r =>
      simp only [Option.some_inj] at h
      subst h
      refine bnd_updatePage rp (bnd_updatePage dp hs ?_) ?_
      · exact ⟨by simp [Node.size, Node.maxSize, LeafNode.size, leafMoveAllTo], hd2⟩
      · refine ⟨?_, hr2⟩
        simp only [Node.size, Node.maxSize, LeafNode.size, leafMoveAllTo,
          LeafNode.copyNFrom, List.length_append] at hr1 hle ⊢
        omega
    | internal r => simp at h
  | internal d =>
    cases rn with
    | leaf r => simp at h
    | internal r =>
      replace h : adoptAll (updatePage (updatePage s dp
          (.internal { d with entries := [] })) rp
          (.internal { r with entries := r.entries ++
            (match d.entries with
             | [] => []
             | e :: rest => (mk, e.2) :: rest) }))
          (match d.entries with
           | [] => []
           | e :: rest => (mk, e.2) :: rest) rp = some s' := h
      refine bnd_adoptAll (bnd_updatePage rp (bnd_updatePage dp hs ?_) ?_) h
      · exact ⟨by simp [Node.size, Node.maxSize, InternalNode.size], hd2⟩
      · refine ⟨?_, hr2⟩
        have hlen : (match d.entries with
            | [] => ([] : List (Int × Int))
            | e :: rest => (mk, e.2) :: rest).length = d.entries.length := by
          cases d.entries <;> simp
        simp only [Node.size, Node.maxSize, InternalNode.size, List.length_append,
          hlen] at hr1 hle ⊢
        omega

theorem bnd_internalMoveHalfToState {s s' : TreeState} {dp rp : Int}
    {d r : InternalNode} (hs : bnd s)
    (hd : getInternal s dp = some d) (hr : getInternal s rp = some r)
    (hle : r.size + (d.size - (d.size + 1) / 2) ≤ r.maxSize) (hne : dp ≠ rp)
    (h : internalMoveHalfToState s dp rp = some s') :
    bnd s' ∧ ∃ d' r', getInternal s' dp = some d' ∧ getInternal s' rp = some r' ∧
      d'.size = (d.size + 1) / 2 ∧ r'.size = r.size + (d.size - (d.size + 1) / 2) ∧
      d'.maxSize = d.maxSize ∧ r'.maxSize = r.maxSize := by
  obtain ⟨⟨hd1, hd2⟩, _⟩ := hs.1 dp (.internal d) (getInternal_some.1 hd)
  obtain ⟨⟨hr1, hr2⟩, _⟩ := hs.1 rp (.internal r) (getInternal_some.1 hr)
  unfold internalMoveHalfToState at h
  rw [hd, hr] at h
  simp only [Option.pure_def, Option.bind_eq_bind, Option.some_bind] at h
  set d' : InternalNode := { d with entries := d.entries.take ((d.size + 1) / 2) } with hd'
  set r' : InternalNode :=
    { r with entries := r.entries ++ d.entries.drop ((d.size + 1) / 2) } with hr'
  replace h : adoptAll (updatePage (updatePage s dp (.internal d')) rp (.internal r'))
      (d.entries.drop ((d.size + 1) / 2)) rp = some s' := h
  have hdlen : d.entries.length = d.size := rfl
  have hrlen : r.entries.length = r.size := rfl
  have hbnd2 : bnd (updatePage (updatePage s dp (.internal d')) rp (.internal r')) := by
    refine bnd_updatePage rp (bnd_updatePage dp hs ?_) ?_
    · refine ⟨?_, hd2⟩
      simp only [Node.size, Node.maxSize, InternalNode.size, hd', List.length_take] at hd1 ⊢
      omega
    · refine ⟨?_, hr2⟩
      simp only [Node.size, Node.maxSize, InternalNode.size, hr', List.length_append,
        List.length_drop] at hr1 hle ⊢
      omega
  refine ⟨bnd_adoptAll hbnd2 h, ?_⟩
  have hg2d : getPage (updatePage (updatePage s dp (.internal d')) rp (.internal r')) dp =
      some (.internal d') := by
    rw [getPage_updatePage, if_neg hne, getPage_updatePage, if_pos rfl,
      getInternal_some.1 hd]
    rfl
  have hg2r : getPage (updatePage (updatePage s dp (.internal d')) rp (.internal r')) rp =
      some (.internal r') := by
    rw [getPage_updatePage, if_pos rfl, getPage_updatePage, if_neg (fun hh => hne hh.symm),
      getInternal_some.1 hr]
    rfl
  have hshd := adoptAll_shape h dp
  have hshr := adoptAll_shape h rp
  rw [hg2d] at hshd
  rw [hg2r] at hshr
  obtain ⟨d'', hgd, hde, hdm⟩ := shape_internal_elim (by rw [hshd]; rfl)
  obtain ⟨r'', hgr, hre, hrm⟩ := shape_internal_elim (by rw [hshr]; rfl)
  refine ⟨d'', r'', getInternal_some.2 hgd, getInternal_some.2 hgr, ?_, ?_, ?_, ?_⟩
  · show d''.entries.length = (d.size + 1) / 2
    rw [hde]
    simp only [hd', List.length_take]
    omega
  · show r''.entries.length = r.size + (d.size - (d.size + 1) / 2)
    rw [hre]
    simp only [hr', List.length_append, List.length_drop]
    omega
  · rw [hdm]
  · rw [hrm]

theorem bnd_adjustRoot {s s' : TreeState} {pid : Int} {b : Bool} (hs : bnd s)
    (h : adjustRoot s pid = some (s', b)) : bnd s' := by
  unfold adjustRoot at h
  cases hg : getPage s pid with
  | none => rw [hg] at h; simp at h
  | some n =>
    rw [hg] at h
    simp only [Option.pure_def, Option.bind_eq_bind, Option.some_bind] at h
    by_cases hz : n.size = 0
    · rw [if_pos hz] at h
      simp only [Option.some_inj] at h
      injection h with h1 h2
      subst h1
      exact hs
    · rw [if_neg hz] at h
      cases n with
      | internal nd =>
        replace h : (if nd.size = 1 then
            (if nd.valueAt 0 ≠ INVALID_PAGE_ID then
              (setParentOf { s with rootPageId := nd.valueAt 0 } (nd.valueAt 0)
                INVALID_PAGE_ID).bind (fun s => some (s, true))
            else some ({ s with rootPageId := INVALID_PAGE_ID }, true))
          else some (s, false)) = some (s', b) := h
        by_cases h1 : nd.size = 1
        · rw [if_pos h1] at h
          by_cases h2 : nd.valueAt 0 ≠ INVALID_PAGE_ID
          · rw [if_pos h2] at h
            cases hsp : setParentOf { s with rootPageId := nd.valueAt 0 }
                (nd.valueAt 0) INVALID_PAGE_ID with
            | none => rw [hsp] at h; simp at h
            | some s2 =>
              rw [hsp] at h
              simp only [Option.some_bind, Option.some_inj] at h
              injection h with h3 h4
              subst h3
              exact bnd_setParentOf (show bnd { s with rootPageId := nd.valueAt 0 } from hs) hsp
          · rw [if_neg h2] at h
            simp only [Option.some_inj] at h
            injection h with h3 h4
            subst h3
            exact hs
        · rw [if_neg h1] at h
          simp only [Option.some_inj] at h
          injection h with h3 h4
          subst h3
          exact hs
      | leaf l =>
        simp only [Option.some_inj] at h
        injection h with h3 h4
        subst h3
        exact hs

theorem bnd_redistribute {s s' : TreeState} {ppid lp rp : Int} {richPos : Nat}
    (hs : bnd s) (h : redistribute s ppid lp rp richPos = some s') : bnd s' := by
  unfold redistribute at h
  cases hlp : getPage s lp with
  | none => rw [hlp] at h; simp at h
  | some ln =>
  cases hrp : getPage s rp with
  | none => rw [hlp, hrp] at h; simp at h
  | some rn =>
  rw [hlp, hrp] at h
  simp only [Option.pure_def, Option.bind_eq_bind, Option.some_bind] at h
  obtain ⟨⟨hl1, hl2⟩, _⟩ := hs.1 lp ln hlp
  obtain ⟨⟨hr1, hr2⟩, _⟩ := hs.1 rp rn hrp
  have hmax : ln.isLeaf = rn.isLeaf → ln.maxSize = rn.maxSize := by
    intro hk
    rw [hl2, hr2, hk]
  by_cases hrich : richPos = 1
  · rw [if_pos hrich, if_pos hrich] at h
    by_cases hle : rn.size ≤ ln.size
    · rw [if_pos hle] at h; simp at h
    · rw [if_neg hle] at h
      cases hpn : getInternal s ppid with
      | none => rw [hpn] at h; simp at h
      | some pnode =>
      rw [hpn] at h
      simp only [Option.some_bind] at h
      by_cases hidx : pnode.valueIndex rp = -1
      · rw [if_pos hidx] at h; simp at h
      · rw [if_neg hidx, if_pos hrich] at h
        cases hmv : moveFirstToEndOfState s rp lp (pnode.keyAt (pnode.valueIndex rp).toNat) with
        | none => rw [hmv] at h; simp at h
        | some s2 =>
        rw [hmv] at h
        simp only [Option.some_bind] at h
        have hb2 : bnd s2 := by
          refine bnd_moveFirstToEndOfState hs hrp hlp ?_ hmv
          intro hk
          have := hmax hk.symm
          omega
        cases hr2' : getPage s2 rp with
        | none => rw [hr2'] at h; simp at h
        | some rn2 =>
        rw [hr2'] at h
        simp only [Option.some_bind] at h
        cases hp2 : getInternal s2 ppid with
        | none => rw [hp2] at h; simp at h
        | some pnode2 =>
        rw [hp2] at h
        simp only [Option.some_bind, Option.some_inj] at h
        subst h
        obtain ⟨⟨hp1, hp2'⟩, _⟩ := hb2.1 ppid (.internal pnode2) (getInternal_some.1 hp2)
        refine bnd_updatePage ppid hb2 ⟨?_, ?_⟩
        · show (pnode2.setKeyAt (pnode.valueIndex rp).toNat rn2.keyAt0).size ≤
            (pnode2.setKeyAt (pnode.valueIndex rp).toNat rn2.keyAt0).maxSize
          rw [(setKeyAt_size pnode2 _ _).1, (setKeyAt_size pnode2 _ _).2]
          exact hp1
        · show (pnode2.setKeyAt (pnode.valueIndex rp).toNat rn2.keyAt0).maxSize = _
          rw [(setKeyAt_size pnode2 _ _).2]
          exact hp2'
  · rw [if_neg hrich, if_neg hrich] at h
    by_cases hle : ln.size ≤ rn.size
    · rw [if_pos hle] at h; simp at h
    · rw [if_neg hle] at h
      cases hpn : getInternal s ppid with
      | none => rw [hpn] at h; simp at h
      | some pnode =>
      rw [hpn] at h
      simp only [Option.some_bind] at h
      by_cases hidx : pnode.valueIndex rp = -1
      · rw [if_pos hidx] at h; simp at h
      · rw [if_neg hidx, if_neg hrich] at h
        cases hmv : moveLastToFrontOfState s lp rp (pnode.keyAt (pnode.valueIndex rp).toNat) with
        | none => rw [hmv] at h; simp at h
        | some s2 =>
        rw [hmv] at h
        simp only [Option.some_bind] at h
        have hb2 : bnd s2 := by
          refine bnd_moveLastToFrontOfState hs hlp hrp ?_ hmv
          intro hk
          have := hmax hk
          omega
        cases hr2' : getPage s2 rp with
        | none => rw [hr2'] at h; simp at h
        | some rn2 =>
        rw [hr2'] at h
        simp only [Option.some_bind] at h
        cases hp2 : getInternal s2 ppid with
        | none => rw [hp2] at h; simp at h
        | some pnode2 =>
        rw [hp2] at h
        simp only [Option.some_bind, Option.some_inj] at h
        subst h
        obtain ⟨⟨hp1, hp2'⟩, _⟩ := hb2.1 ppid (.internal pnode2) (getInternal_some.1 hp2)
        refine bnd_updatePage ppid hb2 ⟨?_, ?_⟩
        · show (pnode2.setKeyAt (pnode.valueIndex rp).toNat rn2.keyAt0).size ≤
            (pnode2.setKeyAt (pnode.valueIndex rp).toNat rn2.keyAt0).maxSize
          rw [(setKeyAt_size pnode2 _ _).1, (setKeyAt_size pnode2 _ _).2]
          exact hp1
        · show (pnode2.setKeyAt (pnode.valueIndex rp).toNat rn2.keyAt0).maxSize = _
          rw [(setKeyAt_size pnode2 _ _).2]
          exact hp2'

theorem removeAt_size (nd : InternalNode) (i : Nat) :
    (nd.removeAt i).size ≤ nd.size ∧ (nd.removeAt i).maxSize = nd.maxSize := by
  unfold InternalNode.removeAt
  refine ⟨?_, rfl⟩
  simp only [InternalNode.size, List.length_append, List.length_take, List.length_drop]
  omega

theorem bnd_corD : ∀ fuel : Nat,
    (∀ s np dels s' dls, bnd s → corD fuel s np dels = some (s', dls) → bnd s') ∧
    (∀ s ppid lp rp dels s' dls ln rn, bnd s → getPage s lp = some ln →
      getPage s rp = some rn → ln.size + rn.size ≤ ln.maxSize →
      coalesceStep fuel s ppid lp rp dels = some (s', dls) → bnd s') := by
  have hstep : ∀ fuel : Nat,
      (∀ s np dels s' dls, bnd s → corD fuel s np dels = some (s', dls) → bnd s') →
      (∀ s ppid lp rp dels s' dls ln rn, bnd s → getPage s lp = some ln →
        getPage s rp = some rn → ln.size + rn.size ≤ ln.maxSize →
        coalesceStep fuel s ppid lp rp dels = some (s', dls) → bnd s') := by
    intro fuel hcor s ppid lp rp dels s' dls ln rn hs hlp hrp hcond h
    unfold coalesceStep at h
    cases hp : getInternal s ppid with
    | none => rw [hp] at h; simp at h
    | some pnode =>
      rw [hp] at h
      simp only [Option.pure_def, Option.bind_eq_bind, Option.some_bind] at h
      by_cases hidx : pnode.valueIndex rp = -1
      · rw [if_pos hidx] at h; simp at h
      · rw [if_neg hidx] at h
        cases hm : moveAllToState s rp lp (pnode.keyAt (pnode.valueIndex rp).toNat) with
        | none => rw [hm] at h; simp at h
        | some s1 =>
          rw [hm] at h
          simp only [Option.pure_def, Option.bind_eq_bind, Option.some_bind] at h
          have hb1 : bnd s1 := bnd_moveAllToState hs hrp hlp hcond hm
          cases hp2 : getInternal s1 ppid with
          | none => rw [hp2] at h; simp at h
          | some pnode2 =>
            rw [hp2] at h
            simp only [Option.pure_def, Option.bind_eq_bind, Option.some_bind] at h
            obtain ⟨⟨hq1, hq2⟩, _⟩ := hb1.1 ppid (.internal pnode2) (getInternal_some.1 hp2)
            have hb2 : bnd (updatePage s1 ppid
                (.internal (pnode2.removeAt (pnode.valueIndex rp).toNat))) := by
              refine bnd_updatePage ppid hb1 ⟨?_, ?_⟩
              · show (pnode2.removeAt (pnode.valueIndex rp).toNat).size ≤
                  (pnode2.removeAt (pnode.valueIndex rp).toNat).maxSize
                rw [(removeAt_size pnode2 _).2]
                exact le_trans (removeAt_size pnode2 _).1 hq1
              · show (pnode2.removeAt (pnode.valueIndex rp).toNat).maxSize = _
                rw [(removeAt_size pnode2 _).2]
                exact hq2
            cases hp3 : getInternal (updatePage s1 ppid
                (.internal (pnode2.removeAt (pnode.valueIndex rp).toNat))) ppid with
            | none => rw [hp3] at h; simp at h
            | some pnode3 =>
              rw [hp3] at h
              simp only [Option.pure_def, Option.bind_eq_bind, Option.some_bind] at h
              by_cases hu : pnode3.size < minSize pnode3.maxSize
              · rw [if_pos hu] at h
                exact hcor _ _ _ _ _ hb2 h
              · rw [if_neg hu] at h
                simp only [Option.some_inj] at h
                injection h with h1 h2
                subst h1
                exact hb2
  intro fuel
  induction fuel with
  | zero =>
    constructor
    · intro s np dels s' dls hs h
      simp [corD] at h
    · exact hstep 0 (by intro s np dels s' dls hs h; simp [corD] at h)
  | succ n ih =>
    have pn1 : ∀ s np dels s' dls, bnd s → corD (n + 1) s np dels = some (s', dls) →
        bnd s' := by
      intro s np dels s' dls hs h
      unfold corD at h
      cases hn : getPage s np with
      | none => rw [hn] at h; simp at h
      | some nd =>
        rw [hn] at h
        simp only [Option.pure_def, Option.bind_eq_bind, Option.some_bind] at h
        by_cases hroot : nd.isRoot
        · rw [if_pos hroot] at h
          cases ha : adjustRoot s np with
          | none => rw [ha] at h; simp at h
          | some pr =>
            rw [ha] at h
            simp only [Option.pure_def, Option.bind_eq_bind, Option.some_bind,
              Option.some_inj] at h
            injection h with h1 h2
            subst h1
            exact bnd_adjustRoot hs ha
        · rw [if_neg hroot] at h
          cases hp : getInternal s nd.parent with
          | none => rw [hp] at h; simp at h
          | some pnode =>
            rw [hp] at h
            simp only [Option.pure_def, Option.bind_eq_bind, Option.some_bind] at h
            by_cases hsel1 : pnode.valueIndex np - 1 ≥ 0
            · rw [if_pos hsel1] at h
              cases hln : getPage s (pnode.valueAt (pnode.valueIndex np - 1).toNat) with
              | none => rw [hln] at h; simp at h
              | some ln =>
                rw [hln] at h
                simp only [Option.pure_def, Option.bind_eq_bind, Option.some_bind] at h
                cases hrn : getPage s np with
                | none => rw [hrn] at h; simp at h
                | some rn =>
                  rw [hrn] at h
                  simp only [Option.pure_def, Option.bind_eq_bind, Option.some_bind] at h
                  by_cases hcond : ln.size + rn.size ≤ ln.maxSize
                  · rw [if_pos hcond] at h
                    exact ih.2 _ _ _ _ _ _ _ _ _ hs hln hrn hcond h
                  · rw [if_neg hcond] at h
                    cases hr : redistribute s nd.parent
                        (pnode.valueAt (pnode.valueIndex np - 1).toNat) np 0 with
                    | none => rw [hr] at h; simp at h
                    | some s1 =>
                      rw [hr] at h
                      simp only [Option.pure_def, Option.bind_eq_bind, Option.some_bind,
                        Option.some_inj] at h
                      injection h with h1 h2
                      subst h1
                      exact bnd_redistribute hs hr
            · rw [if_neg hsel1] at h
              by_cases hsel2 : pnode.valueIndex np + 1 < (pnode.size : Int)
              · rw [if_pos hsel2] at h
                cases hln : getPage s np with
                | none => rw [hln] at h; simp at h
                | some ln =>
                  rw [hln] at h
                  simp only [Option.pure_def, Option.bind_eq_bind, Option.some_bind] at h
                  cases hrn : getPage s (pnode.valueAt (pnode.valueIndex np + 1).toNat) with
                  | none => rw [hrn] at h; simp at h
                  | some rn =>
                    rw [hrn] at h
                    simp only [Option.pure_def, Option.bind_eq_bind, Option.some_bind] at h
                    by_cases hcond : ln.size + rn.size ≤ ln.maxSize
                    · rw [if_pos hcond] at h
                      exact ih.2 _ _ _ _ _ _ _ _ _ hs hln hrn hcond h
                    · rw [if_neg hcond] at h
                      cases hr : redistribute s nd.parent np
                          (pnode.valueAt (pnode.valueIndex np + 1).toNat) 1 with
                      | none => rw [hr] at h; simp at h
                      | some s1 =>
                        rw [hr] at h
                        simp only [Option.pure_def, Option.bind_eq_bind, Option.some_bind,
                          Option.some_inj] at h
                        injection h with h1 h2
                        subst h1
                        exact bnd_redistribute hs hr
              · rw [if_neg hsel2] at h
                simp at h
    exact ⟨pn1, hstep (n + 1) pn1⟩

theorem bnd_foldl_delPage : ∀ (dels : List Int) (s : TreeState), bnd s →
    bnd (dels.foldl delPage s) := by
  intro dels
  induction dels with
  | nil => intro s hs; exact hs
  | cons d rest ih =>
    intro s hs
    exact ih (delPage s d) (bnd_delPage d hs)

theorem bnd_removeOp {fuel : Nat} {s : TreeState} {key : Int} {s' : TreeState}
    (hs : bnd s) (h : removeOp fuel s key = some s') : bnd s' := by
  unfold removeOp at h
  by_cases hz : s.treeSize = 0
  · rw [if_pos hz] at h
    injection h with h
    subst h
    exact hs
  · rw [if_neg hz] at h
    simp only [Option.pure_def, Option.bind_eq_bind] at h
    cases hlp : descendFrom fuel s s.rootPageId key with
    | none => rw [hlp] at h; simp at h
    | some lp =>
      rw [hlp] at h
      simp only [Option.some_bind] at h
      cases hl : getLeaf s lp with
      | none => rw [hl] at h; simp at h
      | some l =>
        rw [hl] at h
        simp only [Option.some_bind] at h
        obtain ⟨⟨hq1, hq2⟩, _⟩ := hs.1 lp (.leaf l) (getLeaf_some.1 hl)
        have hb1 : bnd (updatePage s lp (.leaf (l.removeAndDelete key))) := by
          refine bnd_updatePage lp hs ⟨?_, hq2⟩
          show (l.removeAndDelete key).entries.length ≤ l.maxSize
          unfold LeafNode.removeAndDelete
          exact le_trans (leafRemoveAux_length key l.entries) hq1
        by_cases hc1 : (l.removeAndDelete key).size = l.size
        · rw [if_pos hc1] at h
          injection h with h
          subst h
          by_cases hc3 : ((l.removeAndDelete key).size : Int) = (l.size : Int) - 1
          · rw [if_pos hc3]
            exact hb1
          · rw [if_neg hc3]
            exact hb1
        · rw [if_neg hc1] at h
          by_cases hc2 : (l.removeAndDelete key).size <
              minSize (l.removeAndDelete key).maxSize
          · rw [if_pos hc2] at h
            cases hcd : corD fuel (updatePage s lp (.leaf (l.removeAndDelete key))) lp [] with
            | none => rw [hcd] at h; simp at h
            | some pr =>
              rw [hcd] at h
              simp only [Option.some_bind] at h
              obtain ⟨p1, p2⟩ := pr
              injection h with h
              subst h
              have hb3 : bnd (p2.foldl delPage p1) :=
                bnd_foldl_delPage p2 p1 ((bnd_corD fuel).1 _ _ _ _ _ hb1 hcd)
              by_cases hc3 : ((l.removeAndDelete key).size : Int) = (l.size : Int) - 1
              · rw [if_pos hc3]
                exact hb3
              · rw [if_neg hc3]
                exact hb3
          · rw [if_neg hc2] at h
            injection h with h
            subst h
            by_cases hc3 : ((l.removeAndDelete key).size : Int) = (l.size : Int) - 1
            · rw [if_pos hc3]
              exact hb1
            · rw [if_neg hc3]
              exact hb1

theorem maxSize_ge2 {s : TreeState} {p : Int} {n : Node} (hs : bnd s)
    (h : getPage s p = some n) : 2 ≤ n.maxSize := by
  obtain ⟨⟨h1, h2⟩, _⟩ := hs.1 p n h
  rw [h2]
  by_cases hk : n.isLeaf = true
  · rw [if_pos hk]; exact hs.2.1
  · rw [if_neg hk]; exact hs.2.2

theorem bnd_insertIntoParent : ∀ fuel : Nat, ∀ {s : TreeState} {oldPid mkey newPid : Int}
    {s' : TreeState}, bnd s → insertIntoParent fuel s oldPid mkey newPid = some s' →
    bnd s' := by
  intro fuel
  induction fuel with
  | zero =>
    intro s oldPid mkey newPid s' hs h
    simp [insertIntoParent] at h
  | succ n ih =>
    intro s oldPid mkey newPid s' hs h
    unfold insertIntoParent at h
    cases ho : getPage s oldPid with
    | none => rw [ho] at h; simp at h
    | some oldN =>
    rw [ho] at h
    simp only [Option.pure_def, Option.bind_eq_bind, Option.some_bind] at h
    cases hw : getPage s newPid with
    | none => rw [hw] at h; simp at h
    | some newN =>
    rw [hw] at h
    simp only [Option.pure_def, Option.bind_eq_bind, Option.some_bind] at h
    cases hp : (if newN.size < minSize newN.maxSize then
          (moveLastToFrontOfState s oldPid newPid mkey).bind fun s =>
            (getPage s newPid).bind fun newN2 => some (s, newN2.keyAt0)
        else if oldN.size < minSize oldN.maxSize then
          (moveFirstToEndOfState s newPid oldPid mkey).bind fun s =>
            (getPage s newPid).bind fun newN2 => some (s, newN2.keyAt0)
        else some (s, mkey)) with
    | none => rw [hp] at h; simp at h
    | some pr =>
    rw [hp] at h
    simp only [Option.some_bind] at h
    have hb2 : bnd pr.1 := by
      by_cases hc1 : newN.size < minSize newN.maxSize
      · rw [if_pos hc1] at hp
        cases hm : moveLastToFrontOfState s oldPid newPid mkey with
        | none => rw [hm] at hp; simp at hp
        | some s2 =>
          rw [hm] at hp
          simp only [Option.some_bind] at hp
          cases hw2 : getPage s2 newPid with
          | none => rw [hw2] at hp; simp at hp
          | some newN2 =>
            rw [hw2] at hp
            simp only [Option.some_bind, Option.some_inj] at hp
            rw [← hp]
            exact bnd_moveLastToFrontOfState hs ho hw
              (fun _ => by have h2 := maxSize_ge2 hs hw; unfold minSize at hc1; omega) hm
      · rw [if_neg hc1] at hp
        by_cases hc2 : oldN.size < minSize oldN.maxSize
        · rw [if_pos hc2] at hp
          cases hm : moveFirstToEndOfState s newPid oldPid mkey with
          | none => rw [hm] at hp; simp at hp
          | some s2 =>
            rw [hm] at hp
            simp only [Option.some_bind] at hp
            cases hw2 : getPage s2 newPid with
            | none => rw [hw2] at hp; simp at hp
            | some newN2 =>
              rw [hw2] at hp
              simp only [Option.some_bind, Option.some_inj] at hp
              rw [← hp]
              exact bnd_moveFirstToEndOfState hs hw ho
                (fun _ => by have h2 := maxSize_ge2 hs ho; unfold minSize at hc2; omega) hm
        · rw [if_neg hc2] at hp
          injection hp with hp
          rw [← hp]
          exact hs
    clear hp
    cases ho2 : getPage pr.1 oldPid with
    | none => rw [ho2] at h; simp at h
    | some oldN2 =>
    rw [ho2] at h
    simp only [Option.some_bind] at h
    set sB : TreeState := ⟨pr.1.pages, pr.1.rootPageId, pr.1.treeSize, pr.1.nextAlloc + 1,
      pr.1.leafMaxSize, pr.1.internalMaxSize⟩ with hsB
    have hbB : bnd sB := bnd_bumpAlloc hb2
    by_cases hroot : oldN2.isRoot = true
    · rw [if_pos hroot] at h
      set rootN : InternalNode :=
        InternalNode.populateNewRoot ⟨[], INVALID_PAGE_ID, pr.1.nextAlloc, pr.1.internalMaxSize⟩
          oldPid pr.2 newPid with hrootN
      have hb3 : bnd (addPage sB pr.1.nextAlloc (.internal rootN)) := by
        refine bnd_addPage hbB ⟨?_, ?_⟩ ?_
        · show (2 : Nat) ≤ pr.1.internalMaxSize
          exact hb2.2.2
        · rfl
        · show pr.1.nextAlloc < pr.1.nextAlloc + 1
          omega
      cases hsp1 : setParentOf (addPage sB pr.1.nextAlloc (.internal rootN))
          oldPid pr.1.nextAlloc with
      | none => rw [hsp1] at h; simp at h
      | some s5 =>
      rw [hsp1] at h
      simp only [Option.some_bind] at h
      cases hsp2 : setParentOf s5 newPid pr.1.nextAlloc with
      | none => rw [hsp2] at h; simp at h
      | some s6 =>
      rw [hsp2] at h
      simp only [Option.some_bind, Option.some_inj] at h
      rw [← h]
      have hb6 := bnd_setParentOf (bnd_setParentOf hb3 hsp1) hsp2
      exact hb6
    · rw [if_neg hroot] at h
      cases hpar : getInternal pr.1 oldN2.parent with
      | none => rw [hpar] at h; simp at h
      | some parent =>
      rw [hpar] at h
      simp only [Option.some_bind] at h
      obtain ⟨⟨hpk1, hpk2⟩, hplt⟩ := hb2.1 oldN2.parent (.internal parent)
        (getInternal_some.1 hpar)
      by_cases hfit : parent.size < parent.maxSize
      · rw [if_pos hfit] at h
        cases hin : parent.insertNodeAfter oldPid pr.2 newPid with
        | none => rw [hin] at h; simp at h
        | some parent2 =>
        rw [hin] at h
        simp only [Option.some_bind] at h
        refine bnd_setParentOf (bnd_updatePage oldN2.parent hb2 ⟨?_, ?_⟩) h
        · show parent2.size ≤ parent2.maxSize
          have h1 := insertNodeAfter_size hin
          rw [h1.1, h1.2]
          exact hfit
        · show parent2.maxSize = _
          rw [(insertNodeAfter_size hin).2]
          exact hpk2
      · rw [if_neg hfit] at h
        have hnpd : oldN2.parent ≠ pr.1.nextAlloc := by
          intro he
          omega
        set eN : InternalNode := ⟨[], INVALID_PAGE_ID, pr.1.nextAlloc, pr.1.internalMaxSize⟩
          with heN
        have hb4 : bnd (addPage sB pr.1.nextAlloc (.internal eN)) := by
          refine bnd_addPage hbB ⟨?_, ?_⟩ ?_
          · show (0 : Nat) ≤ pr.1.internalMaxSize
            omega
          · rfl
          · show pr.1.nextAlloc < pr.1.nextAlloc + 1
            omega
        cases hmh : internalMoveHalfToState (addPage sB pr.1.nextAlloc (.internal eN))
            oldN2.parent pr.1.nextAlloc with
        | none => rw [hmh] at h; simp at h
        | some s5 =>
        rw [hmh] at h
        simp only [Option.some_bind] at h
        have hgd : getInternal (addPage sB pr.1.nextAlloc (.internal eN)) oldN2.parent =
            some parent := by
          rw [getInternal_some, getPage_addPage, if_neg hnpd]
          exact getInternal_some.1 hpar
        have hgr : getInternal (addPage sB pr.1.nextAlloc (.internal eN)) pr.1.nextAlloc =
            some eN := by
          rw [getInternal_some, getPage_addPage, if_pos rfl]
        have hM : parent.maxSize = pr.1.internalMaxSize := by
          simpa [Node.maxSize, Node.isLeaf] using hpk2
        have hmsz : parent.size = parent.maxSize := by
          have h1 : parent.size ≤ parent.maxSize := hpk1
          omega
        obtain ⟨hb5, d', r', hgd', hgr', hds, hrs, hdm, hrm⟩ :=
          bnd_internalMoveHalfToState hb4 hgd hgr
            (by
              show (0 : Nat) + (parent.size - (parent.size + 1) / 2) ≤ pr.1.internalMaxSize
              have h1 : parent.size ≤ parent.maxSize := hpk1
              omega)
            hnpd hmh
        obtain ⟨⟨hd'1, hd'2⟩, _⟩ := hb5.1 oldN2.parent (.internal d') (getInternal_some.1 hgd')
        obtain ⟨⟨hr'1, hr'2⟩, _⟩ := hb5.1 pr.1.nextAlloc (.internal r') (getInternal_some.1 hgr')
        have hM2 : 2 ≤ pr.1.internalMaxSize := hb2.2.2
        cases ho3 : getPage s5 oldPid with
        | none => rw [ho3] at h; simp at h
        | some oldN3 =>
        rw [ho3] at h
        simp only [Option.some_bind] at h
        by_cases hpp : oldN2.parent = oldN3.parent
        · rw [if_pos hpp] at h
          rw [hgd'] at h
          simp only [Option.some_bind] at h
          cases hin : d'.insertNodeAfter oldPid pr.2 newPid with
          | none => rw [hin] at h; simp at h
          | some target2 =>
          rw [hin] at h
          simp only [Option.some_bind] at h
          cases hsp2 : setParentOf (updatePage s5 oldN2.parent (.internal target2))
              newPid oldN2.parent with
          | none => rw [hsp2] at h; simp at h
          | some s6 =>
          rw [hsp2] at h
          simp only [Option.some_bind] at h
          cases hnp : getInternal s6 pr.1.nextAlloc with
          | none => rw [hnp] at h; simp at h
          | some np =>
          rw [hnp] at h
          simp only [Option.some_bind] at h
          refine ih ?_ h
          refine bnd_setParentOf (bnd_updatePage oldN2.parent hb5 ⟨?_, ?_⟩) hsp2
          · show target2.size ≤ target2.maxSize
            have h1 := insertNodeAfter_size hin
            rw [h1.1, h1.2, hds, hdm, hM]
            omega
          · show target2.maxSize = _
            rw [(insertNodeAfter_size hin).2]
            exact hd'2
        · rw [if_neg hpp] at h
          by_cases hnp2 : pr.1.nextAlloc = oldN3.parent
          · rw [if_pos hnp2] at h
            rw [hgr'] at h
            simp only [Option.some_bind] at h
            cases hin : r'.insertNodeAfter oldPid pr.2 newPid with
            | none => rw [hin] at h; simp at h
            | some target2 =>
            rw [hin] at h
            simp only [Option.some_bind] at h
            cases hsp2 : setParentOf (updatePage s5 pr.1.nextAlloc (.internal target2))
                newPid pr.1.nextAlloc with
            | none => rw [hsp2] at h; simp at h
            | some s6 =>
            rw [hsp2] at h
            simp only [Option.some_bind] at h
            cases hnp : getInternal s6 pr.1.nextAlloc with
            | none => rw [hnp] at h; simp at h
            | some np =>
            rw [hnp] at h
            simp only [Option.some_bind] at h
            refine ih ?_ h
            refine bnd_setParentOf (bnd_updatePage pr.1.nextAlloc hb5 ⟨?_, ?_⟩) hsp2
            · show target2.size ≤ target2.maxSize
              have h1 := insertNodeAfter_size hin
              rw [h1.1, h1.2, hrs, hrm]
              show (eN.size + (parent.size - (parent.size + 1) / 2)) + 1 ≤ eN.maxSize
              have h2 : eN.size = 0 := rfl
              have h3 : eN.maxSize = pr.1.internalMaxSize := rfl
              omega
            · show target2.maxSize = _
              rw [(insertNodeAfter_size hin).2]
              exact hr'2
          · rw [if_neg hnp2] at h
            simp at h

theorem bnd_startNewTree {s s' : TreeState} {key value : Int} (hs : bnd s)
    (h : startNewTree s key value = some s') : bnd s' := by
  unfold startNewTree at h
  simp only [Option.pure_def, Option.bind_eq_bind, Option.some_bind] at h
  cases hi : LeafNode.insert ⟨[], INVALID_PAGE_ID, INVALID_PAGE_ID, s.nextAlloc,
      s.leafMaxSize⟩ key value with
  | none => rw [hi] at h; simp at h
  | some l1 =>
    rw [hi] at h
    simp only [Option.some_bind, Option.some_inj] at h
    rw [← h]
    obtain ⟨hle, hmx, _⟩ := leafInsert_le hi
    have hb : bnd (addPage ⟨s.pages, s.rootPageId, s.treeSize, s.nextAlloc + 1,
        s.leafMaxSize, s.internalMaxSize⟩ s.nextAlloc (.leaf l1)) := by
      refine bnd_addPage (bnd_bumpAlloc hs) ⟨?_, ?_⟩ ?_
      · show l1.size ≤ l1.maxSize
        rw [hmx]
        exact hle
      · show l1.maxSize = _
        rw [hmx]
        rfl
      · show s.nextAlloc < s.nextAlloc + 1
        omega
    exact hb

theorem bnd_insertIntoLeaf {fuel : Nat} {s : TreeState} {key value : Int}
    {r : Bool} {s' : TreeState} (hs : bnd s)
    (h : insertIntoLeaf fuel s key value = some (r, s')) : bnd s' := by
  unfold insertIntoLeaf at h
  simp only [Option.pure_def, Option.bind_eq_bind] at h
  cases hlp : descendFrom fuel s s.rootPageId key with
  | none => rw [hlp] at h; simp at h
  | some lp =>
  rw [hlp] at h
  simp only [Option.some_bind] at h
  cases hl : getLeaf s lp with
  | none => rw [hl] at h; simp at h
  | some dest =>
  rw [hl] at h
  simp only [Option.some_bind] at h
  obtain ⟨⟨hq1, hq2⟩, hqlt⟩ := hs.1 lp (.leaf dest) (getLeaf_some.1 hl)
  have hlm : dest.maxSize = s.leafMaxSize := by
    simpa [Node.maxSize, Node.isLeaf] using hq2
  by_cases hful : dest.size = dest.maxSize
  · rw [if_pos hful] at h
    set sB : TreeState := ⟨s.pages, s.rootPageId, s.treeSize, s.nextAlloc + 1,
      s.leafMaxSize, s.internalMaxSize⟩ with hsB
    have hbB : bnd sB := bnd_bumpAlloc hs
    set fresh : LeafNode := ⟨[], INVALID_PAGE_ID, INVALID_PAGE_ID, s.nextAlloc,
      s.leafMaxSize⟩ with hfresh
    have hmain : ∀ (ret : Bool) (dest2 new2 : LeafNode) (s' : TreeState),
        dest2.size ≤ s.leafMaxSize → dest2.maxSize = s.leafMaxSize →
        new2.size ≤ s.leafMaxSize → new2.maxSize = s.leafMaxSize →
        ((insertIntoParent fuel (addPage (updatePage sB lp
            (.leaf { dest2 with nextPageId := s.nextAlloc })) s.nextAlloc
            (.leaf { new2 with nextPageId := dest2.nextPageId })) lp (new2.keyAt 0)
            s.nextAlloc).bind fun s2 =>
          some (ret, if ret then
            (⟨s2.pages, s2.rootPageId, s2.treeSize + 1, s2.nextAlloc, s2.leafMaxSize,
              s2.internalMaxSize⟩ : TreeState) else s2)) = some (r, s') → bnd s' := by
      intro ret dest2 new2 s' hd1 hd2 hn1 hn2 hh
      cases hip : insertIntoParent fuel (addPage (updatePage sB lp
          (.leaf { dest2 with nextPageId := s.nextAlloc })) s.nextAlloc
          (.leaf { new2 with nextPageId := dest2.nextPageId })) lp (new2.keyAt 0)
          s.nextAlloc with
      | none => rw [hip] at hh; simp at hh
      | some s2 =>
        rw [hip] at hh
        simp only [Option.some_bind, Option.some_inj] at hh
        injection hh with hh1 hh2
        have hb3 : bnd (addPage (updatePage sB lp
            (.leaf { dest2 with nextPageId := s.nextAlloc })) s.nextAlloc
            (.leaf { new2 with nextPageId := dest2.nextPageId })) := by
          refine bnd_addPage (bnd_updatePage lp hbB ⟨?_, ?_⟩) ⟨?_, ?_⟩ ?_
          · show dest2.size ≤ dest2.maxSize
            rw [hd2]
            exact hd1
          · show dest2.maxSize = _
            exact hd2
          · show new2.size ≤ new2.maxSize
            rw [hn2]
            exact hn1
          · show new2.maxSize = _
            exact hn2
          · show s.nextAlloc < s.nextAlloc + 1
            omega
        have hb4 := bnd_insertIntoParent fuel hb3 hip
        rw [← hh2]
        by_cases hret : ret = true
        · rw [if_pos hret]
          exact hb4
        · rw [if_neg hret]
          exact hb4
    by_cases hc : cmpI key ((leafMoveHalfTo dest fresh).2.keyAt 0) ≥ 0
    · rw [if_pos hc] at h
      cases hi : (leafMoveHalfTo dest fresh).2.insert key value with
      | none => rw [hi] at h; simp at h
      | some n2 =>
        rw [hi] at h
        simp only [Option.some_bind] at h
        refine hmain _ _ _ _ ?_ ?_ ?_ ?_ h
        · show (dest.entries.take (dest.size / 2)).length ≤ s.leafMaxSize
          simp only [List.length_take]
          have h1 : dest.entries.length = dest.size := rfl
          have h3 : dest.size = s.leafMaxSize := by rw [hful, hlm]
          omega
        · show dest.maxSize = s.leafMaxSize
          exact hlm
        · obtain ⟨ha, hb', _⟩ := leafInsert_le hi
          have h2 : (leafMoveHalfTo dest fresh).2.maxSize = s.leafMaxSize := rfl
          rw [h2] at ha
          exact ha
        · obtain ⟨ha, hb', _⟩ := leafInsert_le hi
          rw [hb']
          rfl
    · rw [if_neg hc] at h
      cases hi : (leafMoveHalfTo dest fresh).1.insert key value with
      | none => rw [hi] at h; simp at h
      | some d2 =>
        rw [hi] at h
        simp only [Option.some_bind] at h
        refine hmain _ _ _ _ ?_ ?_ ?_ ?_ h
        · obtain ⟨ha, hb', _⟩ := leafInsert_le hi
          have h2 : (leafMoveHalfTo dest fresh).1.maxSize = dest.maxSize := rfl
          rw [h2, hlm] at ha
          exact ha
        · obtain ⟨ha, hb', _⟩ := leafInsert_le hi
          rw [hb', show (leafMoveHalfTo dest fresh).1.maxSize = dest.maxSize from rfl]
          exact hlm
        · show ([] ++ dest.entries.drop (dest.size / 2)).length ≤ s.leafMaxSize
          rw [List.nil_append, List.length_drop]
          have h1 : dest.entries.length = dest.size := rfl
          have h3 : dest.size = s.leafMaxSize := by rw [hful, hlm]
          omega
        · show fresh.maxSize = s.leafMaxSize
          rfl
  · rw [if_neg hful] at h
    cases hi : dest.insert key value with
    | none => rw [hi] at h; simp at h
    | some d2 =>
      rw [hi] at h
      simp only [Option.some_bind, Option.some_inj] at h
      injection h with hh1 hh2
      obtain ⟨ha, hb', _⟩ := leafInsert_le hi
      have hb1 : bnd (updatePage s lp (.leaf d2)) := by
        refine bnd_updatePage lp hs ⟨?_, ?_⟩
        · show d2.size ≤ d2.maxSize
          rw [hb']
          exact ha
        · show d2.maxSize = _
          rw [hb']
          exact hq2
      rw [← hh2]
      by_cases hret : (d2.size == dest.size + 1) = true
      · rw [if_pos hret]
        exact hb1
      · rw [if_neg hret]
        exact hb1

theorem bnd_insertOp {fuel : Nat} {s : TreeState} {key value : Int}
    {r : Bool} {s' : TreeState} (hs : bnd s)
    (h : insertOp fuel s key value = some (r, s')) : bnd s' := by
  unfold insertOp at h
  by_cases hz : s.treeSize = 0
  · rw [if_pos hz] at h
    cases hn : startNewTree s key value with
    | none => rw [hn] at h; simp at h
    | some s2 =>
      rw [hn] at h
      simp only [Option.map_some', Option.some_inj] at h
      injection h with h1 h2
      rw [← h2]
      exact bnd_startNewTree hs hn
  · rw [if_neg hz] at h
    exact bnd_insertIntoLeaf hs h

/-- C4: counterexample to both claimed occupancy bounds.  Inserting 1..6 into
an empty tree (leaf max 4, internal max 3) leaves the non-root leaf on page 2
holding 4 = max_size entries, contradicting the claimed `size <= max_size - 1`
for leaves; inserting 1, 2, 3 and then the duplicate 1 (leaf max 3) splits the
full root leaf before detecting the duplicate and leaves the non-root leaf on
page 2 with a single entry, below the minimum `⌈max_size / 2⌉ = 2`. -/
theorem c4_occupancy_bounds_fail :
    (c4RunA = some c4StateA ∧
      getPage c4StateA 2 = some (.leaf c4LeafA) ∧
      (Node.leaf c4LeafA).isRoot = false ∧
      c4LeafA.size = c4LeafA.maxSize) ∧
    (c4RunB = some (false, c4StateB) ∧
      getPage c4StateB 2 = some (.leaf c4LeafB) ∧
      (Node.leaf c4LeafB).isRoot = false ∧
      c4LeafB.size < minSize c4LeafB.maxSize) := by
  refine ⟨⟨?_, by decide, by decide, by decide⟩, ⟨?_, by decide, by decide, by decide⟩⟩
  · decide
  · decide

/-- C4 (amended): after every insert or remove on a state satisfying the
global bound invariant `bnd` (all pages within their max, max sizes at least
2, allocation cursor fresh), every page - root or not, leaf or internal -
still has `size <= max_size`, and `bnd` is preserved.  The claimed lower
bound and the claimed `max_size - 1` leaf upper bound do not hold. -/
theorem c4_occupancy_upper_bound (fuel : Nat) (s : TreeState) (key value : Int)
    (hs : bnd s) :
    (∀ r s', insertOp fuel s key value = some (r, s') →
      bnd s' ∧ ∀ p n, getPage s' p = some n → n.size ≤ n.maxSize) ∧
    (∀ s', removeOp fuel s key = some s' →
      bnd s' ∧ ∀ p n, getPage s' p = some n → n.size ≤ n.maxSize) := by
  constructor
  · intro r s' h
    have hb := bnd_insertOp hs h
    exact ⟨hb, fun p n hp => (hb.1 p n hp).1.1⟩
  · intro s' h
    have hb := bnd_removeOp hs h
    exact ⟨hb, fun p n hp => (hb.1 p n hp).1.1⟩

theorem c4_occupancy_upper_bound_witness :
    bnd c4Empty ∧ insertOp 20 c4Empty 1 1 = some (true, c4S1) ∧
      (∀ p n, getPage c4S1 p = some n → n.size ≤ n.maxSize) := by
  have hb : bnd c4Empty := by
    refine ⟨?_, by decide, by decide⟩
    intro p n h
    simp [getPage, c4Empty, List.lookup] at h
  have hrun : insertOp 20 c4Empty 1 1 = some (true, c4S1) := by decide
  exact ⟨hb, hrun, ((c4_occupancy_upper_bound 20 c4Empty 1 1 hb).1 true c4S1 hrun).2⟩

/-- The insert scan reports a duplicate whenever the key already sits in a
leaf whose entries are sorted by key. -/
theorem leafFindSlot_dup {key : Int} :
    ∀ {es : List (Int × Int)} {i : Nat} {v0 : Int},
      es.Pairwise (fun a b => a.1 ≤ b.1) → (key, v0) ∈ es →
      leafFindSlot key es i = none := by
  intro es
  induction es with
  | nil => intro i v0 hs hm; simp at hm
  | cons e rest ih =>
    intro i v0 hs hm
    unfold leafFindSlot
    rcases List.mem_cons.1 hm with he | ht
    · have hk : key = e.1 := by rw [← he]
      rw [if_neg (by rw [cmpI_eq_neg_one]; omega), if_pos (by rw [cmpI_eq_zero]; omega)]
    · have hle : e.1 ≤ key := by
        have := (List.pairwise_cons.1 hs).1 (key, v0) ht
        exact this
      by_cases hk : key = e.1
      · rw [if_neg (by rw [cmpI_eq_neg_one]; omega), if_pos (by rw [cmpI_eq_zero]; omega)]
      · rw [if_neg (by rw [cmpI_eq_neg_one]; omega), if_neg (by rw [cmpI_eq_zero]; omega)]
        exact ih (List.pairwise_cons.1 hs).2 ht

/-- `BPlusTreeLeafPage::Insert` of a key already present in a sorted,
non-full leaf returns the page unchanged. -/
theorem leafInsert_duplicate {l : LeafNode} {key value v0 : Int}
    (hs : l.entries.Pairwise (fun a b => a.1 ≤ b.1)) (hm : (key, v0) ∈ l.entries)
    (hroom : l.size < l.maxSize) :
    l.insert key value = some l := by
  unfold LeafNode.insert
  rw [if_neg (by omega)]
  have hnz : l.size ≠ 0 := by
    have : 0 < l.entries.length := List.length_pos.2 (by intro he; rw [he] at hm; simp at hm)
    show l.entries.length ≠ 0
    omega
  rw [if_neg hnz, leafFindSlot_dup hs hm]

theorem getD_drop_zero {es : List (Int × Int)} {h : Nat} (hlt : h < es.length)
    (d : Int × Int) : (es.drop h).getD 0 d = es.getD h d := by
  rw [List.getD_eq_getD_get?, List.getD_eq_getD_get?, List.get?_drop, Nat.add_zero]

theorem get_mem_drop {es : List (Int × Int)} {h j : Nat} (hj : j < es.length)
    (hh : h ≤ j) : es.get ⟨j, hj⟩ ∈ es.drop h := by
  rw [List.mem_iff_get]
  have hlen : j - h < (es.drop h).length := by
    rw [List.length_drop]
    omega
  refine ⟨⟨j - h, hlen⟩, ?_⟩
  rw [List.get_drop']
  apply congrArg
  apply Fin.ext
  show h + (j - h) = j
  omega

theorem get_mem_take {es : List (Int × Int)} {h j : Nat} (hj : j < es.length)
    (hh : j < h) : es.get ⟨j, hj⟩ ∈ es.take h := by
  rw [List.mem_iff_get]
  have hlen : j < (es.take h).length := by
    rw [List.length_take]
    omega
  refine ⟨⟨j, hlen⟩, ?_⟩
  rw [List.get_take']

theorem mem_drop_of_ge {es : List (Int × Int)} {key v0 : Int} {h : Nat}
    (hs : es.Pairwise (fun a b => a.1 ≤ b.1)) (hm : (key, v0) ∈ es)
    (hlt : h < es.length) (hge : (es.getD h (0, 0)).1 ≤ key) :
    ∃ v, (key, v) ∈ es.drop h := by
  obtain ⟨⟨j, hj⟩, hget⟩ := List.mem_iff_get.1 hm
  by_cases hcmp : h ≤ j
  · refine ⟨v0, ?_⟩
    have hmem2 := get_mem_drop hj hcmp
    rw [hget] at hmem2
    exact hmem2
  · have hjh : j < h := by omega
    have hle : (es.get ⟨j, hj⟩).1 ≤ (es.get ⟨h, hlt⟩).1 :=
      List.pairwise_iff_get.1 hs ⟨j, hj⟩ ⟨h, hlt⟩ hjh
    rw [hget] at hle
    have hgd : es.getD h (0, 0) = es.get ⟨h, hlt⟩ := by
      rw [List.getD_eq_getD_get?, List.get?_eq_get hlt]
      rfl
    rw [hgd] at hge
    have hkey : (es.get ⟨h, hlt⟩).1 = key := le_antisymm hge hle
    refine ⟨(es.get ⟨h, hlt⟩).2, ?_⟩
    have hmem2 := get_mem_drop hlt (le_refl h)
    rw [show es.get ⟨h, hlt⟩ = (key, (es.get ⟨h, hlt⟩).2) from Prod.ext hkey rfl] at hmem2
    exact hmem2

theorem mem_take_of_lt {es : List (Int × Int)} {key v0 : Int} {h : Nat}
    (hs : es.Pairwise (fun a b => a.1 ≤ b.1)) (hm : (key, v0) ∈ es)
    (hlt : h < es.length) (hgt : key < (es.getD h (0, 0)).1) :
    ∃ v, (key, v) ∈ es.take h := by
  obtain ⟨⟨j, hj⟩, hget⟩ := List.mem_iff_get.1 hm
  have hgd : es.getD h (0, 0) = es.get ⟨h, hlt⟩ := by
    rw [List.getD_eq_getD_get?, List.get?_eq_get hlt]
    rfl
  rw [hgd] at hgt
  by_cases hcmp : j < h
  · refine ⟨v0, ?_⟩
    have hmem2 := get_mem_take hj hcmp
    rw [hget] at hmem2
    exact hmem2
  · exfalso
    by_cases hje : j = h
    · subst hje
      rw [hget] at hgt
      omega
    · have hlf : (es.get ⟨h, hlt⟩).1 ≤ (es.get ⟨j, hj⟩).1 :=
        List.pairwise_iff_get.1 hs ⟨h, hlt⟩ ⟨j, hj⟩ (by show h < j; omega)
      rw [hget] at hlf
      have hlf2 : (es.get ⟨h, hlt⟩).1 ≤ key := hlf
      omega

theorem moveFirstToEndOfState_treeSize {s s' : TreeState} {dp rp mk : Int}
    (h : moveFirstToEndOfState s dp rp mk = some s') : s'.treeSize = s.treeSize := by
  unfold moveFirstToEndOfState at h
  cases hdp : getPage s dp with
  | none => rw [hdp] at h; simp at h
  | some dn =>
  cases hrp : getPage s rp with
  | none => rw [hdp, hrp] at h; simp at h
  | some rn =>
  rw [hdp, hrp] at h
  simp only [Option.pure_def, Option.bind_eq_bind, Option.some_bind] at h
  cases dn with
  | leaf d =>
    cases rn with
    | leaf r =>
      simp only [Option.some_inj] at h
      rw [← h, updatePage_treeSize, updatePage_treeSize]
    | internal r => simp at h
  | internal d =>
    cases rn with
    | leaf r => simp at h
    | internal r =>
      replace h : setParentOf (updatePage (updatePage s dp
          (.internal { d with entries := d.entries.drop 1 })) rp
          (.internal { r with entries := r.entries ++ [(mk, d.valueAt 0)] }))
          (d.valueAt 0) rp = some s' := h
      rw [(setParentOf_meta h).2.1, updatePage_treeSize, updatePage_treeSize]

theorem moveLastToFrontOfState_treeSize {s s' : TreeState} {dp rp mk : Int}
    (h : moveLastToFrontOfState s dp rp mk = some s') : s'.treeSize = s.treeSize := by
  unfold moveLastToFrontOfState at h
  cases hdp : getPage s dp with
  | none => rw [hdp] at h; simp at h
  | some dn =>
  cases hrp : getPage s rp with
  | none => rw [hdp, hrp] at h; simp at h
  | some rn =>
  rw [hdp, hrp] at h
  simp only [Option.pure_def, Option.bind_eq_bind, Option.some_bind] at h
  cases dn with
  | leaf d =>
    cases rn with
    | leaf r =>
      simp only [Option.some_inj] at h
      rw [← h, updatePage_treeSize, updatePage_treeSize]
    | internal r => simp at h
  | internal d =>
    cases rn with
    | leaf r => simp at h
    | internal r =>
      replace h : setParentOf (updatePage (updatePage s dp
          (.internal { d with entries := d.entries.take (d.size - 1) })) rp
          (.internal { r with entries := d.entryAt (d.size - 1) :: r.entries }))
          (d.entryAt (d.size - 1)).2 rp = some s' := h
      rw [(setParentOf_meta h).2.1, updatePage_treeSize, updatePage_treeSize]

theorem internalMoveHalfToState_treeSize {s s' : TreeState} {dp rp : Int}
    (h : internalMoveHalfToState s dp rp = some s') : s'.treeSize = s.treeSize := by
  unfold internalMoveHalfToState at h
  cases hd : getInternal s dp with
  | none => rw [hd] at h; simp at h
  | some d =>
  cases hr : getInternal s rp with
  | none => rw [hd, hr] at h; simp at h
  | some r =>
  rw [hd, hr] at h
  simp only [Option.pure_def, Option.bind_eq_bind, Option.some_bind] at h
  rw [(adoptAll_meta h).2.1, updatePage_treeSize, updatePage_treeSize]

/-- `InsertIntoParent` never touches the cached entry count `size_`. -/
theorem insertIntoParent_treeSize : ∀ fuel : Nat, ∀ {s : TreeState}
    {oldPid mkey newPid : Int} {s' : TreeState},
    insertIntoParent fuel s oldPid mkey newPid = some s' → s'.treeSize = s.treeSize := by
  intro fuel
  induction fuel with
  | zero =>
    intro s oldPid mkey newPid s' h
    simp [insertIntoParent] at h
  | succ n ih =>
    intro s oldPid mkey newPid s' h
    unfold insertIntoParent at h
    cases ho : getPage s oldPid with
    | none => rw [ho] at h; simp at h
    | some oldN =>
    rw [ho] at h
    simp only [Option.pure_def, Option.bind_eq_bind, Option.some_bind] at h
    cases hw : getPage s newPid with
    | none => rw [hw] at h; simp at h
    | some newN =>
    rw [hw] at h
    simp only [Option.pure_def, Option.bind_eq_bind, Option.some_bind] at h
    cases hp : (if newN.size < minSize newN.maxSize then
          (moveLastToFrontOfState s oldPid newPid mkey).bind fun s =>
            (getPage s newPid).bind fun newN2 => some (s, newN2.keyAt0)
        else if oldN.size < minSize oldN.maxSize then
          (moveFirstToEndOfState s newPid oldPid mkey).bind fun s =>
            (getPage s newPid).bind fun newN2 => some (s, newN2.keyAt0)
        else some (s, mkey)) with
    | none => rw [hp] at h; simp at h
    | some pr =>
    rw [hp] at h
    simp only [Option.some_bind] at h
    have hts : pr.1.treeSize = s.treeSize := by
      by_cases hc1 : newN.size < minSize newN.maxSize
      · rw [if_pos hc1] at hp
        cases hm : moveLastToFrontOfState s oldPid newPid mkey with
        | none => rw [hm] at hp; simp at hp
        | some s2 =>
          rw [hm] at hp
          simp only [Option.some_bind] at hp
          cases hw2 : getPage s2 newPid with
          | none => rw [hw2] at hp; simp at hp
          | some newN2 =>
            rw [hw2] at hp
            simp only [Option.some_bind, Option.some_inj] at hp
            rw [← hp]
            exact moveLastToFrontOfState_treeSize hm
      · rw [if_neg hc1] at hp
        by_cases hc2 : oldN.size < minSize oldN.maxSize
        · rw [if_pos hc2] at hp
          cases hm : moveFirstToEndOfState s newPid oldPid mkey with
          | none => rw [hm] at hp; simp at hp
          | some s2 =>
            rw [hm] at hp
            simp only [Option.some_bind] at hp
            cases hw2 : getPage s2 newPid with
            | none => rw [hw2] at hp; simp at hp
            | some newN2 =>
              rw [hw2] at hp
              simp only [Option.some_bind, Option.some_inj] at hp
              rw [← hp]
              exact moveFirstToEndOfState_treeSize hm
        · rw [if_neg hc2] at hp
          injection hp with hp
          rw [← hp]
    clear hp
    cases ho2 : getPage pr.1 oldPid with
    | none => rw [ho2] at h; simp at h
    | some oldN2 =>
    rw [ho2] at h
    simp only [Option.some_bind] at h
    set sB : TreeState := ⟨pr.1.pages, pr.1.rootPageId, pr.1.treeSize, pr.1.nextAlloc + 1,
      pr.1.leafMaxSize, pr.1.internalMaxSize⟩ with hsB
    by_cases hroot : oldN2.isRoot = true
    · rw [if_pos hroot] at h
      set rootN : InternalNode :=
        InternalNode.populateNewRoot ⟨[], INVALID_PAGE_ID, pr.1.nextAlloc, pr.1.internalMaxSize⟩
          oldPid pr.2 newPid with hrootN
      cases hsp1 : setParentOf (addPage sB pr.1.nextAlloc (.internal rootN))
          oldPid pr.1.nextAlloc with
      | none => rw [hsp1] at h; simp at h
      | some s5 =>
      rw [hsp1] at h
      simp only [Option.some_bind] at h
      cases hsp2 : setParentOf s5 newPid pr.1.nextAlloc with
      | none => rw [hsp2] at h; simp at h
      | some s6 =>
      rw [hsp2] at h
      simp only [Option.some_bind, Option.some_inj] at h
      rw [← h]
      show s6.treeSize = s.treeSize
      rw [(setParentOf_meta hsp2).2.1, (setParentOf_meta hsp1).2.1]
      exact hts
    · rw [if_neg hroot] at h
      cases hpar : getInternal pr.1 oldN2.parent with
      | none => rw [hpar] at h; simp at h
      | some parent =>
      rw [hpar] at h
      simp only [Option.some_bind] at h
      by_cases hfit : parent.size < parent.maxSize
      · rw [if_pos hfit] at h
        cases hin : parent.insertNodeAfter oldPid pr.2 newPid with
        | none => rw [hin] at h; simp at h
        | some parent2 =>
        rw [hin] at h
        simp only [Option.some_bind] at h
        rw [(setParentOf_meta h).2.1, updatePage_treeSize]
        exact hts
      · rw [if_neg hfit] at h
        set eN : InternalNode := ⟨[], INVALID_PAGE_ID, pr.1.nextAlloc, pr.1.internalMaxSize⟩
          with heN
        cases hmh : internalMoveHalfToState (addPage sB pr.1.nextAlloc (.internal eN))
            oldN2.parent pr.1.nextAlloc with
        | none => rw [hmh] at h; simp at h
        | some s5 =>
        rw [hmh] at h
        simp only [Option.some_bind] at h
        have hts5 : s5.treeSize = s.treeSize := by
          rw [internalMoveHalfToState_treeSize hmh]
          exact hts
        cases ho3 : getPage s5 oldPid with
        | none => rw [ho3] at h; simp at h
        | some oldN3 =>
        rw [ho3] at h
        simp only [Option.some_bind] at h
        by_cases hpp : oldN2.parent = oldN3.parent
        · rw [if_pos hpp] at h
          cases hti : getInternal s5 oldN2.parent with
          | none => rw [hti] at h; simp at h
          | some target =>
          rw [hti] at h
          simp only [Option.some_bind] at h
          cases hin : target.insertNodeAfter oldPid pr.2 newPid with
          | none => rw [hin] at h; simp at h
          | some target2 =>
          rw [hin] at h
          simp only [Option.some_bind] at h
          cases hsp2 : setParentOf (updatePage s5 oldN2.parent (.internal target2))
              newPid oldN2.parent with
          | none => rw [hsp2] at h; simp at h
          | some s6 =>
          rw [hsp2] at h
          simp only [Option.some_bind] at h
          cases hnp : getInternal s6 pr.1.nextAlloc with
          | none => rw [hnp] at h; simp at h
          | some np =>
          rw [hnp] at h
          simp only [Option.some_bind] at h
          rw [ih h, (setParentOf_meta hsp2).2.1, updatePage_treeSize]
          exact hts5
        · rw [if_neg hpp] at h
          by_cases hnp2 : pr.1.nextAlloc = oldN3.parent
          · rw [if_pos hnp2] at h
            cases hti : getInternal s5 pr.1.nextAlloc with
            | none => rw [hti] at h; simp at h
            | some target =>
            rw [hti] at h
            simp only [Option.some_bind] at h
            cases hin : target.insertNodeAfter oldPid pr.2 newPid with
            | none => rw [hin] at h; simp at h
            | some target2 =>
            rw [hin] at h
            simp only [Option.some_bind] at h
            cases hsp2 : setParentOf (updatePage s5 pr.1.nextAlloc (.internal target2))
                newPid pr.1.nextAlloc with
            | none => rw [hsp2] at h; simp at h
            | some s6 =>
            rw [hsp2] at h
            simp only [Option.some_bind] at h
            cases hnp : getInternal s6 pr.1.nextAlloc with
            | none => rw [hnp] at h; simp at h
            | some np =>
            rw [hnp] at h
            simp only [Option.some_bind] at h
            rw [ih h, (setParentOf_meta hsp2).2.1, updatePage_treeSize]
            exact hts5
          · rw [if_neg hnp2] at h
            simp at h

/-- C1 (amended): inserting a key that is already present in the (sorted) leaf
reached by the descent returns `false` and leaves the cached entry count
`size_` unchanged.  The full tree state is NOT always unchanged: when that
leaf is full, `InsertIntoLeaf` splits it before running the duplicate check,
restructuring the tree even though the insert reports failure. -/
theorem c1_duplicate_insert_returns_false (fuel : Nat) (s : TreeState)
    (key value v0 lp : Int) (l : LeafNode) (r : Bool) (s2 : TreeState)
    (hnz : ¬s.treeSize = 0)
    (hdesc : descendFrom fuel s s.rootPageId key = some lp)
    (hl : getLeaf s lp = some l)
    (hsorted : l.entries.Pairwise (fun a b => a.1 ≤ b.1))
    (hmem : (key, v0) ∈ l.entries)
    (hrun : insertOp fuel s key value = some (r, s2)) :
    r = false ∧ s2.treeSize = s.treeSize := by
  unfold insertOp at hrun
  rw [if_neg hnz] at hrun
  unfold insertIntoLeaf at hrun
  rw [hdesc] at hrun
  simp only [Option.pure_def, Option.bind_eq_bind, Option.some_bind] at hrun
  rw [hl] at hrun
  simp only [Option.some_bind] at hrun
  have hlen1 : 0 < l.entries.length :=
    List.length_pos.2 (by intro he; rw [he] at hmem; simp at hmem)
  by_cases hful : l.size = l.maxSize
  · rw [if_pos hful] at hrun
    set fresh : LeafNode := ⟨[], INVALID_PAGE_ID, INVALID_PAGE_ID, s.nextAlloc,
      s.leafMaxSize⟩ with hfresh
    have hlth : l.size / 2 < l.entries.length := by
      show l.entries.length / 2 < l.entries.length
      omega
    have hp2e : (leafMoveHalfTo l fresh).2.entries = l.entries.drop (l.size / 2) := rfl
    have hp1e : (leafMoveHalfTo l fresh).1.entries = l.entries.take (l.size / 2) := rfl
    have hkey0 : (leafMoveHalfTo l fresh).2.keyAt 0 =
        (l.entries.getD (l.size / 2) (0, 0)).1 := by
      show ((leafMoveHalfTo l fresh).2.entries.getD 0 (0, 0)).1 = _
      rw [hp2e, getD_drop_zero hlth]
    by_cases hc : cmpI key ((leafMoveHalfTo l fresh).2.keyAt 0) ≥ 0
    · rw [if_pos hc] at hrun
      have hge : (l.entries.getD (l.size / 2) (0, 0)).1 ≤ key := by
        rw [← hkey0]
        exact cmpI_ge_zero.1 hc
      obtain ⟨v2, hm2⟩ := mem_drop_of_ge hsorted hmem hlth hge
      cases hi : (leafMoveHalfTo l fresh).2.insert key value with
      | none => rw [hi] at hrun; simp at hrun
      | some n2 =>
      rw [hi] at hrun
      simp only [Option.some_bind] at hrun
      have hsort2 : (leafMoveHalfTo l fresh).2.entries.Pairwise (fun a b => a.1 ≤ b.1) := by
        rw [hp2e]
        exact List.Pairwise.sublist (List.drop_sublist _ _) hsorted
      have hdup : (leafMoveHalfTo l fresh).2.insert key value =
          some (leafMoveHalfTo l fresh).2 :=
        leafInsert_duplicate hsort2 (by rw [hp2e]; exact hm2) (leafInsert_le hi).2.2
      rw [hi] at hdup
      injection hdup with hdup
      rw [hdup] at hrun
      have hret : ((leafMoveHalfTo l fresh).2.size == (leafMoveHalfTo l fresh).2.size + 1) =
          false := by
        simpa using by omega
      cases hip : insertIntoParent fuel (addPage (updatePage
          ⟨s.pages, s.rootPageId, s.treeSize, s.nextAlloc + 1, s.leafMaxSize,
            s.internalMaxSize⟩ lp
          (.leaf { (leafMoveHalfTo l fresh).1 with nextPageId := s.nextAlloc }))
          s.nextAlloc (.leaf { (leafMoveHalfTo l fresh).2 with
            nextPageId := (leafMoveHalfTo l fresh).1.nextPageId })) lp
          ((leafMoveHalfTo l fresh).2.keyAt 0) s.nextAlloc with
      | none => rw [hip] at hrun; simp at hrun
      | some s6 =>
      rw [hip] at hrun
      simp only [Option.some_bind, Option.some_inj] at hrun
      rw [hret, if_neg Bool.false_ne_true] at hrun
      injection hrun with hr1 hr2
      refine ⟨hr1.symm, ?_⟩
      rw [← hr2]
      rw [insertIntoParent_treeSize fuel hip]
      rfl
    · rw [if_neg hc] at hrun
      have hgt : key < (l.entries.getD (l.size / 2) (0, 0)).1 := by
        rw [← hkey0]
        have := @cmpI_lt_zero key ((leafMoveHalfTo l fresh).2.keyAt 0)
        omega
      obtain ⟨v2, hm2⟩ := mem_take_of_lt hsorted hmem hlth hgt
      cases hi : (leafMoveHalfTo l fresh).1.insert key value with
      | none => rw [hi] at hrun; simp at hrun
      | some d2 =>
      rw [hi] at hrun
      simp only [Option.some_bind] at hrun
      have hsort1 : (leafMoveHalfTo l fresh).1.entries.Pairwise (fun a b => a.1 ≤ b.1) := by
        rw [hp1e]
        exact List.Pairwise.sublist (List.take_sublist _ _) hsorted
      have hdup : (leafMoveHalfTo l fresh).1.insert key value =
          some (leafMoveHalfTo l fresh).1 :=
        leafInsert_duplicate hsort1 (by rw [hp1e]; exact hm2) (leafInsert_le hi).2.2
      rw [hi] at hdup
      injection hdup with hdup
      rw [hdup] at hrun
      have hret : ((leafMoveHalfTo l fresh).1.size == (leafMoveHalfTo l fresh).1.size + 1) =
          false := by
        simpa using by omega
      cases hip : insertIntoParent fuel (addPage (updatePage
          ⟨s.pages, s.rootPageId, s.treeSize, s.nextAlloc + 1, s.leafMaxSize,
            s.internalMaxSize⟩ lp
          (.leaf { (leafMoveHalfTo l fresh).1 with nextPageId := s.nextAlloc }))
          s.nextAlloc (.leaf { (leafMoveHalfTo l fresh).2 with
            nextPageId := (leafMoveHalfTo l fresh).1.nextPageId })) lp
          ((leafMoveHalfTo l fresh).2.keyAt 0) s.nextAlloc with
      | none => rw [hip] at hrun; simp at hrun
      | some s6 =>
      rw [hip] at hrun
      simp only [Option.some_bind, Option.some_inj] at hrun
      rw [hret, if_neg Bool.false_ne_true] at hrun
      injection hrun with hr1 hr2
      refine ⟨hr1.symm, ?_⟩
      rw [← hr2]
      rw [insertIntoParent_treeSize fuel hip]
      rfl
  · rw [if_neg hful] at hrun
    cases hi : l.insert key value with
    | none => rw [hi] at hrun; simp at hrun
    | some d2 =>
    rw [hi] at hrun
    simp only [Option.some_bind, Option.some_inj] at hrun
    have hdup : l.insert key value = some l :=
      leafInsert_duplicate hsorted hmem (leafInsert_le hi).2.2
    rw [hi] at hdup
    injection hdup with hdup
    rw [hdup] at hrun
    have hret : (l.size == l.size + 1) = false := by
      simpa using by omega
    rw [hret] at hrun
    rw [if_neg Bool.false_ne_true] at hrun
    injection hrun with hr1 hr2
    refine ⟨hr1.symm, ?_⟩
    rw [← hr2, updatePage_treeSize]

/-- C1: counterexample to "no state change".  `c1Before` is a single-leaf tree
holding keys 1, 2, 3 with `leaf_max_size = 3`; inserting the duplicate key 1
returns `false` and keeps the cached count at 3, but the full leaf is split
before the duplicate is detected: the tree ends with three pages and a new
root page id. -/
theorem c1_duplicate_insert_restructures :
    (1, 1) ∈ c1Leaf.entries ∧
    getPage c1Before c1Before.rootPageId = some (.leaf c1Leaf) ∧
    insertOp 20 c1Before 1 1 = some (false, c1After) ∧
    c1After.rootPageId ≠ c1Before.rootPageId ∧
    c1After.pages ≠ c1Before.pages ∧
    c1After.treeSize = c1Before.treeSize := by
  refine ⟨by decide, by decide, by decide, by decide, by decide, by decide⟩

theorem c1_duplicate_insert_returns_false_witness :
    insertOp 20 c1Before 1 1 = some (false, c1After) ∧
    (false = false ∧ c1After.treeSize = c1Before.treeSize) := by
  have hrun : insertOp 20 c1Before 1 1 = some (false, c1After) := by decide
  exact ⟨hrun, c1_duplicate_insert_returns_false 20 c1Before 1 1 1 1 c1Leaf false c1After
    (by decide) (by decide) (by decide) (by decide) (by decide) hrun⟩

end BusTub
